import Mathlib

/-!
Verification of the radix tree implementation (package `radix`).

Go strings are modelled as `List Nat` of byte values; runes as `Nat`.
The tree of `radix.go` is modelled by the mutual inductive `GoNode`/`GoEdges`
(a node owns an optional leaf, a prefix fragment `pfx`, and a label-sorted
edge list); `GoTree` adds the `size` counter and the `CaseInsensitive`
(`fold`) flag.  Functions that can panic in Go return `GoResult`
(`.panicked` models a Go panic / out-of-range slice or index).
`unicode.ToLower` is the only piece of the Go standard library that is not
embedded whole: every fold helper takes it as an explicit parameter
`tl : Nat → Nat` (general theorems quantify over it; concrete evaluations
use `toLowerA`, its restriction to ASCII, and only ever reach the ASCII
fast paths where `tl` is not consulted).
-/

/-- A stored entry (Go `leafNode`): the full original key and its value. -/
structure GoLeaf (V : Type) where
  key : List Nat
  val : V
  deriving DecidableEq, Repr

mutual
/-- Go `node`: optional leaf, prefix fragment, ordered edge list. -/
inductive GoNode (V : Type) where
  | mk (leaf : Option (GoLeaf V)) (pfx : List Nat) (edges : GoEdges V)
  deriving DecidableEq, Repr
/-- Go `edges` (`[]edge`): each edge is a label byte plus the owned child. -/
inductive GoEdges (V : Type) where
  | nil
  | cons (label : Nat) (child : GoNode V) (rest : GoEdges V)
  deriving DecidableEq, Repr
end

/-- Go `Tree`: root node, element count (`int`), `CaseInsensitive` flag. -/
structure GoTree (V : Type) where
  root : GoNode V
  size : Int
  fold : Bool
  deriving DecidableEq, Repr

/-- Result of a Go computation that may panic. -/
inductive GoResult (A : Type) where
  | panicked
  | ok (a : A)
  deriving DecidableEq, Repr

def GoNode.leaf {V : Type} : GoNode V → Option (GoLeaf V)
  | .mk lf _ _ => lf

def GoNode.pfx {V : Type} : GoNode V → List Nat
  | .mk _ p _ => p

def GoNode.edges {V : Type} : GoNode V → GoEdges V
  | .mk _ _ es => es

/-- Number of edges (`len(n.edges)`). -/
def GoEdges.length {V : Type} : GoEdges V → Nat
  | .nil => 0
  | .cons _ _ r => r.length + 1

/-- The label of edge `i` (`n.edges[i].label`); only probed in bounds. -/
def GoEdges.labelAt {V : Type} : GoEdges V → Nat → Nat
  | .nil, _ => 0
  | .cons l _ _, 0 => l
  | .cons _ _ r, i + 1 => r.labelAt i

/-- The child of edge `i` (`n.edges[i].node`). -/
def GoEdges.nodeAt? {V : Type} : GoEdges V → Nat → Option (GoNode V)
  | .nil, _ => none
  | .cons _ c _, 0 => some c
  | .cons _ _ r, i + 1 => r.nodeAt? i

/-- Models the in-place update `n.edges[i].node = c` through the edge's pointer. -/
def GoEdges.setNodeAt {V : Type} : GoEdges V → Nat → GoNode V → GoEdges V
  | .nil, _, _ => .nil
  | .cons l _ r, 0, c => .cons l c r
  | .cons l c0 r, i + 1, c => .cons l c0 (r.setNodeAt i c)

/-- Insert an edge at index `i`: the net effect of `addEdge`'s
append-zero / shift-right / overwrite sequence. -/
def GoEdges.insertAt {V : Type} : GoEdges V → Nat → Nat → GoNode V → GoEdges V
  | es, 0, l, c => .cons l c es
  | .nil, _ + 1, l, c => .cons l c .nil
  | .cons l0 c0 r, i + 1, l, c => .cons l0 c0 (r.insertAt i l c)

/-- Remove the edge at index `i`: the net effect of `delEdge`'s
copy-left / truncate sequence. -/
def GoEdges.removeAt {V : Type} : GoEdges V → Nat → GoEdges V
  | .nil, _ => .nil
  | .cons _ _ r, 0 => r
  | .cons l c r, i + 1 => .cons l c (r.removeAt i)

def GoEdges.toList {V : Type} : GoEdges V → List (Nat × GoNode V)
  | .nil => []
  | .cons l c r => (l, c) :: r.toList

/-- `sort.Search`'s loop, fueled (the interval shrinks every iteration, so
fuel `j - i` suffices; the wrapper passes `n`). -/
def sortSearchGo (f : Nat → Bool) : Nat → Nat → Nat → Nat
  | 0, i, _ => i
  | fuel + 1, i, j =>
    if i < j then
      let h := (i + j) / 2
      if f h then sortSearchGo f fuel i h else sortSearchGo f fuel (h + 1) j
    else i

/-- Go `sort.Search(n, f)`: least index in `[0, n)` where `f` holds, for
monotone `f`; `n` when none. -/
def sortSearch (n : Nat) (f : Nat → Bool) : Nat :=
  sortSearchGo f n 0 n

/-- The binary-search index every edge primitive computes:
`sort.Search(num, func(i int) bool { return n.edges[i].label >= label })`. -/
def getEdgeIdx {V : Type} (es : GoEdges V) (label : Nat) : Nat :=
  sortSearch es.length (fun i => decide (label ≤ es.labelAt i))

/-- Go `node.getEdge`. -/
def getEdge {V : Type} (es : GoEdges V) (label : Nat) : Option (GoNode V) :=
  let idx := getEdgeIdx es label
  if idx < es.length ∧ es.labelAt idx = label then es.nodeAt? idx else none

/-- Go `node.addEdge`: binary-search insertion point, then insert. -/
def addEdge {V : Type} (es : GoEdges V) (label : Nat) (c : GoNode V) : GoEdges V :=
  es.insertAt (getEdgeIdx es label) label c

/-- Go `node.updateEdge`: `none` models `panic("replacing missing edge")`. -/
def updateEdge {V : Type} (es : GoEdges V) (label : Nat) (c : GoNode V) :
    Option (GoEdges V) :=
  let idx := getEdgeIdx es label
  if idx < es.length ∧ es.labelAt idx = label then some (es.setNodeAt idx c) else none

/-- Go `node.delEdge`: removes the edge when the label is found,
silently does nothing otherwise. -/
def delEdge {V : Type} (es : GoEdges V) (label : Nat) : GoEdges V :=
  let idx := getEdgeIdx es label
  if idx < es.length ∧ es.labelAt idx = label then es.removeAt idx else es

/-- Models the in-place mutation of the child reached through the edge
pointer that `getEdge` resolved (same binary-search index). -/
def replaceEdgeNode {V : Type} (es : GoEdges V) (label : Nat) (c : GoNode V) :
    GoEdges V :=
  es.setNodeAt (getEdgeIdx es label) c

/-- Go `node.mergeChild`: `none` models the panic of `n.edges[0]` on an
empty edge list (every call site guards `len(n.edges) == 1`). -/
def mergeChildGo {V : Type} : GoNode V → Option (GoNode V)
  | .mk _ p (.cons _ c _) => some (.mk c.leaf (p ++ c.pfx) c.edges)
  | .mk _ _ .nil => none

mutual
/-- Tree depth; every descending loop visits at most `depth` nodes, so it
serves as fuel for the loop translations below. -/
def GoNode.depth {V : Type} : GoNode V → Nat
  | .mk _ _ es => es.depthE + 1
def GoEdges.depthE {V : Type} : GoEdges V → Nat
  | .nil => 0
  | .cons _ c r => max c.depth r.depthE
end

mutual
/-- The `(key, value)` pairs `recursiveWalk` visits, in visit (pre-)order. -/
def GoNode.content {V : Type} : GoNode V → List (List Nat × V)
  | .mk lf _ es =>
    (match lf with
     | some l => [(l.key, l.val)]
     | none => []) ++ es.contentE
def GoEdges.contentE {V : Type} : GoEdges V → List (List Nat × V)
  | .nil => []
  | .cons _ c r => c.content ++ r.contentE
end

/-- The count `deletePrefix` computes by walking the subtree: one per leaf. -/
def GoNode.numLeaves {V : Type} (n : GoNode V) : Nat :=
  n.content.length

/-! ## String helpers, byte-exact forms -/

/-- `strings.HasPrefix s pre`. -/
def goHasPrefix (s pre : List Nat) : Bool :=
  pre.isPrefixOf s

/-- `longestPrefix` (radix.go) / `LongestPrefix` (helpers.go): index of the
first mismatching byte, at most the shorter length. -/
def longestPrefixB : List Nat → List Nat → Nat
  | a :: as, b :: bs => if a = b then longestPrefixB as bs + 1 else 0
  | _, _ => 0

/-! ## String helpers, Unicode case-folding forms

`unicode/utf8` decoding is embedded whole; `unicode.ToLower` is the
parameter `tl`. -/

/-- `utf8.RuneError`. -/
def runeError : Nat := 0xFFFD

/-- `utf8.DecodeRuneInString`: first rune and its byte size; `(RuneError, 0)`
on empty input, `(RuneError, 1)` on invalid encodings. -/
def decodeRune (s : List Nat) : Nat × Nat :=
  match s with
  | [] => (runeError, 0)
  | s0 :: rest =>
    if s0 < 0x80 then (s0, 1)
    else if s0 < 0xC2 then (runeError, 1)
    else if s0 < 0xE0 then
      match rest with
      | s1 :: _ =>
        if 0x80 ≤ s1 ∧ s1 ≤ 0xBF then ((s0 % 0x20) * 0x40 + s1 % 0x40, 2)
        else (runeError, 1)
      | [] => (runeError, 1)
    else if s0 < 0xF0 then
      let lo := if s0 = 0xE0 then 0xA0 else 0x80
      let hi := if s0 = 0xED then 0x9F else 0xBF
      match rest with
      | s1 :: s2 :: _ =>
        if lo ≤ s1 ∧ s1 ≤ hi ∧ 0x80 ≤ s2 ∧ s2 ≤ 0xBF then
          ((s0 % 0x10) * 0x1000 + (s1 % 0x40) * 0x40 + s2 % 0x40, 3)
        else (runeError, 1)
      | _ => (runeError, 1)
    else if s0 < 0xF5 then
      let lo := if s0 = 0xF0 then 0x90 else 0x80
      let hi := if s0 = 0xF4 then 0x8F else 0xBF
      match rest with
      | s1 :: s2 :: s3 :: _ =>
        if lo ≤ s1 ∧ s1 ≤ hi ∧ 0x80 ≤ s2 ∧ s2 ≤ 0xBF ∧ 0x80 ≤ s3 ∧ s3 ≤ 0xBF then
          ((s0 % 0x08) * 0x40000 + (s1 % 0x40) * 0x1000 + (s2 % 0x40) * 0x40 +
            s3 % 0x40, 4)
        else (runeError, 1)
      | _ => (runeError, 1)
    else (runeError, 1)

/-- `utf8.RuneStart`: not a continuation byte (`b & 0xC0 != 0x80`). -/
def isRuneStart (b : Nat) : Bool :=
  decide (b < 0x80) || decide (0xC0 ≤ b)

/-- The backward scan of `utf8.DecodeLastRuneInString` for a rune start
(at most 3 probes; fuel 4 covers the window `[lim, end-2]`). -/
def runeStartBack (s : List Nat) (lim : Int) : Int → Nat → Int
  | start, 0 => start
  | start, fuel + 1 =>
    if lim ≤ start then
      if isRuneStart (s.getD start.toNat 0) then start
      else runeStartBack s lim (start - 1) fuel
    else start

/-- `utf8.DecodeLastRuneInString`: last rune of `s` and its byte size. -/
def decodeLastRune (s : List Nat) : Nat × Nat :=
  let e := s.length
  if e = 0 then (runeError, 0)
  else
    let last := s.getD (e - 1) 0
    if last < 0x80 then (last, 1)
    else
      let lim : Int := max ((e : Int) - 4) 0
      let st0 := runeStartBack s lim ((e : Int) - 2) 4
      let st : Nat := (max st0 0).toNat
      let rs := decodeRune (s.drop st)
      if st + rs.2 ≠ e then (runeError, 1) else rs

/-- `asciiLower`. -/
def asciiLower (r : Nat) : Nat :=
  if 65 ≤ r ∧ r ≤ 90 then r + 32 else r

/-- `asciiEq` (radix.go's short-circuit form; helpers.go's `asciiTable`
lookup computes the same comparison of lowered bytes). -/
def asciiEq (sr tr : Nat) : Bool :=
  decide (sr = tr) || decide (asciiLower sr = asciiLower tr)

/-- `runeEq` (both files): equal runes or equal `unicode.ToLower` images. -/
def runeEq (tl : Nat → Nat) (sr tr : Nat) : Bool :=
  decide (sr = tr) || decide (tl sr = tl tr)

/-- `unicode.ToLower` restricted to ASCII, used only for concrete
evaluations whose executions never leave the ASCII fast paths (there the
Go function maps `'A'..'Z'` down by 32 and fixes the rest). -/
def toLowerA (r : Nat) : Nat :=
  asciiLower r

/-- Loop of `longestPrefixFold` (radix.go), over the byte index `i` into the
shorter string `k1`; note the decode of the LAST rune of `k1[i:]` and the
final `return i + 1` once `i` reaches `len(k1)`, both as in the source. -/
def longestPrefixFoldLoop (tl : Nat → Nat) (k1 k2 : List Nat) :
    Nat → Nat → Nat
  | 0, i => i
  | fuel + 1, i =>
    if i < k1.length then
      let c := k1.getD i 0
      if c < 0x80 then
        if asciiEq c (k2.getD i 0) then longestPrefixFoldLoop tl k1 k2 fuel (i + 1)
        else i
      else
        let r1 := decodeLastRune (k1.drop i)
        let r2 := decodeRune (k2.drop i)
        if runeEq tl r1.1 r2.1 then longestPrefixFoldLoop tl k1 k2 fuel (i + r1.2)
        else i
    else i + 1

/-- `longestPrefixFold` (radix.go): swap so `k1` is the shorter, then loop. -/
def longestPrefixFoldR (tl : Nat → Nat) (a b : List Nat) : Nat :=
  let k1 := if a.length > b.length then b else a
  let k2 := if a.length > b.length then a else b
  longestPrefixFoldLoop tl k1 k2 (k1.length + 1) 0

/-- Loop of `hasPrefixFold` (radix.go). -/
def hasPrefixFoldLoop (tl : Nat → Nat) (s pre : List Nat) : Nat → Nat → Bool
  | 0, _ => false
  | fuel + 1, i =>
    if i < pre.length then
      let c := pre.getD i 0
      if c < 0x80 then
        if asciiEq c (s.getD i 0) then hasPrefixFoldLoop tl s pre fuel (i + 1)
        else false
      else
        let pr := decodeLastRune (pre.drop i)
        let sr := decodeRune (s.drop i)
        if runeEq tl pr.1 sr.1 then hasPrefixFoldLoop tl s pre fuel (i + pr.2)
        else false
    else true

/-- `hasPrefixFold` (radix.go). -/
def hasPrefixFoldR (tl : Nat → Nat) (s pre : List Nat) : Bool :=
  if s.length < pre.length then false
  else hasPrefixFoldLoop tl s pre (pre.length + 1) 0

/-- Loop of `LongestPrefixFold` (helpers.go): `for i, r1 = range k1` decodes
the rune at each byte index and advances by its size; completion returns
`len(k1)`. -/
def longestPrefFoldLoopH (tl : Nat → Nat) (k1 k2 : List Nat) :
    Nat → Nat → Nat
  | 0, i => i
  | fuel + 1, i =>
    if i < k1.length then
      let r1 := decodeRune (k1.drop i)
      if r1.1 < 0x80 then
        if asciiEq r1.1 (k2.getD i 0) then
          longestPrefFoldLoopH tl k1 k2 fuel (i + r1.2)
        else i
      else
        let r2 := decodeRune (k2.drop i)
        if runeEq tl r1.1 r2.1 then longestPrefFoldLoopH tl k1 k2 fuel (i + r1.2)
        else i
    else k1.length

/-- `LongestPrefixFold` (helpers.go / part_002's loop form, identical
semantics): swap so `k1` is the shorter, then range over its runes. -/
def LongestPrefixFoldH (tl : Nat → Nat) (a b : List Nat) : Nat :=
  let k1 := if a.length > b.length then b else a
  let k2 := if a.length > b.length then a else b
  longestPrefFoldLoopH tl k1 k2 (k1.length + 1) 0

/-- Loop of `HasPrefixFold` (helpers.go): `for i, pr = range pre`. -/
def hasPrefFoldLoopH (tl : Nat → Nat) (s pre : List Nat) : Nat → Nat → Bool
  | 0, _ => false
  | fuel + 1, i =>
    if i < pre.length then
      let pr := decodeRune (pre.drop i)
      if pr.1 < 0x80 then
        if asciiEq pr.1 (s.getD i 0) then hasPrefFoldLoopH tl s pre fuel (i + pr.2)
        else false
      else
        let sr := decodeRune (s.drop i)
        if runeEq tl pr.1 sr.1 then hasPrefFoldLoopH tl s pre fuel (i + pr.2)
        else false
    else true

/-- `HasPrefixFold` (helpers.go). -/
def HasPrefixFoldH (tl : Nat → Nat) (s pre : List Nat) : Bool :=
  if s.length < pre.length then false
  else hasPrefFoldLoopH tl s pre (pre.length + 1) 0

/-- `Tree.hasPrefixFn` (radix.go): `strings.HasPrefix` or `hasPrefixFold`. -/
def hpFn (fold : Bool) (tl : Nat → Nat) (s pre : List Nat) : Bool :=
  if fold then hasPrefixFoldR tl s pre else goHasPrefix s pre

/-- `Tree.longestPrefixFn` (radix.go): `longestPrefix` or `longestPrefixFold`. -/
def lcpFn (fold : Bool) (tl : Nat → Nat) (a b : List Nat) : Nat :=
  if fold then longestPrefixFoldR tl a b else longestPrefixB a b

/-- `hasPrefixFn` (helpers.go), used by the part_000 variant. -/
def hpFnH (fold : Bool) (tl : Nat → Nat) (s pre : List Nat) : Bool :=
  if fold then HasPrefixFoldH tl s pre else goHasPrefix s pre

/-! ## Tree operations (radix.go) -/

/-- `Tree.Insert`'s loop (radix.go 151-238), one frame per iteration at the
current node; `search` is the remaining key, `s` the full key.  `.panicked`
models Go panics: out-of-range slices/indexes (reachable in fold mode via
`longestPrefixFold`'s off-by-one) and `updateEdge` on a missing label.
Each iteration descends into an edge's child, so `depth` bounds the fuel. -/
def insertRec {V : Type} (fold : Bool) (tl : Nat → Nat) :
    Nat → GoNode V → List Nat → List Nat → V → GoResult (Option V × GoNode V)
  | 0, _, _, _, _ => .panicked
  | _ + 1, n, s, [], v =>
    match n.leaf with
    | some lf => .ok (some lf.val, .mk (some ⟨lf.key, v⟩) n.pfx n.edges)
    | none => .ok (none, .mk (some ⟨s, v⟩) n.pfx n.edges)
  | fuel + 1, n, s, label :: srest, v =>
    let search := label :: srest
    match getEdge n.edges label with
    | none =>
      .ok (none, .mk n.leaf n.pfx
        (addEdge n.edges label (.mk (some ⟨s, v⟩) search .nil)))
    | some c =>
      let cp := lcpFn fold tl search c.pfx
      if cp = c.pfx.length then
        if cp ≤ search.length then
          match insertRec fold tl fuel c s (search.drop cp) v with
          | .panicked => .panicked
          | .ok (old, c') =>
            .ok (old, .mk n.leaf n.pfx (replaceEdgeNode n.edges label c'))
        else .panicked
      else
        if cp ≤ search.length then
          if cp < c.pfx.length then
            let cMod : GoNode V := .mk c.leaf (c.pfx.drop cp) c.edges
            let child0 : GoEdges V := addEdge .nil (c.pfx.getD cp 0) cMod
            let rest := search.drop cp
            let child : GoNode V :=
              if rest.isEmpty then .mk (some ⟨s, v⟩) (search.take cp) child0
              else .mk none (search.take cp)
                (addEdge child0 (rest.headD 0) (.mk (some ⟨s, v⟩) rest .nil))
            match updateEdge n.edges label child with
            | some es => .ok (none, .mk n.leaf n.pfx es)
            | none => .panicked
          else .panicked
        else .panicked

/-- `Tree.Delete`'s loop (radix.go 243-300).  The payload of a successful
frame is `(value, replacement node, info)`: `info = some removeMe` exactly
at the node where the key was found (`removeMe` records Go's
`len(n.edges) == 0` check made before the self-merge), so that the
immediate parent frame — and only it — performs `delEdge` and the
parent-merge of lines 285-297. -/
def deleteRec {V : Type} (fold : Bool) (tl : Nat → Nat) :
    Nat → Bool → GoNode V → List Nat →
    GoResult (Option (V × GoNode V × Option Bool))
  | 0, _, _, _ => .panicked
  | _ + 1, isRoot, n, [] =>
    match n.leaf with
    | none => .ok none
    | some lf =>
      let n1 : GoNode V := .mk none n.pfx n.edges
      let removeMe := n1.edges.length == 0
      if !isRoot && n1.edges.length == 1 then
        match mergeChildGo n1 with
        | some n2 => .ok (some (lf.val, n2, some removeMe))
        | none => .panicked
      else .ok (some (lf.val, n1, some removeMe))
  | fuel + 1, isRoot, n, label :: srest =>
    let search := label :: srest
    match getEdge n.edges label with
    | none => .ok none
    | some c =>
      if hpFn fold tl search c.pfx then
        match deleteRec fold tl fuel false c (search.drop c.pfx.length) with
        | .panicked => .panicked
        | .ok none => .ok none
        | .ok (some (v, c', some removeMe)) =>
          let es1 := if removeMe then delEdge n.edges label
                     else replaceEdgeNode n.edges label c'
          let n1 : GoNode V := .mk n.leaf n.pfx es1
          if !isRoot && es1.length == 1 && n1.leaf.isNone then
            match mergeChildGo n1 with
            | some n2 => .ok (some (v, n2, none))
            | none => .panicked
          else .ok (some (v, n1, none))
        | .ok (some (v, c', none)) =>
          .ok (some (v, .mk n.leaf n.pfx (replaceEdgeNode n.edges label c'), none))
      else .ok none

/-- `Tree.deletePrefix` (radix.go 311-349).  The payload is
`(count, replacement node, cleared)`; `cleared` is true exactly at the node
where the prefix was exhausted, so the caller — the parent — applies the
parent-merge of line 328.  Note: this variant does NOT remove the emptied
node's edge from its parent. -/
def deletePrefixRec {V : Type} (fold : Bool) (tl : Nat → Nat) :
    Nat → Bool → GoNode V → List Nat → GoResult (Nat × GoNode V × Bool)
  | 0, _, _, _ => .panicked
  | _ + 1, _, n, [] =>
    .ok (n.numLeaves, .mk none n.pfx .nil, true)
  | fuel + 1, isRoot, n, label :: prest =>
    let p := label :: prest
    match getEdge n.edges label with
    | none => .ok (0, n, false)
    | some c =>
      if !(hpFn fold tl c.pfx p) && !(hpFn fold tl p c.pfx) then .ok (0, n, false)
      else
        let p' := if c.pfx.length > p.length then [] else p.drop c.pfx.length
        match deletePrefixRec fold tl fuel false c p' with
        | .panicked => .panicked
        | .ok (cnt, c', cleared) =>
          let n1 : GoNode V := .mk n.leaf n.pfx (replaceEdgeNode n.edges label c')
          if cleared && !isRoot && n1.edges.length == 1 && n1.leaf.isNone then
            match mergeChildGo n1 with
            | some n2 => .ok (cnt, n2, false)
            | none => .panicked
          else .ok (cnt, n1, false)

/-- `Tree.deletePrefix` of the src/unnamed/part_000 variant (lines 303-346):
identical except that the parent of the emptied node removes its now
dangling edge (`parent.delEdge(n.prefix[0])`, with the part_000/helpers
prefix predicates). -/
def deletePrefixRecP {V : Type} (fold : Bool) (tl : Nat → Nat) :
    Nat → Bool → GoNode V → List Nat → GoResult (Nat × GoNode V × Bool)
  | 0, _, _, _ => .panicked
  | _ + 1, _, n, [] =>
    .ok (n.numLeaves, .mk none n.pfx .nil, true)
  | fuel + 1, isRoot, n, label :: prest =>
    let p := label :: prest
    match getEdge n.edges label with
    | none => .ok (0, n, false)
    | some c =>
      if !(hpFnH fold tl c.pfx p) && !(hpFnH fold tl p c.pfx) then .ok (0, n, false)
      else
        let p' := if c.pfx.length > p.length then [] else p.drop c.pfx.length
        match deletePrefixRecP fold tl fuel false c p' with
        | .panicked => .panicked
        | .ok (cnt, c', cleared) =>
          if cleared then
            match c'.pfx with
            | [] => .panicked
            | pb :: _ =>
              let es1 := delEdge n.edges pb
              let n1 : GoNode V := .mk n.leaf n.pfx es1
              if !isRoot && es1.length == 1 && n1.leaf.isNone then
                match mergeChildGo n1 with
                | some n2 => .ok (cnt, n2, false)
                | none => .panicked
              else .ok (cnt, n1, false)
          else
            .ok (cnt, .mk n.leaf n.pfx (replaceEdgeNode n.edges label c'), false)

/-- `Tree.Get`'s loop (radix.go 362-389); total (no reachable panic). -/
def getRec {V : Type} (fold : Bool) (tl : Nat → Nat) :
    Nat → GoNode V → List Nat → Option V
  | 0, _, _ => none
  | _ + 1, n, [] => n.leaf.map (fun lf => lf.val)
  | fuel + 1, n, label :: srest =>
    let search := label :: srest
    match getEdge n.edges label with
    | none => none
    | some c =>
      if hpFn fold tl search c.pfx then getRec fold tl fuel c (search.drop c.pfx.length)
      else none

/-- `Tree.LongestPrefix`'s loop (radix.go 394-429), with the `last` leaf
accumulator. -/
def longestPrefixRec {V : Type} (fold : Bool) (tl : Nat → Nat) :
    Nat → GoNode V → List Nat → Option (GoLeaf V) → Option (GoLeaf V)
  | 0, _, _, last => last
  | _ + 1, n, [], last =>
    match n.leaf with
    | some lf => some lf
    | none => last
  | fuel + 1, n, label :: srest, last =>
    let search := label :: srest
    let last1 := match n.leaf with
      | some lf => some lf
      | none => last
    match getEdge n.edges label with
    | none => last1
    | some c =>
      if hpFn fold tl search c.pfx then
        longestPrefixRec fold tl fuel c (search.drop c.pfx.length) last1
      else last1

/-- `Tree.Minimum`'s loop (radix.go 433-446): stop at the first leaf,
else descend the first edge. -/
def minimumRec {V : Type} : GoNode V → Option (GoLeaf V)
  | .mk (some lf) _ _ => some lf
  | .mk none _ (.cons _ c _) => minimumRec c
  | .mk none _ .nil => none

/-- The last edge's child (`n.edges[num-1].node`). -/
def GoEdges.lastNode? {V : Type} : GoEdges V → Option (GoNode V)
  | .nil => none
  | .cons _ c .nil => some c
  | .cons _ _ (.cons l c r) => GoEdges.lastNode? (.cons l c r)

/-- `Tree.Maximum`'s loop (radix.go 450-463): descend the last edge while
edges exist, else return the node's own leaf; fueled by `depth`. -/
def maximumRec {V : Type} : Nat → GoNode V → Option (GoLeaf V)
  | 0, _ => none
  | fuel + 1, n =>
    match n.edges.lastNode? with
    | some c => maximumRec fuel c
    | none => n.leaf

/-! ## Public operations on the tree -/

/-- `var t Tree[VT]` / `New()`. -/
def emptyTree (V : Type) (fold : Bool) : GoTree V :=
  ⟨.mk none [] .nil, 0, fold⟩

/-- `Tree.Insert` (`Set` in the part_000 variant).  On success the second
component is the resulting tree; `size` is incremented exactly on the
paths where the Go code runs `t.size++` and completes. -/
def GoTree.Insert {V : Type} (t : GoTree V) (tl : Nat → Nat) (s : List Nat)
    (v : V) : GoResult (Option V × GoTree V) :=
  match insertRec t.fold tl t.root.depth t.root s s v with
  | .panicked => .panicked
  | .ok (old, r) =>
    .ok (old, ⟨r, if old.isSome then t.size else t.size + 1, t.fold⟩)

/-- `Tree.Delete`: `ok (none, t)` is the not-found path (tree untouched). -/
def GoTree.Delete {V : Type} (t : GoTree V) (tl : Nat → Nat) (s : List Nat) :
    GoResult (Option V × GoTree V) :=
  match deleteRec t.fold tl t.root.depth true t.root s with
  | .panicked => .panicked
  | .ok none => .ok (none, t)
  | .ok (some (v, r, _)) => .ok (some v, ⟨r, t.size - 1, t.fold⟩)

/-- `Tree.DeletePrefix` (radix.go). -/
def GoTree.DeletePrefix {V : Type} (t : GoTree V) (tl : Nat → Nat)
    (p : List Nat) : GoResult (Nat × GoTree V) :=
  match deletePrefixRec t.fold tl t.root.depth true t.root p with
  | .panicked => .panicked
  | .ok (cnt, r, _) => .ok (cnt, ⟨r, t.size - cnt, t.fold⟩)

/-- `Tree.DeletePrefix` of the part_000 variant. -/
def GoTree.DeletePrefixP {V : Type} (t : GoTree V) (tl : Nat → Nat)
    (p : List Nat) : GoResult (Nat × GoTree V) :=
  match deletePrefixRecP t.fold tl t.root.depth true t.root p with
  | .panicked => .panicked
  | .ok (cnt, r, _) => .ok (cnt, ⟨r, t.size - cnt, t.fold⟩)

/-- `Tree.Get`: `some v` is `(v, true)`, `none` is `(zero, false)`. -/
def GoTree.Get {V : Type} (t : GoTree V) (tl : Nat → Nat) (s : List Nat) :
    Option V :=
  getRec t.fold tl t.root.depth t.root s

/-- `Tree.LongestPrefix`. -/
def GoTree.LongestPrefix {V : Type} (t : GoTree V) (tl : Nat → Nat)
    (s : List Nat) : Option (List Nat × V) :=
  (longestPrefixRec t.fold tl t.root.depth t.root s none).map
    (fun lf => (lf.key, lf.val))

/-- `Tree.Minimum`. -/
def GoTree.Minimum {V : Type} (t : GoTree V) : Option (List Nat × V) :=
  (minimumRec t.root).map (fun lf => (lf.key, lf.val))

/-- `Tree.Maximum`. -/
def GoTree.Maximum {V : Type} (t : GoTree V) : Option (List Nat × V) :=
  (maximumRec t.root.depth t.root).map (fun lf => (lf.key, lf.val))

/-- `Tree.Len`. -/
def GoTree.Len {V : Type} (t : GoTree V) : Int :=
  t.size

mutual
/-- Whether some node strictly below this one has neither a leaf nor edges
(a dangling node; the root itself is exempt, as in the spec's invariant). -/
def GoNode.hasDangling {V : Type} : GoNode V → Bool
  | .mk _ _ es => es.hasDanglingE
def GoEdges.hasDanglingE {V : Type} : GoEdges V → Bool
  | .nil => false
  | .cons _ c r =>
    (c.leaf.isNone && c.edges.length == 0) || c.hasDangling || r.hasDanglingE
end

/-! ## Concrete trees used by the evaluation theorems (each is verified to
be the tree the stated insertions build, starting from the empty tree). -/

/-- Fold-mode tree holding `"Foo" ↦ 1`. -/
def fooTree : GoTree Nat :=
  ⟨.mk none [] (.cons 70 (.mk (some ⟨[70, 111, 111], 1⟩) [70, 111, 111] .nil) .nil),
   1, true⟩

/-- Fold-mode tree holding `"a" ↦ 1`. -/
def aFoldTree : GoTree Nat :=
  ⟨.mk none [] (.cons 97 (.mk (some ⟨[97], 1⟩) [97] .nil) .nil), 1, true⟩

/-- Byte-mode tree holding `"a" ↦ 1`. -/
def aByteTree : GoTree Nat :=
  ⟨.mk none [] (.cons 97 (.mk (some ⟨[97], 1⟩) [97] .nil) .nil), 1, false⟩

/-- Byte-mode tree holding `"a" ↦ 1, "ab" ↦ 2`. -/
def abTree : GoTree Nat :=
  ⟨.mk none []
    (.cons 97
      (.mk (some ⟨[97], 1⟩) [97]
        (.cons 98 (.mk (some ⟨[97, 98], 2⟩) [98] .nil) .nil))
      .nil),
   2, false⟩

/-- `abTree` after radix.go's `DeletePrefix("a")`: the emptied node is left
attached to the root with no leaf and no edges. -/
def abDangTree : GoTree Nat :=
  ⟨.mk none [] (.cons 97 (.mk none [97] .nil) .nil), 0, false⟩

/-- Byte-mode tree holding `"a" ↦ 1, "ab" ↦ 2, "b" ↦ 3`. -/
def abbTree : GoTree Nat :=
  ⟨.mk none []
    (.cons 97
      (.mk (some ⟨[97], 1⟩) [97]
        (.cons 98 (.mk (some ⟨[97, 98], 2⟩) [98] .nil) .nil))
      (.cons 98 (.mk (some ⟨[98], 3⟩) [98] .nil) .nil)),
   3, false⟩

/-- `abbTree` after radix.go's `DeletePrefix("a")`: `"b" ↦ 3` is still
stored, but a dangling node sits on the root's first edge. -/
def abbDangTree : GoTree Nat :=
  ⟨.mk none []
    (.cons 97 (.mk none [97] .nil)
      (.cons 98 (.mk (some ⟨[98], 3⟩) [98] .nil) .nil)),
   1, false⟩

/-- C1's counterexample: in fold mode, after `Set("a", 1)` on an empty tree,
`Set("ab", 2)` panics (the `longestPrefixFold` off-by-one sends the split
code indexing past the end of the node's prefix), so there is no resulting
tree on which `Get` could return `(2, true)`. -/
theorem C1_cex :
    (emptyTree Nat true).Insert toLowerA [97] 1 = .ok (none, aFoldTree) ∧
    aFoldTree.Insert toLowerA [97, 98] 2 = .panicked := by decide

/-- C2's evaluation: in fold mode, `Set("Foo", 1)` then `Get("fOO")` returns
not-found — `getEdge` compares the raw first byte `'f' ≠ 'F'` — while
`Get("FOO")`, whose first byte matches exactly, succeeds. -/
theorem C2_fold_get_eval :
    (emptyTree Nat true).Insert toLowerA [70, 111, 111] 1 = .ok (none, fooTree) ∧
    fooTree.Get toLowerA [102, 79, 79] = none ∧
    fooTree.Get toLowerA [70, 79, 79] = some 1 := by decide

/-- C3's evaluation: with `"a" ↦ 1, "ab" ↦ 2` stored, radix.go's
`DeletePrefix("a")` returns 2 but leaves the emptied node attached to the
root with no leaf and no edges (a dangling node that persists), whereas the
part_000 variant of `deletePrefix` removes the dangling edge. -/
theorem C3_dangling_eval :
    (emptyTree Nat false).Insert toLowerA [97] 1 = .ok (none, aByteTree) ∧
    aByteTree.Insert toLowerA [97, 98] 2 = .ok (none, abTree) ∧
    abTree.DeletePrefix toLowerA [97] = .ok (2, abDangTree) ∧
    abDangTree.root.hasDangling = true ∧
    abTree.DeletePrefixP toLowerA [97] =
      .ok (2, ⟨.mk none [] .nil, 0, false⟩) ∧
    (GoNode.mk (none : Option (GoLeaf Nat)) [] .nil).hasDangling = false := by
  decide

/-- C4's counterexample: `delEdge` on a label that is not present returns
the edge list unchanged — a silent no-op, not a fatal abort. -/
theorem C4_cex :
    delEdge (GoEdges.cons 97 (GoNode.mk (none : Option (GoLeaf Nat)) [97] .nil)
      .nil) 98 =
    GoEdges.cons 97 (GoNode.mk none [97] .nil) .nil := by decide

/-- C5's counterexample: radix.go's `longestPrefixFold("a", "a")` returns 2,
exceeding the length (1) of both strings. -/
theorem C5_cex :
    longestPrefixFoldR toLowerA [97] [97] = 2 ∧ ([97] : List Nat).length = 1 := by
  decide

/-- C7's counterexample: `DeletePrefix("a")` on the byte-mode tree
`{"a" ↦ 1, "ab" ↦ 2, "b" ↦ 3}` leaves a non-empty tree (`"b"` still stored,
`Len() = 1`) on which `Minimum()` reports not-found: the descent runs into
the dangling node on the root's first edge. -/
theorem C7_cex :
    abbTree.DeletePrefix toLowerA [97] = .ok (2, abbDangTree) ∧
    abbDangTree.Minimum = none ∧
    abbDangTree.Get toLowerA [98] = some 3 ∧
    abbDangTree.size = 1 ∧
    abbDangTree.Maximum = some ([98], 3) := by decide

/-! ## Induction principles

`GoNode`/`GoEdges` is a mutual inductive; these are the structural
induction principles the proofs use. -/

def GoEdges.induct {V : Type} {motive : GoEdges V → Prop}
    (hnil : motive .nil)
    (hcons : ∀ l c r, motive r → motive (.cons l c r)) : ∀ es, motive es
  | .nil => hnil
  | .cons l c r => hcons l c r (GoEdges.induct hnil hcons r)

mutual
def GoNode.inductM {V : Type} {P : GoNode V → Prop} {Q : GoEdges V → Prop}
    (hmk : ∀ lf p es, Q es → P (.mk lf p es))
    (hnil : Q .nil)
    (hcons : ∀ l c r, P c → Q r → Q (.cons l c r)) : ∀ n, P n
  | .mk lf p es => hmk lf p es (GoEdges.inductM hmk hnil hcons es)
def GoEdges.inductM {V : Type} {P : GoNode V → Prop} {Q : GoEdges V → Prop}
    (hmk : ∀ lf p es, Q es → P (.mk lf p es))
    (hnil : Q .nil)
    (hcons : ∀ l c r, P c → Q r → Q (.cons l c r)) : ∀ es, Q es
  | .nil => hnil
  | .cons l c r =>
    hcons l c r (GoNode.inductM hmk hnil hcons c) (GoEdges.inductM hmk hnil hcons r)
end

/-! ## Sortedness and linear characterizations of the edge primitives

The Go primitives locate edges by binary search.  On strictly sorted edge
lists — the invariant `addEdge` maintains — they agree with the obvious
linear scans `findEdgeL`/`insE`/`replE`/`delE`, which the proofs then use. -/

/-- Every label in the list exceeds `l`. -/
def labelsAbove {V : Type} (l : Nat) : GoEdges V → Prop
  | .nil => True
  | .cons l' _ r => l < l' ∧ labelsAbove l r

/-- Labels strictly ascending. -/
def edgesSorted {V : Type} : GoEdges V → Prop
  | .nil => True
  | .cons l _ r => labelsAbove l r ∧ edgesSorted r

def GoEdges.labels {V : Type} : GoEdges V → List Nat
  | .nil => []
  | .cons l _ r => l :: r.labels

/-- Linear first-match lookup. -/
def findEdgeL {V : Type} : GoEdges V → Nat → Option (GoNode V)
  | .nil, _ => none
  | .cons l c r, x => if x = l then some c else findEdgeL r x

/-- Linear sorted insertion. -/
def insE {V : Type} : GoEdges V → Nat → GoNode V → GoEdges V
  | .nil, x, c => .cons x c .nil
  | .cons l c0 r, x, c =>
    if x ≤ l then .cons x c (.cons l c0 r) else .cons l c0 (insE r x c)

/-- Linear first-match replacement. -/
def replE {V : Type} : GoEdges V → Nat → GoNode V → GoEdges V
  | .nil, _, _ => .nil
  | .cons l c0 r, x, c => if x = l then .cons l c r else .cons l c0 (replE r x c)

/-- Linear first-match removal. -/
def delE {V : Type} : GoEdges V → Nat → GoEdges V
  | .nil, _ => .nil
  | .cons l c0 r, x => if x = l then r else .cons l c0 (delE r x)

theorem labelsAbove_labelAt {V : Type} {l : Nat} {r : GoEdges V}
    (h : labelsAbove l r) : ∀ m, m < r.length → l < r.labelAt m := by
  induction r using GoEdges.induct with
  | hnil => intro m hm; simp [GoEdges.length] at hm
  | hcons l' c rr ih =>
    intro m hm
    obtain ⟨h1, h2⟩ := h
    match m with
    | 0 => simpa [GoEdges.labelAt] using h1
    | m + 1 =>
      simp only [GoEdges.labelAt]
      exact ih h2 m (by simpa [GoEdges.length] using hm)

theorem labelAt_mono {V : Type} {es : GoEdges V} (hs : edgesSorted es) :
    ∀ a b, a ≤ b → b < es.length → es.labelAt a ≤ es.labelAt b := by
  induction es using GoEdges.induct with
  | hnil => intro a b _ hb; simp [GoEdges.length] at hb
  | hcons l c r ih =>
    intro a b hab hb
    obtain ⟨h1, h2⟩ := hs
    match a, b with
    | 0, 0 => exact Nat.le_refl _
    | 0, b + 1 =>
      simp only [GoEdges.labelAt]
      exact Nat.le_of_lt (labelsAbove_labelAt h1 b (by simpa [GoEdges.length] using hb))
    | a + 1, b + 1 =>
      simp only [GoEdges.labelAt]
      exact ih h2 a b (by omega) (by simpa [GoEdges.length] using hb)

/-- Characterization of `sort.Search`'s loop for monotone predicates. -/
theorem sortSearchGo_spec (f : Nat → Bool) (N : Nat)
    (mono : ∀ a b, a ≤ b → b < N → f a = true → f b = true) :
    ∀ fuel i j, i ≤ j → j ≤ N → j - i ≤ fuel →
      i ≤ sortSearchGo f fuel i j ∧ sortSearchGo f fuel i j ≤ j ∧
      (∀ m, i ≤ m → m < sortSearchGo f fuel i j → f m = false) ∧
      (∀ m, sortSearchGo f fuel i j ≤ m → m < j → f m = true) := by
  intro fuel
  induction fuel with
  | zero =>
    intro i j hij hjN hf
    have : i = j := by omega
    subst this
    simp only [sortSearchGo]
    exact ⟨Nat.le_refl _, Nat.le_refl _, fun m h1 h2 => absurd h2 (by omega),
      fun m h1 h2 => absurd h2 (by omega)⟩
  | succ fuel ih =>
    intro i j hij hjN hf
    simp only [sortSearchGo]
    by_cases hlt : i < j
    · rw [if_pos hlt]
      cases hfm : f ((i + j) / 2) with
      | true =>
        rw [if_pos rfl]
        obtain ⟨b1, b2, b3, b4⟩ := ih i ((i + j) / 2) (by omega) (by omega) (by omega)
        refine ⟨b1, by omega, b3, fun m h1 h2 => ?_⟩
        by_cases hm : m < (i + j) / 2
        · exact b4 m h1 hm
        · exact mono ((i + j) / 2) m (by omega) (by omega) hfm
      | false =>
        rw [if_neg Bool.false_ne_true]
        obtain ⟨b1, b2, b3, b4⟩ := ih ((i + j) / 2 + 1) j (by omega) hjN (by omega)
        refine ⟨by omega, b2, fun m h1 h2 => ?_, b4⟩
        by_cases hm : (i + j) / 2 + 1 ≤ m
        · exact b3 m hm h2
        · cases hfmm : f m with
          | false => rfl
          | true =>
            have := mono m ((i + j) / 2) (by omega) (by omega) hfmm
            rw [this] at hfm
            exact absurd hfm (by simp)
    · rw [if_neg hlt]
      exact ⟨Nat.le_refl _, by omega, fun m h1 h2 => absurd h2 (by omega),
        fun m h1 h2 => absurd h2 (by omega)⟩

/-- The linear lower-bound index. -/
def lbIdx {V : Type} : GoEdges V → Nat → Nat
  | .nil, _ => 0
  | .cons l _ r, x => if x ≤ l then 0 else lbIdx r x + 1

theorem lbIdx_le_length {V : Type} (es : GoEdges V) (x : Nat) :
    lbIdx es x ≤ es.length := by
  induction es using GoEdges.induct with
  | hnil => simp [lbIdx, GoEdges.length]
  | hcons l c r ih =>
    simp only [lbIdx, GoEdges.length]
    by_cases h : x ≤ l
    · simp [h]
    · simp only [h, if_false]
      omega

theorem lbIdx_spec {V : Type} {es : GoEdges V} (hs : edgesSorted es) (x : Nat) :
    (∀ m, m < lbIdx es x → ¬ x ≤ es.labelAt m) ∧
    (∀ m, lbIdx es x ≤ m → m < es.length → x ≤ es.labelAt m) := by
  induction es using GoEdges.induct with
  | hnil =>
    exact ⟨fun m h => by simp [lbIdx] at h, fun m _ h => by simp [GoEdges.length] at h⟩
  | hcons l c r ih =>
    obtain ⟨h1, h2⟩ := hs
    obtain ⟨ihA, ihB⟩ := ih h2
    by_cases hx : x ≤ l
    · refine ⟨fun m hm => by simp [lbIdx, hx] at hm, fun m _ hm => ?_⟩
      match m with
      | 0 => simpa [GoEdges.labelAt] using hx
      | m + 1 =>
        simp only [GoEdges.labelAt]
        have := labelsAbove_labelAt h1 m (by simpa [GoEdges.length] using hm)
        omega
    · constructor
      · intro m hm
        simp only [lbIdx, hx, if_false] at hm
        match m with
        | 0 => simpa [GoEdges.labelAt] using hx
        | m + 1 => exact ihA m (by omega)
      · intro m hm hlen
        simp only [lbIdx, hx, if_false] at hm
        match m with
        | 0 => omega
        | m + 1 => exact ihB m (by omega) (by simpa [GoEdges.length] using hlen)

/-- On sorted edges the binary-search index is the linear lower bound. -/
theorem getEdgeIdx_eq_lbIdx {V : Type} {es : GoEdges V} (hs : edgesSorted es)
    (x : Nat) : getEdgeIdx es x = lbIdx es x := by
  have mono : ∀ a b, a ≤ b → b < es.length →
      decide (x ≤ es.labelAt a) = true → decide (x ≤ es.labelAt b) = true := by
    intro a b hab hb ha
    have := labelAt_mono hs a b hab hb
    simp only [decide_eq_true_eq] at ha ⊢
    omega
  obtain ⟨b1, b2, b3, b4⟩ := sortSearchGo_spec _ es.length mono es.length 0 es.length
    (Nat.zero_le _) (Nat.le_refl _) (by omega)
  obtain ⟨sA, sB⟩ := lbIdx_spec hs x
  have hr : getEdgeIdx es x =
      sortSearchGo (fun i => decide (x ≤ es.labelAt i)) es.length 0 es.length := rfl
  have hlb := lbIdx_le_length es x
  rw [hr]
  set r := sortSearchGo (fun i => decide (x ≤ es.labelAt i)) es.length 0 es.length with hrdef
  rcases Nat.lt_trichotomy r (lbIdx es x) with h | h | h
  · have := b4 r (Nat.le_refl _) (by omega)
    simp only [decide_eq_true_eq] at this
    exact absurd this (sA r h)
  · exact h
  · have := b3 (lbIdx es x) (Nat.zero_le _) h
    simp only [decide_eq_false_iff_not] at this
    exact absurd (sB (lbIdx es x) (Nat.le_refl _) (by omega)) this

theorem findEdgeL_none_above {V : Type} {l x : Nat} {r : GoEdges V}
    (h : labelsAbove l r) (hx : x ≤ l) : findEdgeL r x = none := by
  induction r using GoEdges.induct with
  | hnil => rfl
  | hcons l' c rr ih =>
    obtain ⟨h1, h2⟩ := h
    have : x ≠ l' := by omega
    simp only [findEdgeL, this, if_false]
    exact ih h2

theorem getEdgeIdx_cons {V : Type} {l : Nat} {c : GoNode V} {r : GoEdges V}
    (hs : edgesSorted (.cons l c r)) (x : Nat) :
    getEdgeIdx (GoEdges.cons l c r) x = if x ≤ l then 0 else getEdgeIdx r x + 1 := by
  rw [getEdgeIdx_eq_lbIdx hs, getEdgeIdx_eq_lbIdx hs.2]
  rfl

theorem getEdge_eq_findEdgeL {V : Type} {es : GoEdges V} (hs : edgesSorted es)
    (x : Nat) : getEdge es x = findEdgeL es x := by
  induction es using GoEdges.induct with
  | hnil => rfl
  | hcons l c r ih =>
    obtain ⟨h1, h2⟩ := hs
    simp only [getEdge, getEdgeIdx_cons ⟨h1, h2⟩]
    by_cases hx : x ≤ l
    · rw [if_pos hx]
      by_cases hxl : x = l
      · subst hxl
        simp [GoEdges.length, GoEdges.labelAt, GoEdges.nodeAt?, findEdgeL]
      · rw [if_neg (by simp only [GoEdges.labelAt]; exact fun h => hxl h.2.symm)]
        rw [findEdgeL, if_neg hxl, findEdgeL_none_above h1 hx]
    · rw [if_neg hx]
      have hxl : x ≠ l := by omega
      rw [findEdgeL, if_neg hxl, ← ih h2]
      simp only [getEdge, GoEdges.length, GoEdges.labelAt, GoEdges.nodeAt?,
        Nat.add_lt_add_iff_right]

theorem addEdge_eq_insE {V : Type} {es : GoEdges V} (hs : edgesSorted es)
    (x : Nat) (c : GoNode V) : addEdge es x c = insE es x c := by
  induction es using GoEdges.induct with
  | hnil => rfl
  | hcons l c0 r ih =>
    simp only [addEdge, getEdgeIdx_cons hs]
    by_cases hx : x ≤ l
    · rw [if_pos hx]
      simp [GoEdges.insertAt, insE, hx]
    · rw [if_neg hx]
      simp only [GoEdges.insertAt, insE, hx, if_false]
      have := ih hs.2
      simp only [addEdge] at this
      rw [this]

theorem updateEdge_present {V : Type} {es : GoEdges V} (hs : edgesSorted es)
    {x : Nat} {c0 : GoNode V} (hf : findEdgeL es x = some c0) (c : GoNode V) :
    updateEdge es x c = some (replE es x c) := by
  induction es using GoEdges.induct with
  | hnil => simp [findEdgeL] at hf
  | hcons l c1 r ih =>
    simp only [updateEdge, getEdgeIdx_cons hs]
    by_cases hxl : x = l
    · subst hxl
      rw [if_pos (Nat.le_refl _)]
      simp [GoEdges.length, GoEdges.labelAt, GoEdges.setNodeAt, replE]
    · have hx : ¬ x ≤ l := by
        by_contra hle
        rw [findEdgeL, if_neg hxl, findEdgeL_none_above hs.1 (by omega)] at hf
        exact Option.noConfusion hf
      rw [if_neg hx]
      rw [findEdgeL, if_neg hxl] at hf
      have := ih hs.2 hf
      simp only [updateEdge] at this
      simp only [GoEdges.length, GoEdges.labelAt, GoEdges.setNodeAt, replE, hxl,
        if_false, Nat.add_lt_add_iff_right]
      by_cases hcond : getEdgeIdx r x < r.length ∧ r.labelAt (getEdgeIdx r x) = x
      · rw [if_pos hcond] at this ⊢
        rw [Option.some_inj] at this
        rw [this]
      · rw [if_neg hcond] at this
        exact Option.noConfusion this

theorem updateEdge_absent {V : Type} {es : GoEdges V} (hs : edgesSorted es)
    {x : Nat} (hf : findEdgeL es x = none) (c : GoNode V) :
    updateEdge es x c = none := by
  induction es using GoEdges.induct with
  | hnil => rfl
  | hcons l c1 r ih =>
    simp only [updateEdge, getEdgeIdx_cons hs]
    rw [findEdgeL] at hf
    by_cases hxl : x = l
    · simp [hxl] at hf
    · rw [if_neg hxl] at hf
      by_cases hx : x ≤ l
      · rw [if_pos hx]
        rw [if_neg (by simp only [GoEdges.labelAt]; exact fun h => hxl h.2.symm)]
      · rw [if_neg hx]
        have := ih hs.2 hf
        simp only [updateEdge] at this
        by_cases hcond : getEdgeIdx r x < r.length ∧ r.labelAt (getEdgeIdx r x) = x
        · rw [if_pos hcond] at this
          exact Option.noConfusion this
        · rw [if_neg (by
            simp only [GoEdges.length, GoEdges.labelAt, Nat.add_lt_add_iff_right]
            exact hcond)]

theorem delE_id_of_none {V : Type} {es : GoEdges V} {x : Nat}
    (hf : findEdgeL es x = none) : delE es x = es := by
  induction es using GoEdges.induct with
  | hnil => rfl
  | hcons l c r ih =>
    rw [findEdgeL] at hf
    by_cases hxl : x = l
    · simp [hxl] at hf
    · rw [if_neg hxl] at hf
      rw [delE, if_neg hxl, ih hf]

theorem delEdge_eq_delE {V : Type} {es : GoEdges V} (hs : edgesSorted es)
    (x : Nat) : delEdge es x = delE es x := by
  induction es using GoEdges.induct with
  | hnil => rfl
  | hcons l c r ih =>
    simp only [delEdge, getEdgeIdx_cons hs]
    by_cases hxl : x = l
    · subst hxl
      rw [if_pos (Nat.le_refl _)]
      rw [if_pos (by
        refine ⟨by simp [GoEdges.length], ?_⟩
        simp [GoEdges.labelAt])]
      simp [GoEdges.removeAt, delE]
    · by_cases hx : x ≤ l
      · rw [if_pos hx]
        rw [if_neg (by simp only [GoEdges.labelAt]; exact fun h => hxl h.2.symm)]
        rw [delE, if_neg hxl, delE_id_of_none (findEdgeL_none_above hs.1 hx)]
      · rw [if_neg hx]
        have hr := ih hs.2
        simp only [delEdge] at hr
        rw [delE, if_neg hxl, ← hr]
        simp only [GoEdges.length, GoEdges.labelAt, GoEdges.removeAt,
          Nat.add_lt_add_iff_right]
        rw [apply_ite (GoEdges.cons l c)]

theorem replaceEdgeNode_eq {V : Type} {es : GoEdges V} (hs : edgesSorted es)
    {x : Nat} {c0 : GoNode V} (hf : findEdgeL es x = some c0) (c : GoNode V) :
    replaceEdgeNode es x c = replE es x c := by
  induction es using GoEdges.induct with
  | hnil => simp [findEdgeL] at hf
  | hcons l c1 r ih =>
    simp only [replaceEdgeNode, getEdgeIdx_cons hs]
    by_cases hxl : x = l
    · subst hxl
      rw [if_pos (Nat.le_refl _)]
      simp [GoEdges.setNodeAt, replE]
    · have hx : ¬ x ≤ l := by
        by_contra hle
        rw [findEdgeL, if_neg hxl, findEdgeL_none_above hs.1 (by omega)] at hf
        exact Option.noConfusion hf
      rw [if_neg hx]
      rw [findEdgeL, if_neg hxl] at hf
      have := ih hs.2 hf
      simp only [replaceEdgeNode] at this
      simp only [GoEdges.setNodeAt, replE, hxl, if_false]
      rw [this]

/-! ## Determinism, depth and counting facts that hold for every edge list -/

theorem getEdge_some {V : Type} {es : GoEdges V} {x : Nat} {c : GoNode V}
    (h : getEdge es x = some c) :
    getEdgeIdx es x < es.length ∧ es.labelAt (getEdgeIdx es x) = x ∧
      es.nodeAt? (getEdgeIdx es x) = some c := by
  by_cases hc : getEdgeIdx es x < es.length ∧ es.labelAt (getEdgeIdx es x) = x
  · refine ⟨hc.1, hc.2, ?_⟩
    simpa only [getEdge, hc, if_pos] using h
  · rw [getEdge] at h
    simp only [hc, if_neg, if_false] at h
    exact Option.noConfusion h

/-- `updateEdge` recomputes the same binary search `getEdge` ran, so right
after a successful `getEdge` it cannot panic. -/
theorem updateEdge_some_of_getEdge {V : Type} {es : GoEdges V} {x : Nat}
    {c : GoNode V} (h : getEdge es x = some c) (c' : GoNode V) :
    updateEdge es x c' = some (es.setNodeAt (getEdgeIdx es x) c') := by
  obtain ⟨h1, h2, _⟩ := getEdge_some h
  rw [updateEdge, if_pos ⟨h1, h2⟩]

theorem nodeAt?_depth {V : Type} {es : GoEdges V} :
    ∀ {i : Nat} {c : GoNode V}, es.nodeAt? i = some c → c.depth ≤ es.depthE := by
  induction es using GoEdges.induct with
  | hnil => intro i c h; exact Option.noConfusion h
  | hcons l c0 r ih =>
    intro i c h
    match i with
    | 0 =>
      simp only [GoEdges.nodeAt?, Option.some_inj] at h
      subst h
      simp [GoEdges.depthE, Nat.le_max_left]
    | i + 1 =>
      simp only [GoEdges.nodeAt?] at h
      exact Nat.le_trans (ih h) (by simp [GoEdges.depthE, Nat.le_max_right])

theorem getEdge_depth {V : Type} {es : GoEdges V} {x : Nat} {c : GoNode V}
    (h : getEdge es x = some c) : c.depth ≤ es.depthE :=
  nodeAt?_depth (getEdge_some h).2.2

theorem lastNode?_depth {V : Type} {es : GoEdges V} :
    ∀ {c : GoNode V}, es.lastNode? = some c → c.depth ≤ es.depthE := by
  induction es using GoEdges.induct with
  | hnil => intro c h; exact Option.noConfusion h
  | hcons l c0 r ih =>
    intro c h
    match r with
    | .nil =>
      simp only [GoEdges.lastNode?, Option.some_inj] at h
      subst h
      simp [GoEdges.depthE, Nat.le_max_left]
    | .cons l' c' r' =>
      simp only [GoEdges.lastNode?] at h
      exact Nat.le_trans (ih h) (by simp [GoEdges.depthE, Nat.le_max_right])

/-- `content` does not depend on the node's own prefix fragment. -/
theorem content_pfx_irrel {V : Type} (n : GoNode V) (q : List Nat) :
    (GoNode.mk n.leaf q n.edges).content = n.content := by
  cases n
  rfl

theorem content_mk {V : Type} (lf : Option (GoLeaf V)) (p : List Nat)
    (es : GoEdges V) :
    (GoNode.mk lf p es).content =
      (match lf with
       | some l => [(l.key, l.val)]
       | none => []) ++ es.contentE := rfl

theorem contentE_insertAt {V : Type} (es : GoEdges V) :
    ∀ (i x : Nat) (c : GoNode V),
      ((es.insertAt i x c).contentE).length = es.contentE.length + c.content.length := by
  induction es using GoEdges.induct with
  | hnil =>
    intro i x c
    match i with
    | 0 => simp [GoEdges.insertAt, GoEdges.contentE]
    | i + 1 => simp [GoEdges.insertAt, GoEdges.contentE]
  | hcons l c0 r ih =>
    intro i x c
    match i with
    | 0 => simp [GoEdges.insertAt, GoEdges.contentE]; omega
    | i + 1 =>
      simp only [GoEdges.insertAt, GoEdges.contentE, List.length_append, ih i x c]
      omega

theorem contentE_setNodeAt {V : Type} {es : GoEdges V} :
    ∀ {i : Nat} {c : GoNode V}, es.nodeAt? i = some c → ∀ (c' : GoNode V),
      ((es.setNodeAt i c').contentE).length + c.content.length =
        es.contentE.length + c'.content.length := by
  induction es using GoEdges.induct with
  | hnil => intro i c h; exact Option.noConfusion h
  | hcons l c0 r ih =>
    intro i c h c'
    match i with
    | 0 =>
      simp only [GoEdges.nodeAt?, Option.some_inj] at h
      subst h
      simp only [GoEdges.setNodeAt, GoEdges.contentE, List.length_append]
      omega
    | i + 1 =>
      simp only [GoEdges.nodeAt?] at h
      simp only [GoEdges.setNodeAt, GoEdges.contentE, List.length_append]
      have := ih h c'
      omega

theorem contentE_removeAt {V : Type} {es : GoEdges V} :
    ∀ {i : Nat} {c : GoNode V}, es.nodeAt? i = some c →
      ((es.removeAt i).contentE).length + c.content.length = es.contentE.length := by
  induction es using GoEdges.induct with
  | hnil => intro i c h; exact Option.noConfusion h
  | hcons l c0 r ih =>
    intro i c h
    match i with
    | 0 =>
      simp only [GoEdges.nodeAt?, Option.some_inj] at h
      subst h
      simp only [GoEdges.removeAt, GoEdges.contentE, List.length_append]
      omega
    | i + 1 =>
      simp only [GoEdges.nodeAt?] at h
      simp only [GoEdges.removeAt, GoEdges.contentE, List.length_append]
      have := ih h
      omega

theorem edges_length_one {V : Type} {es : GoEdges V} (h : es.length = 1) :
    ∃ l c, es = .cons l c .nil := by
  match es with
  | .nil => simp [GoEdges.length] at h
  | .cons l c r =>
    match r with
    | .nil => exact ⟨l, c, rfl⟩
    | .cons l' c' r' => simp [GoEdges.length] at h

/-- Merging the unique child keeps the walked content (the prefix changes,
the leaf and subtrees do not). -/
theorem mergeChildGo_single {V : Type} (lf : Option (GoLeaf V)) (p : List Nat)
    (l : Nat) (c : GoNode V) :
    mergeChildGo (GoNode.mk lf p (.cons l c .nil)) =
      some (GoNode.mk c.leaf (p ++ c.pfx) c.edges) := rfl

theorem mergeChildGo_of_cons {V : Type} (lf : Option (GoLeaf V)) (p : List Nat)
    (l : Nat) (c : GoNode V) (r : GoEdges V) :
    mergeChildGo (GoNode.mk lf p (.cons l c r)) =
      some (GoNode.mk c.leaf (p ++ c.pfx) c.edges) := rfl

/-! ## Leaf-count accounting (any mode, any tree) -/

/-- Content length of the intermediate node a split creates: the restored
child plus exactly the one new leaf. -/
theorem splitChild_content_len {V : Type} (s tk rest : List Nat) (v : V)
    (lbl hd : Nat) (cM : GoNode V) :
    ((if rest.isEmpty then GoNode.mk (some ⟨s, v⟩) tk (addEdge .nil lbl cM)
      else GoNode.mk none tk
        (addEdge (addEdge .nil lbl cM) hd
          (GoNode.mk (some ⟨s, v⟩) rest .nil))).content).length =
      cM.content.length + 1 := by
  by_cases hre : rest.isEmpty
  · rw [if_pos hre]
    simp only [content_mk, List.length_append, addEdge, contentE_insertAt]
    simp only [GoEdges.contentE, List.length_nil, List.length_cons]
    omega
  · rw [if_neg hre]
    simp only [content_mk, List.length_append, addEdge, contentE_insertAt]
    simp only [GoEdges.contentE, content_mk, List.length_nil, List.length_append,
      List.length_cons]
    omega

theorem content_eq_leaf_edges {V : Type} (n : GoNode V) :
    n.content =
      (match n.leaf with
       | some l => [(l.key, l.val)]
       | none => []) ++ n.edges.contentE := by
  cases n
  rfl

/-- After a successful `updateEdge` installing a split child, the edge list
gained exactly one leaf. -/
theorem split_update_len {V : Type} {es0 es1 : GoEdges V} {label : Nat}
    {c : GoNode V} {s tk rest : List Nat} {v : V} {lbl hd : Nat} {cM : GoNode V}
    (hg : getEdge es0 label = some c)
    (heq : updateEdge es0 label
      (if rest.isEmpty then GoNode.mk (some ⟨s, v⟩) tk (addEdge .nil lbl cM)
       else GoNode.mk none tk
         (addEdge (addEdge .nil lbl cM) hd (GoNode.mk (some ⟨s, v⟩) rest .nil)))
      = some es1)
    (hcM : cM.content.length = c.content.length) :
    es1.contentE.length = es0.contentE.length + 1 := by
  rw [updateEdge_some_of_getEdge hg] at heq
  obtain rfl := Option.some_inj.mp heq
  have hacc := contentE_setNodeAt (getEdge_some hg).2.2
    (if rest.isEmpty then GoNode.mk (some ⟨s, v⟩) tk (addEdge .nil lbl cM)
     else GoNode.mk none tk
       (addEdge (addEdge .nil lbl cM) hd (GoNode.mk (some ⟨s, v⟩) rest .nil)))
  have hcl := splitChild_content_len s tk rest v lbl hd cM
  omega

theorem insertRec_numLeaves {V : Type} (fold : Bool) (tl : Nat → Nat) :
    ∀ (fuel : Nat) (n : GoNode V) (s search : List Nat) (v : V)
      (old : Option V) (n' : GoNode V),
      insertRec fold tl fuel n s search v = .ok (old, n') →
      n'.content.length = n.content.length + (if old.isSome then 0 else 1) := by
  intro fuel
  induction fuel with
  | zero =>
    intro n s search v old n' h
    exact GoResult.noConfusion h
  | succ fuel ih =>
    intro n s search v old n' h
    have hdecomp := content_eq_leaf_edges n
    match search with
    | [] =>
      simp only [insertRec] at h
      split at h
      · next lf hlf =>
        simp only [GoResult.ok.injEq, Prod.mk.injEq] at h
        obtain ⟨ho, hn⟩ := h
        subst ho
        subst hn
        rw [hdecomp, hlf]
        simp [content_mk]
      · next hlf =>
        simp only [GoResult.ok.injEq, Prod.mk.injEq] at h
        obtain ⟨ho, hn⟩ := h
        subst ho
        subst hn
        rw [hdecomp, hlf]
        simp [content_mk]
    | label :: srest =>
      simp only [insertRec] at h
      split at h
      · next hg =>
        simp only [GoResult.ok.injEq, Prod.mk.injEq] at h
        obtain ⟨ho, hn⟩ := h
        subst ho
        subst hn
        rw [hdecomp]
        simp only [content_mk, List.length_append, addEdge, contentE_insertAt,
          Option.isSome_none, Bool.false_eq_true, if_false]
        simp only [content_mk, GoEdges.contentE, List.length_nil,
          List.length_append, List.length_cons]
        omega
      · next c hg =>
        split at h
        · split at h
          · split at h
            · exact GoResult.noConfusion h
            · next old1 c' hrec =>
              simp only [GoResult.ok.injEq, Prod.mk.injEq] at h
              obtain ⟨ho, hn⟩ := h
              subst ho
              subst hn
              have hacc := contentE_setNodeAt (getEdge_some hg).2.2 c'
              have hstep := ih c s _ v old1 c' hrec
              rw [hdecomp]
              simp only [content_mk, List.length_append, replaceEdgeNode]
              by_cases hiso : old1.isSome
              · simp only [hiso, if_true] at hstep ⊢
                omega
              · simp only [hiso, Bool.false_eq_true, if_false] at hstep ⊢
                omega
          · exact GoResult.noConfusion h
        · split at h
          · split at h
            · split at h
              · next es1 heq =>
                have hlen := split_update_len hg heq (by rw [content_pfx_irrel])
                simp only [GoResult.ok.injEq, Prod.mk.injEq] at h
                obtain ⟨ho, hn⟩ := h
                subst ho
                subst hn
                rw [hdecomp]
                simp only [content_mk, List.length_append, Option.isSome_none,
                  Bool.false_eq_true, if_false]
                omega
              · exact GoResult.noConfusion h
            · exact GoResult.noConfusion h
          · exact GoResult.noConfusion h

theorem GoNode.leaf_mk {V : Type} (lf : Option (GoLeaf V)) (p : List Nat)
    (es : GoEdges V) : (GoNode.mk lf p es).leaf = lf := rfl

theorem GoNode.pfx_mk {V : Type} (lf : Option (GoLeaf V)) (p : List Nat)
    (es : GoEdges V) : (GoNode.mk lf p es).pfx = p := rfl

theorem GoNode.edges_mk {V : Type} (lf : Option (GoLeaf V)) (p : List Nat)
    (es : GoEdges V) : (GoNode.mk lf p es).edges = es := rfl

theorem edges_length_zero {V : Type} {es : GoEdges V} (h : es.length = 0) :
    es = .nil := by
  match es with
  | .nil => rfl
  | .cons l c r => simp [GoEdges.length] at h

/-- `mergeChild` under its call-site guards keeps the walked content. -/
theorem merge_neutral {V : Type} {p : List Nat} {es : GoEdges V} {n2 : GoNode V}
    (hlen : es.length = 1)
    (h : mergeChildGo (GoNode.mk none p es) = some n2) :
    n2.content = (GoNode.mk none p es).content := by
  obtain ⟨l, c, rfl⟩ := edges_length_one hlen
  rw [mergeChildGo_of_cons, Option.some_inj] at h
  subst h
  cases c with
  | mk clf cp ces =>
    simp [content_mk, GoNode.leaf, GoNode.edges, GoEdges.contentE]

theorem delEdge_of_getEdge {V : Type} {es : GoEdges V} {x : Nat} {c : GoNode V}
    (h : getEdge es x = some c) :
    delEdge es x = es.removeAt (getEdgeIdx es x) := by
  obtain ⟨h1, h2, _⟩ := getEdge_some h
  rw [delEdge, if_pos ⟨h1, h2⟩]

theorem content_len_mk {V : Type} (lf : Option (GoLeaf V)) (p : List Nat)
    (es : GoEdges V) :
    (GoNode.mk lf p es).content.length =
      es.contentE.length + (if lf.isSome then 1 else 0) := by
  cases lf with
  | none => simp [content_mk]
  | some l => simp [content_mk, Nat.add_comm]

theorem content_len_none {V : Type} {n : GoNode V} (h : n.leaf = none) :
    n.content.length = n.edges.contentE.length := by
  rw [content_eq_leaf_edges n, h]
  simp

theorem content_len_some {V : Type} {n : GoNode V} {lf : GoLeaf V}
    (h : n.leaf = some lf) :
    n.content.length = n.edges.contentE.length + 1 := by
  rw [content_eq_leaf_edges n, h]
  simp [Nat.add_comm]

theorem deleteRec_numLeaves {V : Type} (fold : Bool) (tl : Nat → Nat) :
    ∀ (fuel : Nat) (isRoot : Bool) (n : GoNode V) (s : List Nat)
      (v : V) (n' : GoNode V) (info : Option Bool),
      deleteRec fold tl fuel isRoot n s = .ok (some (v, n', info)) →
      n.content.length = n'.content.length + 1 ∧
        (info = some true → n'.content = []) := by
  intro fuel
  induction fuel with
  | zero =>
    intro isRoot n s v n' info h
    exact GoResult.noConfusion h
  | succ fuel ih =>
    intro isRoot n s v n' info h
    match s with
    | [] =>
      simp only [deleteRec] at h
      split at h
      · exact Option.noConfusion (GoResult.ok.inj h)
      · next lf hlf =>
        split at h
        · next hguard =>
          simp only [Bool.and_eq_true, beq_iff_eq, GoNode.edges_mk,
            GoNode.leaf_mk] at hguard
          split at h
          · next n2 hmerge =>
            simp only [GoResult.ok.injEq, Option.some_inj, Prod.mk.injEq] at h
            obtain ⟨hv, hn, hinfo⟩ := h
            subst hn
            have hne := merge_neutral hguard.2 hmerge
            constructor
            · rw [hne, content_len_mk, content_len_some hlf]
              simp
            · intro hx
              rw [← hinfo] at hx
              simp only [Option.some_inj, GoNode.edges_mk, beq_iff_eq] at hx
              omega
          · exact GoResult.noConfusion h
        · next hguard =>
          simp only [GoResult.ok.injEq, Option.some_inj, Prod.mk.injEq] at h
          obtain ⟨hv, hn, hinfo⟩ := h
          subst hn
          constructor
          · rw [content_len_mk, content_len_some hlf]
            simp
          · intro hx
            rw [← hinfo] at hx
            simp only [Option.some_inj, GoNode.edges_mk, beq_iff_eq] at hx
            rw [content_mk, edges_length_zero hx]
            rfl
    | label :: srest =>
      simp only [deleteRec] at h
      split at h
      · exact Option.noConfusion (GoResult.ok.inj h)
      · next c hg =>
        split at h
        · split at h
          · exact GoResult.noConfusion h
          · exact Option.noConfusion (GoResult.ok.inj h)
          · next v1 c' rm hrec =>
            obtain ⟨hstep, hempty⟩ := ih false c _ v1 c' (some rm) hrec
            cases rm with
            | true =>
              have hc1 : c.content.length = 1 := by
                rw [hempty rfl] at hstep
                simpa using hstep
              have hdel := delEdge_of_getEdge hg
              have hrem := contentE_removeAt (getEdge_some hg).2.2
              rw [if_pos rfl] at h
              split at h
              · next hguard =>
                simp only [Bool.and_eq_true, beq_iff_eq, GoNode.edges_mk,
                  GoNode.leaf_mk, Option.isNone_iff_eq_none] at hguard
                split at h
                · next n2 hmerge =>
                  simp only [GoResult.ok.injEq, Option.some_inj, Prod.mk.injEq] at h
                  obtain ⟨hv, hn, hinfo⟩ := h
                  subst hn
                  rw [hguard.2] at hmerge
                  have hne := merge_neutral hguard.1.2 hmerge
                  refine ⟨?_, fun hx => Option.noConfusion (hinfo ▸ hx)⟩
                  rw [hne, content_len_mk, content_len_none hguard.2, hdel]
                  simp only [Option.isSome_none, Bool.false_eq_true, if_false,
                    Nat.add_zero]
                  omega
                · exact GoResult.noConfusion h
              · next hguard =>
                simp only [GoResult.ok.injEq, Option.some_inj, Prod.mk.injEq] at h
                obtain ⟨hv, hn, hinfo⟩ := h
                subst hn
                refine ⟨?_, fun hx => Option.noConfusion (hinfo ▸ hx)⟩
                rw [content_len_mk, hdel]
                cases hnl : n.leaf with
                | none =>
                  rw [content_len_none hnl]
                  simp only [Option.isSome_none, Bool.false_eq_true, if_false,
                    Nat.add_zero]
                  omega
                | some lf2 =>
                  rw [content_len_some hnl]
                  simp only [Option.isSome_some, if_true]
                  omega
            | false =>
              have hacc := contentE_setNodeAt (getEdge_some hg).2.2 c'
              rw [if_neg Bool.false_ne_true] at h
              split at h
              · next hguard =>
                simp only [Bool.and_eq_true, beq_iff_eq, GoNode.edges_mk,
                  GoNode.leaf_mk, Option.isNone_iff_eq_none] at hguard
                split at h
                · next n2 hmerge =>
                  simp only [GoResult.ok.injEq, Option.some_inj, Prod.mk.injEq] at h
                  obtain ⟨hv, hn, hinfo⟩ := h
                  subst hn
                  rw [hguard.2] at hmerge
                  have hne := merge_neutral hguard.1.2 hmerge
                  refine ⟨?_, fun hx => Option.noConfusion (hinfo ▸ hx)⟩
                  rw [hne, content_len_mk, content_len_none hguard.2]
                  simp only [Option.isSome_none, Bool.false_eq_true, if_false,
                    Nat.add_zero, replaceEdgeNode]
                  omega
                · exact GoResult.noConfusion h
              · next hguard =>
                simp only [GoResult.ok.injEq, Option.some_inj, Prod.mk.injEq] at h
                obtain ⟨hv, hn, hinfo⟩ := h
                subst hn
                refine ⟨?_, fun hx => Option.noConfusion (hinfo ▸ hx)⟩
                rw [content_len_mk]
                cases hnl : n.leaf with
                | none =>
                  rw [content_len_none hnl]
                  simp only [Option.isSome_none, Bool.false_eq_true, if_false,
                    Nat.add_zero, replaceEdgeNode]
                  omega
                | some lf2 =>
                  rw [content_len_some hnl]
                  simp only [Option.isSome_some, if_true, replaceEdgeNode]
                  omega
          · next v1 c' hrec =>
            obtain ⟨hstep, _⟩ := ih false c _ v1 c' none hrec
            simp only [GoResult.ok.injEq, Option.some_inj, Prod.mk.injEq] at h
            obtain ⟨hv, hn, hinfo⟩ := h
            subst hn
            have hacc := contentE_setNodeAt (getEdge_some hg).2.2 c'
            refine ⟨?_, fun hx => Option.noConfusion (hinfo ▸ hx)⟩
            rw [content_len_mk]
            cases hnl : n.leaf with
            | none =>
              rw [content_len_none hnl]
              simp only [Option.isSome_none, Bool.false_eq_true, if_false,
                Nat.add_zero, replaceEdgeNode]
              omega
            | some lf2 =>
              rw [content_len_some hnl]
              simp only [Option.isSome_some, if_true, replaceEdgeNode]
              omega
        · exact Option.noConfusion (GoResult.ok.inj h)

theorem deletePrefixRec_numLeaves {V : Type} (fold : Bool) (tl : Nat → Nat) :
    ∀ (fuel : Nat) (isRoot : Bool) (n : GoNode V) (p : List Nat)
      (cnt : Nat) (n' : GoNode V) (cleared : Bool),
      deletePrefixRec fold tl fuel isRoot n p = .ok (cnt, n', cleared) →
      n.content.length = n'.content.length + cnt := by
  intro fuel
  induction fuel with
  | zero =>
    intro isRoot n p cnt n' cleared h
    exact GoResult.noConfusion h
  | succ fuel ih =>
    intro isRoot n p cnt n' cleared h
    match p with
    | [] =>
      simp only [deletePrefixRec, GoResult.ok.injEq, Prod.mk.injEq] at h
      obtain ⟨hc, hn, _⟩ := h
      subst hc
      subst hn
      rw [content_len_mk]
      simp only [GoEdges.contentE, List.length_nil, Option.isSome_none,
        Bool.false_eq_true, if_false, GoNode.numLeaves]
      omega
    | label :: prest =>
      simp only [deletePrefixRec] at h
      split at h
      · next hg =>
        simp only [GoResult.ok.injEq, Prod.mk.injEq] at h
        obtain ⟨hc, hn, _⟩ := h
        subst hc
        subst hn
        omega
      · next c hg =>
        split at h
        · simp only [GoResult.ok.injEq, Prod.mk.injEq] at h
          obtain ⟨hc, hn, _⟩ := h
          subst hc
          subst hn
          omega
        · split at h
          · exact GoResult.noConfusion h
          · next cnt1 c' cl1 hrec =>
            have hstep := ih false c _ cnt1 c' cl1 hrec
            have hacc := contentE_setNodeAt (getEdge_some hg).2.2 c'
            split at h
            · next hguard =>
              simp only [Bool.and_eq_true, beq_iff_eq, GoNode.edges_mk,
                GoNode.leaf_mk, Option.isNone_iff_eq_none] at hguard
              split at h
              · next n2 hmerge =>
                simp only [GoResult.ok.injEq, Prod.mk.injEq] at h
                obtain ⟨hc, hn, _⟩ := h
                subst hc
                subst hn
                rw [hguard.2] at hmerge
                have hne := merge_neutral hguard.1.2 hmerge
                rw [hne, content_len_mk, content_len_none hguard.2]
                simp only [Option.isSome_none, Bool.false_eq_true, if_false,
                  Nat.add_zero, replaceEdgeNode]
                omega
              · exact GoResult.noConfusion h
            · next hguard =>
              simp only [GoResult.ok.injEq, Prod.mk.injEq] at h
              obtain ⟨hc, hn, _⟩ := h
              subst hc
              subst hn
              rw [content_len_mk]
              cases hnl : n.leaf with
              | none =>
                rw [content_len_none hnl]
                simp only [Option.isSome_none, Bool.false_eq_true, if_false,
                  Nat.add_zero, replaceEdgeNode]
                omega
              | some lf2 =>
                rw [content_len_some hnl]
                simp only [Option.isSome_some, if_true, replaceEdgeNode]
                omega

/-! ## Byte-exact prefix facts -/

theorem longestPrefixB_le_left : ∀ (a b : List Nat), longestPrefixB a b ≤ a.length
  | [], _ => by simp [longestPrefixB]
  | _ :: _, [] => by simp [longestPrefixB]
  | a :: as, b :: bs => by
    simp only [longestPrefixB]
    by_cases h : a = b
    · simp only [h, if_true, List.length_cons]
      exact Nat.succ_le_succ (longestPrefixB_le_left as bs)
    · simp [h]

theorem longestPrefixB_le_right : ∀ (a b : List Nat), longestPrefixB a b ≤ b.length
  | [], _ => by simp [longestPrefixB]
  | _ :: _, [] => by simp [longestPrefixB]
  | a :: as, b :: bs => by
    simp only [longestPrefixB]
    by_cases h : a = b
    · simp only [h, if_true, List.length_cons]
      exact Nat.succ_le_succ (longestPrefixB_le_right as bs)
    · simp [h]

theorem longestPrefixB_take : ∀ (a b : List Nat),
    a.take (longestPrefixB a b) = b.take (longestPrefixB a b)
  | [], _ => by simp [longestPrefixB]
  | _ :: _, [] => by simp [longestPrefixB]
  | a :: as, b :: bs => by
    simp only [longestPrefixB]
    by_cases h : a = b
    · simp only [h, if_true, List.take_succ_cons]
      rw [longestPrefixB_take as bs]
    · simp [h]

theorem longestPrefixB_mismatch : ∀ (a b : List Nat),
    longestPrefixB a b < a.length → longestPrefixB a b < b.length →
    a.getD (longestPrefixB a b) 0 ≠ b.getD (longestPrefixB a b) 0
  | [], _ => by simp [longestPrefixB]
  | _ :: _, [] => by simp [longestPrefixB]
  | a :: as, b :: bs => by
    simp only [longestPrefixB]
    by_cases h : a = b
    · simp only [h, if_true, List.length_cons, List.getD_cons_succ]
      intro h1 h2
      exact longestPrefixB_mismatch as bs (by omega) (by omega)
    · simp only [h, if_false, List.getD_cons_zero]
      intro _ _
      exact h

/-- When the second string's whole length is the shared-prefix length, it is
a literal prefix of the first. -/
theorem longestPrefixB_full_right {a b : List Nat}
    (h : longestPrefixB a b = b.length) : b.isPrefixOf a = true := by
  rw [List.isPrefixOf_iff_prefix]
  have ht := longestPrefixB_take a b
  rw [h, List.take_length] at ht
  exact ht ▸ List.take_prefix _ _

theorem take_append_drop_self (a : List Nat) (i : Nat) :
    a.take i ++ a.drop i = a := List.take_append_drop i a

theorem depth_eq {V : Type} (n : GoNode V) : n.depth = n.edges.depthE + 1 := by
  cases n
  rfl

/-! ## No public operation panics: `Insert` in byte mode never runs the
out-of-range slice/index or the `updateEdge` panic, and `Delete` /
`DeletePrefix` only ever call `mergeChild` behind their length guards. -/

theorem insertRec_ok {V : Type} (tl : Nat → Nat) :
    ∀ (fuel : Nat) (n : GoNode V) (s search : List Nat) (v : V),
      n.depth ≤ fuel →
      ∃ res, insertRec false tl fuel n s search v = .ok res := by
  intro fuel
  induction fuel with
  | zero =>
    intro n s search v hd
    rw [depth_eq] at hd
    omega
  | succ fuel ih =>
    intro n s search v hd
    match search with
    | [] =>
      simp only [insertRec]
      split
      · exact ⟨_, rfl⟩
      · exact ⟨_, rfl⟩
    | label :: srest =>
      simp only [insertRec]
      split
      · exact ⟨_, rfl⟩
      · next c hg =>
        have hcp : lcpFn false tl (label :: srest) c.pfx =
            longestPrefixB (label :: srest) c.pfx := rfl
        have hle1 := longestPrefixB_le_left (label :: srest) c.pfx
        have hle2 := longestPrefixB_le_right (label :: srest) c.pfx
        split
        · next heq =>
          rw [if_pos (by rw [hcp]; exact hle1)]
          have hcd : c.depth ≤ fuel := by
            have := getEdge_depth hg
            rw [depth_eq] at hd
            omega
          obtain ⟨res, hres⟩ := ih c s _ v hcd
          rw [hres]
          obtain ⟨old1, c'⟩ := res
          exact ⟨_, rfl⟩
        · next hne =>
          rw [if_pos (by rw [hcp]; exact hle1)]
          rw [if_pos (by rw [hcp] at hne ⊢; omega)]
          rw [updateEdge_some_of_getEdge hg]
          exact ⟨_, rfl⟩

theorem deleteRec_ok {V : Type} (fold : Bool) (tl : Nat → Nat) :
    ∀ (fuel : Nat) (isRoot : Bool) (n : GoNode V) (s : List Nat),
      n.depth ≤ fuel →
      ∃ res, deleteRec fold tl fuel isRoot n s = .ok res := by
  intro fuel
  induction fuel with
  | zero =>
    intro isRoot n s hd
    rw [depth_eq] at hd
    omega
  | succ fuel ih =>
    intro isRoot n s hd
    match s with
    | [] =>
      simp only [deleteRec]
      split
      · exact ⟨_, rfl⟩
      · next lf hlf =>
        split
        · next hguard =>
          simp only [Bool.and_eq_true, beq_iff_eq, GoNode.edges_mk,
            GoNode.leaf_mk] at hguard
          obtain ⟨l, c, hes⟩ := edges_length_one hguard.2
          rw [hes, mergeChildGo_of_cons]
          exact ⟨_, rfl⟩
        · exact ⟨_, rfl⟩
    | label :: srest =>
      simp only [deleteRec]
      split
      · exact ⟨_, rfl⟩
      · next c hg =>
        split
        · have hcd : c.depth ≤ fuel := by
            have := getEdge_depth hg
            rw [depth_eq] at hd
            omega
          obtain ⟨res, hres⟩ := ih false c _ hcd
          rcases res with _ | ⟨v1, c', _ | rm⟩
          · rw [hres]
            exact ⟨_, rfl⟩
          · rw [hres]
            exact ⟨_, rfl⟩
          · rw [hres]
            split
            · next heq => exact GoResult.noConfusion heq
            · next heq => exact Option.noConfusion (GoResult.ok.inj heq)
            · next v2 c2 rm2 heq =>
              simp only [GoResult.ok.injEq, Option.some_inj, Prod.mk.injEq] at heq
              obtain ⟨h1, h2, h3⟩ := heq
              subst h1
              subst h2
              subst h3
              split
              · split
                · next hguard =>
                  simp only [Bool.and_eq_true, beq_iff_eq, GoNode.edges_mk,
                    GoNode.leaf_mk] at hguard
                  obtain ⟨l2, c3, hes⟩ := edges_length_one hguard.1.2
                  rw [hes, mergeChildGo_of_cons]
                  exact ⟨_, rfl⟩
                · exact ⟨_, rfl⟩
              · split
                · next hguard =>
                  simp only [Bool.and_eq_true, beq_iff_eq, GoNode.edges_mk,
                    GoNode.leaf_mk] at hguard
                  obtain ⟨l2, c3, hes⟩ := edges_length_one hguard.1.2
                  rw [hes, mergeChildGo_of_cons]
                  exact ⟨_, rfl⟩
                · exact ⟨_, rfl⟩
            · next v2 c2 heq =>
              simp only [GoResult.ok.injEq, Option.some_inj, Prod.mk.injEq] at heq
              obtain ⟨_, _, h3⟩ := heq
              exact Option.noConfusion h3
        · exact ⟨_, rfl⟩

theorem deletePrefixRec_ok {V : Type} (fold : Bool) (tl : Nat → Nat) :
    ∀ (fuel : Nat) (isRoot : Bool) (n : GoNode V) (p : List Nat),
      n.depth ≤ fuel →
      ∃ res, deletePrefixRec fold tl fuel isRoot n p = .ok res := by
  intro fuel
  induction fuel with
  | zero =>
    intro isRoot n p hd
    rw [depth_eq] at hd
    omega
  | succ fuel ih =>
    intro isRoot n p hd
    match p with
    | [] => exact ⟨_, rfl⟩
    | label :: prest =>
      simp only [deletePrefixRec]
      split
      · exact ⟨_, rfl⟩
      · next c hg =>
        split
        · exact ⟨_, rfl⟩
        · have hcd : c.depth ≤ fuel := by
            have := getEdge_depth hg
            rw [depth_eq] at hd
            omega
          obtain ⟨res, hres⟩ := ih false c _ hcd
          obtain ⟨cnt, c', cl⟩ := res
          rw [hres]
          split
          · next heq => exact GoResult.noConfusion heq
          · next cnt2 c2 cl2 heq =>
            simp only [GoResult.ok.injEq, Prod.mk.injEq] at heq
            obtain ⟨h1, h2, h3⟩ := heq
            subst h1
            subst h2
            subst h3
            split
            · next hguard =>
              simp only [Bool.and_eq_true, beq_iff_eq, GoNode.edges_mk,
                GoNode.leaf_mk] at hguard
              obtain ⟨l2, c3, hes⟩ := edges_length_one hguard.1.2
              rw [hes, mergeChildGo_of_cons]
              exact ⟨_, rfl⟩
            · exact ⟨_, rfl⟩

/-- C9: starting from any tree in byte-exact mode (`fold = false`), no public
mutating operation panics: `Insert` (so every `updateEdge` during a split
finds its label, lines 205/223 of radix.go), `Delete` and `DeletePrefix`
(so every `mergeChild` happens on a node with exactly one edge) all return
normally.  The query operations (`Get`, `LongestPrefix`, `Minimum`,
`Maximum`) are total by construction. -/
theorem C9_no_panic {V : Type} (tl : Nat → Nat) (t : GoTree V)
    (k p : List Nat) (v : V) (hf : t.fold = false) :
    (∃ r, t.Insert tl k v = .ok r) ∧
    (∃ r, t.Delete tl k = .ok r) ∧
    (∃ r, t.DeletePrefix tl p = .ok r) := by
  refine ⟨?_, ?_, ?_⟩
  · obtain ⟨res, hres⟩ :=
      insertRec_ok tl t.root.depth t.root k k v (le_refl _)
    obtain ⟨old, r⟩ := res
    refine ⟨(old, ⟨r, if old.isSome then t.size else t.size + 1, t.fold⟩), ?_⟩
    simp only [GoTree.Insert, hf, hres]
  · obtain ⟨res, hres⟩ :=
      deleteRec_ok t.fold tl t.root.depth true t.root k (le_refl _)
    rcases res with _ | ⟨v1, r1, i1⟩
    · exact ⟨(none, t), by simp only [GoTree.Delete, hres]⟩
    · exact ⟨(some v1, ⟨r1, t.size - 1, t.fold⟩),
        by simp only [GoTree.Delete, hres]⟩
  · obtain ⟨res, hres⟩ :=
      deletePrefixRec_ok t.fold tl t.root.depth true t.root p (le_refl _)
    obtain ⟨cnt, r1, cl⟩ := res
    exact ⟨(cnt, ⟨r1, t.size - cnt, t.fold⟩),
      by simp only [GoTree.DeletePrefix, hres]⟩

/-- Concrete byte-mode run of `C9_no_panic`. -/
theorem C9_witness :
    (∃ r, (emptyTree Nat false).Insert toLowerA [97] 1 = .ok r) ∧
    (∃ r, (emptyTree Nat false).Delete toLowerA [97] = .ok r) ∧
    (∃ r, (emptyTree Nat false).DeletePrefix toLowerA [97] = .ok r) :=
  C9_no_panic toLowerA (emptyTree Nat false) [97] [97] 1 rfl

/-! ## The structural invariant of trees built by the API

`WFb p n` says node `n` is well-formed at path `p` (the bytes consumed
before `n.pfx`): its leaf key is exactly `p ++ n.pfx`, its edges are
strictly sorted, and each child hangs off the edge labelled with the first
byte of its non-empty prefix — the invariant `Insert` establishes and the
radix.go operations rely on. -/

mutual
def WFb {V : Type} : List Nat → GoNode V → Prop
  | p, .mk lf pfx es =>
    (∀ l, lf = some l → l.key = p ++ pfx) ∧ edgesSorted es ∧ WFe (p ++ pfx) es
def WFe {V : Type} : List Nat → GoEdges V → Prop
  | _, .nil => True
  | q, .cons l c r =>
    c.pfx ≠ [] ∧ c.pfx.headD 0 = l ∧ WFb q c ∧ WFe q r
end

/-- Tree-level invariant: well-formed root whose own prefix is empty (the
root's `prefix` is never assigned by any operation). -/
def WFt {V : Type} (t : GoTree V) : Prop :=
  WFb [] t.root ∧ t.root.pfx = []

theorem WFb_def {V : Type} (p : List Nat) (n : GoNode V) :
    WFb p n ↔
      (∀ l, n.leaf = some l → l.key = p ++ n.pfx) ∧
        edgesSorted n.edges ∧ WFe (p ++ n.pfx) n.edges := by
  cases n
  exact Iff.rfl

theorem WFe_cons {V : Type} {q : List Nat} {l : Nat} {c : GoNode V}
    {r : GoEdges V} :
    WFe q (.cons l c r) ↔
      c.pfx ≠ [] ∧ c.pfx.headD 0 = l ∧ WFb q c ∧ WFe q r :=
  Iff.rfl

/-- First-match association lookup in a walk. -/
def lookupC {V : Type} (k : List Nat) : List (List Nat × V) → Option V
  | [] => none
  | kv :: r => if kv.1 = k then some kv.2 else lookupC k r

/-- Strict lexicographic byte order. -/
def lexLtb : List Nat → List Nat → Bool
  | [], [] => false
  | [], _ :: _ => true
  | _ :: _, [] => false
  | a :: as, b :: bs =>
    if a < b then true else if a = b then lexLtb as bs else false

theorem lookupC_append_left {V : Type} {k : List Nat}
    {xs : List (List Nat × V)} {v : V} (ys : List (List Nat × V))
    (h : lookupC k xs = some v) : lookupC k (xs ++ ys) = some v := by
  induction xs with
  | nil => exact Option.noConfusion h
  | cons kv r ih =>
    simp only [lookupC] at h ⊢
    split at h
    · next hk => rw [if_pos hk]; exact h
    · next hk => rw [if_neg hk]; exact ih h

theorem lookupC_append_right {V : Type} {k : List Nat}
    {xs : List (List Nat × V)} (ys : List (List Nat × V))
    (h : lookupC k xs = none) : lookupC k (xs ++ ys) = lookupC k ys := by
  induction xs with
  | nil => rfl
  | cons kv r ih =>
    simp only [lookupC] at h ⊢
    split at h
    · exact Option.noConfusion h
    · next hk => rw [if_neg hk]; exact ih h

theorem lookupC_eq_none {V : Type} {k : List Nat}
    {xs : List (List Nat × V)} (h : ∀ kv ∈ xs, kv.1 ≠ k) :
    lookupC k xs = none := by
  induction xs with
  | nil => rfl
  | cons kv r ih =>
    simp only [lookupC]
    rw [if_neg (h kv (List.mem_cons_self kv r))]
    exact ih fun kv2 hm => h kv2 (List.mem_cons_of_mem kv hm)

theorem labelsAbove_lt {V : Type} {l : Nat} {r : GoEdges V}
    (h : labelsAbove l r) : ∀ x ∈ r.labels, l < x := by
  induction r using GoEdges.induct with
  | hnil => intro x hx; exact absurd hx (List.not_mem_nil x)
  | hcons l2 c rr ih =>
    intro x hx
    obtain ⟨h1, h2⟩ := h
    rcases List.mem_cons.1 hx with h3 | h3
    · omega
    · exact ih h2 x h3

theorem findEdgeL_insE_self {V : Type} (es : GoEdges V) (x : Nat)
    (c : GoNode V) : findEdgeL (insE es x c) x = some c := by
  induction es using GoEdges.induct with
  | hnil => simp [insE, findEdgeL]
  | hcons l c0 r ih =>
    simp only [insE]
    by_cases hx : x ≤ l
    · rw [if_pos hx]; simp [findEdgeL]
    · rw [if_neg hx]
      have : x ≠ l := by omega
      simp only [findEdgeL, this, if_false]
      exact ih

theorem findEdgeL_insE_other {V : Type} (es : GoEdges V) (x : Nat)
    (c : GoNode V) {y : Nat} (hy : y ≠ x) :
    findEdgeL (insE es x c) y = findEdgeL es y := by
  induction es using GoEdges.induct with
  | hnil => simp [insE, findEdgeL, hy]
  | hcons l c0 r ih =>
    simp only [insE]
    by_cases hx : x ≤ l
    · rw [if_pos hx]
      simp only [findEdgeL, hy, if_false]
    · rw [if_neg hx]
      simp only [findEdgeL]
      by_cases hyl : y = l
      · rw [if_pos hyl, if_pos hyl]
      · rw [if_neg hyl, if_neg hyl]; exact ih

theorem findEdgeL_replE_self {V : Type} {es : GoEdges V} {x : Nat}
    {c0 : GoNode V} (hf : findEdgeL es x = some c0) (c : GoNode V) :
    findEdgeL (replE es x c) x = some c := by
  induction es using GoEdges.induct with
  | hnil => exact Option.noConfusion hf
  | hcons l c1 r ih =>
    simp only [findEdgeL] at hf
    simp only [replE]
    by_cases hxl : x = l
    · rw [if_pos hxl]; simp [findEdgeL, hxl]
    · rw [if_neg hxl]
      simp only [findEdgeL, hxl, if_false]
      rw [if_neg hxl] at hf
      exact ih hf

theorem findEdgeL_replE_other {V : Type} (es : GoEdges V) (x : Nat)
    (c : GoNode V) {y : Nat} (hy : y ≠ x) :
    findEdgeL (replE es x c) y = findEdgeL es y := by
  induction es using GoEdges.induct with
  | hnil => rfl
  | hcons l c0 r ih =>
    simp only [replE]
    by_cases hxl : x = l
    · rw [if_pos hxl]
      subst hxl
      simp only [findEdgeL, hy, if_false]
    · rw [if_neg hxl]
      simp only [findEdgeL]
      by_cases hyl : y = l
      · rw [if_pos hyl, if_pos hyl]
      · rw [if_neg hyl, if_neg hyl]; exact ih

theorem findEdgeL_delE_self {V : Type} {es : GoEdges V} (hs : edgesSorted es)
    (x : Nat) : findEdgeL (delE es x) x = none := by
  induction es using GoEdges.induct with
  | hnil => rfl
  | hcons l c0 r ih =>
    obtain ⟨h1, h2⟩ := hs
    simp only [delE]
    by_cases hxl : x = l
    · rw [if_pos hxl]
      subst hxl
      exact findEdgeL_none_above h1 (le_refl x)
    · rw [if_neg hxl]
      simp only [findEdgeL, hxl, if_false]
      exact ih h2

theorem findEdgeL_delE_other {V : Type} (es : GoEdges V) (x : Nat)
    {y : Nat} (hy : y ≠ x) :
    findEdgeL (delE es x) y = findEdgeL es y := by
  induction es using GoEdges.induct with
  | hnil => rfl
  | hcons l c0 r ih =>
    simp only [delE]
    by_cases hxl : x = l
    · rw [if_pos hxl]
      subst hxl
      simp only [findEdgeL, hy, if_false]
    · rw [if_neg hxl]
      simp only [findEdgeL]
      by_cases hyl : y = l
      · rw [if_pos hyl, if_pos hyl]
      · rw [if_neg hyl, if_neg hyl]; exact ih

theorem labelsAbove_of_lt {V : Type} {l0 l : Nat} {r : GoEdges V}
    (hl : l0 < l) (h : labelsAbove l r) : labelsAbove l0 r := by
  induction r using GoEdges.induct with
  | hnil => trivial
  | hcons l2 c rr ih =>
    obtain ⟨ha, hb⟩ := h
    exact ⟨by omega, ih hb⟩

theorem labelsAbove_insE {V : Type} {l0 x : Nat} {r : GoEdges V}
    (c : GoNode V) (h : labelsAbove l0 r) (hx : l0 < x) :
    labelsAbove l0 (insE r x c) := by
  induction r using GoEdges.induct with
  | hnil => exact ⟨hx, trivial⟩
  | hcons l2 c2 rr ih =>
    simp only [insE]
    by_cases hxl : x ≤ l2
    · rw [if_pos hxl]; exact ⟨hx, h⟩
    · rw [if_neg hxl]; exact ⟨h.1, ih h.2⟩

theorem insE_sorted {V : Type} {es : GoEdges V} {x : Nat}
    (hs : edgesSorted es) (hf : findEdgeL es x = none) (c : GoNode V) :
    edgesSorted (insE es x c) := by
  induction es using GoEdges.induct with
  | hnil => exact ⟨trivial, trivial⟩
  | hcons l c0 r ih =>
    simp only [findEdgeL] at hf
    have hxl : x ≠ l := by
      intro h; rw [if_pos h] at hf; exact Option.noConfusion hf
    rw [if_neg hxl] at hf
    simp only [insE]
    by_cases hle : x ≤ l
    · rw [if_pos hle]
      have hlt : x < l := by omega
      exact ⟨⟨hlt, labelsAbove_of_lt hlt hs.1⟩, hs⟩
    · rw [if_neg hle]
      exact ⟨labelsAbove_insE c hs.1 (by omega), ih hs.2 hf⟩

theorem insE_WFe {V : Type} {q : List Nat} {es : GoEdges V} {x : Nat}
    {c : GoNode V} (hw : WFe q es) (hc : WFb q c) (hne : c.pfx ≠ [])
    (hhd : c.pfx.headD 0 = x) : WFe q (insE es x c) := by
  induction es using GoEdges.induct with
  | hnil => exact ⟨hne, hhd, hc, trivial⟩
  | hcons l c0 r ih =>
    obtain ⟨h1, h2, h3, h4⟩ := hw
    simp only [insE]
    by_cases hle : x ≤ l
    · rw [if_pos hle]; exact ⟨hne, hhd, hc, h1, h2, h3, h4⟩
    · rw [if_neg hle]; exact ⟨h1, h2, h3, ih h4⟩

theorem labelsAbove_replE {V : Type} {l0 x : Nat} {r : GoEdges V}
    (c : GoNode V) (h : labelsAbove l0 r) : labelsAbove l0 (replE r x c) := by
  induction r using GoEdges.induct with
  | hnil => trivial
  | hcons l2 c2 rr ih =>
    simp only [replE]
    by_cases hxl : x = l2
    · rw [if_pos hxl]; exact ⟨h.1, h.2⟩
    · rw [if_neg hxl]; exact ⟨h.1, ih h.2⟩

theorem replE_sorted {V : Type} {es : GoEdges V} (hs : edgesSorted es)
    (x : Nat) (c : GoNode V) : edgesSorted (replE es x c) := by
  induction es using GoEdges.induct with
  | hnil => trivial
  | hcons l c0 r ih =>
    simp only [replE]
    by_cases hxl : x = l
    · rw [if_pos hxl]; exact ⟨hs.1, hs.2⟩
    · rw [if_neg hxl]; exact ⟨labelsAbove_replE c hs.1, ih hs.2⟩

theorem replE_WFe {V : Type} {q : List Nat} {es : GoEdges V} {x : Nat}
    {c : GoNode V} (hw : WFe q es) (hc : WFb q c) (hne : c.pfx ≠ [])
    (hhd : c.pfx.headD 0 = x) : WFe q (replE es x c) := by
  induction es using GoEdges.induct with
  | hnil => trivial
  | hcons l c0 r ih =>
    obtain ⟨h1, h2, h3, h4⟩ := hw
    simp only [replE]
    by_cases hxl : x = l
    · rw [if_pos hxl]
      exact ⟨hne, hxl ▸ hhd, hc, h4⟩
    · rw [if_neg hxl]; exact ⟨h1, h2, h3, ih h4⟩

theorem labelsAbove_delE {V : Type} {l0 x : Nat} {r : GoEdges V}
    (h : labelsAbove l0 r) : labelsAbove l0 (delE r x) := by
  induction r using GoEdges.induct with
  | hnil => trivial
  | hcons l2 c2 rr ih =>
    simp only [delE]
    by_cases hxl : x = l2
    · rw [if_pos hxl]; exact h.2
    · rw [if_neg hxl]; exact ⟨h.1, ih h.2⟩

theorem delE_sorted {V : Type} {es : GoEdges V} (hs : edgesSorted es)
    (x : Nat) : edgesSorted (delE es x) := by
  induction es using GoEdges.induct with
  | hnil => trivial
  | hcons l c0 r ih =>
    simp only [delE]
    by_cases hxl : x = l
    · rw [if_pos hxl]; exact hs.2
    · rw [if_neg hxl]; exact ⟨labelsAbove_delE hs.1, ih hs.2⟩

theorem delE_WFe {V : Type} {q : List Nat} {es : GoEdges V} (hw : WFe q es)
    (x : Nat) : WFe q (delE es x) := by
  induction es using GoEdges.induct with
  | hnil => trivial
  | hcons l c0 r ih =>
    obtain ⟨h1, h2, h3, h4⟩ := hw
    simp only [delE]
    by_cases hxl : x = l
    · rw [if_pos hxl]; exact h4
    · rw [if_neg hxl]; exact ⟨h1, h2, h3, ih h4⟩

theorem pfx_head_cons {p : List Nat} {l : Nat} (hne : p ≠ [])
    (hhd : p.headD 0 = l) : ∃ t, p = l :: t := by
  cases p with
  | nil => exact absurd rfl hne
  | cons h t =>
    simp only [List.headD_cons] at hhd
    exact ⟨t, by rw [hhd]⟩

theorem keyShapeB {V : Type} :
    ∀ (n : GoNode V) (p : List Nat), WFb p n →
      ∀ kv ∈ n.content, ∃ ext, kv.1 = p ++ n.pfx ++ ext := by
  intro n
  induction n using GoNode.inductM
    (Q := fun es => ∀ q : List Nat, WFe q es →
      ∀ kv ∈ es.contentE, ∃ l ext, l ∈ es.labels ∧ kv.1 = q ++ l :: ext) with
  | hmk lf p0 es hQ =>
    intro p hw kv hm
    obtain ⟨hleaf, hs, hwe⟩ := hw
    rw [content_mk] at hm
    rcases List.mem_append.1 hm with hm | hm
    · cases lf with
      | some l0 =>
        simp only [List.mem_singleton] at hm
        subst hm
        refine ⟨[], ?_⟩
        show l0.key = p ++ (GoNode.mk (some l0) p0 es).pfx ++ []
        rw [hleaf l0 rfl, GoNode.pfx_mk, List.append_nil]
      | none => exact absurd hm (List.not_mem_nil kv)
    · obtain ⟨l, ext, _, hk⟩ := hQ (p ++ p0) hwe kv hm
      exact ⟨l :: ext, by rw [hk, GoNode.pfx_mk, List.append_assoc]⟩
  | hnil =>
    rename_i q hw kv hm
    exact absurd hm (List.not_mem_nil kv)
  | hcons l c r hP hQ =>
    rename_i q hw kv hm
    obtain ⟨hne, hhd, hwc, hwr⟩ := hw
    rcases List.mem_append.1 hm with hm | hm
    · obtain ⟨ext, hk⟩ := hP q hwc kv hm
      obtain ⟨t, hp⟩ := pfx_head_cons hne hhd
      refine ⟨l, t ++ ext, List.mem_cons_self l r.labels, ?_⟩
      rw [hk, hp, List.append_assoc, List.cons_append]
    · obtain ⟨l2, ext, hmem, hk⟩ := hQ q hwr kv hm
      exact ⟨l2, ext, List.mem_cons_of_mem l hmem, hk⟩

theorem keyShapeE {V : Type} :
    ∀ (es : GoEdges V) (q : List Nat), WFe q es →
      ∀ kv ∈ es.contentE, ∃ l ext, l ∈ es.labels ∧ kv.1 = q ++ l :: ext := by
  intro es
  induction es using GoEdges.induct with
  | hnil =>
    intro q _ kv hm
    exact absurd hm (List.not_mem_nil kv)
  | hcons l c r ih =>
    intro q hw kv hm
    obtain ⟨hne, hhd, hwc, hwr⟩ := hw
    rcases List.mem_append.1 hm with hm | hm
    · obtain ⟨ext, hk⟩ := keyShapeB c q hwc kv hm
      obtain ⟨t, hp⟩ := pfx_head_cons hne hhd
      refine ⟨l, t ++ ext, List.mem_cons_self l r.labels, ?_⟩
      rw [hk, hp, List.append_assoc, List.cons_append]
    · obtain ⟨l2, ext, hmem, hk⟩ := ih q hwr kv hm
      exact ⟨l2, ext, List.mem_cons_of_mem l hmem, hk⟩

theorem lookupE_none_shorter {V : Type} {q : List Nat} {es : GoEdges V}
    (hw : WFe q es) : lookupC q es.contentE = none := by
  refine lookupC_eq_none fun kv hm => ?_
  obtain ⟨l, ext, _, hk⟩ := keyShapeE es q hw kv hm
  rw [hk]
  intro h
  have := congrArg List.length h
  simp only [List.length_append, List.length_cons] at this
  omega

theorem WFe_findEdgeL {V : Type} :
    ∀ (es : GoEdges V) (q : List Nat), WFe q es →
      ∀ {label : Nat} {c : GoNode V}, findEdgeL es label = some c →
        WFb q c ∧ c.pfx ≠ [] ∧ c.pfx.headD 0 = label := by
  intro es
  induction es using GoEdges.induct with
  | hnil =>
    intro q _ label c hf
    exact Option.noConfusion hf
  | hcons l c0 r ih =>
    intro q hw label c hf
    obtain ⟨hne, hhd, hwc, hwr⟩ := hw
    simp only [findEdgeL] at hf
    split at hf
    · next hl =>
      obtain rfl := Option.some_inj.1 hf
      exact ⟨hwc, hne, hl ▸ hhd⟩
    · exact ih q hwr hf

theorem lookupE_decomp {V : Type} (q : List Nat) (label : Nat)
    (rest : List Nat) :
    ∀ es : GoEdges V, edgesSorted es → WFe q es →
      lookupC (q ++ label :: rest) es.contentE =
        (match findEdgeL es label with
         | some c => lookupC (q ++ label :: rest) c.content
         | none => none) := by
  intro es
  induction es using GoEdges.induct with
  | hnil => intro _ _; rfl
  | hcons l c r ih =>
    intro hs hw
    obtain ⟨ha, hs2⟩ := hs
    obtain ⟨hne, hhd, hwc, hwr⟩ := hw
    show lookupC (q ++ label :: rest) (c.content ++ r.contentE) = _
    simp only [findEdgeL]
    by_cases hl : label = l
    · rw [if_pos hl]
      subst hl
      cases hcc : lookupC (q ++ label :: rest) c.content with
      | some v =>
        rw [lookupC_append_left r.contentE hcc]
        exact hcc.symm
      | none =>
        rw [lookupC_append_right r.contentE hcc]
        show lookupC (q ++ label :: rest) r.contentE =
          lookupC (q ++ label :: rest) c.content
        rw [hcc]
        refine lookupC_eq_none fun kv hm => ?_
        obtain ⟨l2, ext, hmem, hk⟩ := keyShapeE r q hwr kv hm
        have hlt : label < l2 := labelsAbove_lt ha l2 hmem
        rw [hk]
        intro h
        have h2 := List.append_cancel_left h
        simp only [List.cons.injEq] at h2
        omega
    · rw [if_neg hl]
      have hcc : lookupC (q ++ label :: rest) c.content = none := by
        refine lookupC_eq_none fun kv hm => ?_
        obtain ⟨ext, hk⟩ := keyShapeB c q hwc kv hm
        obtain ⟨t, hp⟩ := pfx_head_cons hne hhd
        rw [hk, hp]
        intro h
        rw [List.append_assoc, List.cons_append] at h
        have h2 := List.append_cancel_left h
        simp only [List.cons.injEq] at h2
        exact hl (h2.1.symm)
      rw [lookupC_append_right r.contentE hcc]
      exact ih hs2 hwr

/-- `Tree.Get` on a well-formed node is association lookup of the full key
in the walk of the subtree. -/
theorem getRec_eq_lookupC {V : Type} (tl : Nat → Nat) :
    ∀ (fuel : Nat) (n : GoNode V) (p s : List Nat),
      n.depth ≤ fuel → WFb p n →
      getRec false tl fuel n s = lookupC (p ++ n.pfx ++ s) n.content := by
  intro fuel
  induction fuel with
  | zero =>
    intro n p s hd hw
    rw [depth_eq] at hd
    omega
  | succ fuel ih =>
    intro n p s hd hw
    obtain ⟨hleaf, hs, hwe⟩ := (WFb_def p n).1 hw
    match s with
    | [] =>
      show n.leaf.map (fun lf => lf.val) = _
      rw [List.append_nil]
      rw [content_eq_leaf_edges]
      cases hlf : n.leaf with
      | some l0 =>
        have hk := hleaf l0 hlf
        simp only [lookupC, hk, if_true]
        rfl
      | none =>
        simp only [Option.map_none, List.nil_append]
        exact (lookupE_none_shorter hwe).symm
    | label :: srest =>
      show (match getEdge n.edges label with
            | none => none
            | some c =>
              if hpFn false tl (label :: srest) c.pfx then
                getRec false tl fuel c ((label :: srest).drop c.pfx.length)
              else none) = _
      rw [content_eq_leaf_edges]
      have hleafskip :
          lookupC (p ++ n.pfx ++ label :: srest)
            (match n.leaf with
             | some l => [(l.key, l.val)]
             | none => []) = none := by
        cases hlf : n.leaf with
        | some l0 =>
          have hk := hleaf l0 hlf
          refine lookupC_eq_none fun kv hm => ?_
          simp only [List.mem_singleton] at hm
          subst hm
          rw [hk]
          intro h
          have := congrArg List.length h
          simp only [List.length_append, List.length_cons] at this
          omega
        | none => rfl
      rw [lookupC_append_right _ hleafskip]
      rw [lookupE_decomp (p ++ n.pfx) label srest n.edges hs hwe]
      rw [getEdge_eq_findEdgeL hs]
      cases hf : findEdgeL n.edges label with
      | none => rfl
      | some c =>
        obtain ⟨hwc, hne, hhd⟩ := WFe_findEdgeL n.edges (p ++ n.pfx) hwe hf
        show (if hpFn false tl (label :: srest) c.pfx then
                getRec false tl fuel c ((label :: srest).drop c.pfx.length)
              else none) = _
        cases hpre : hpFn false tl (label :: srest) c.pfx with
        | true =>
          rw [if_pos rfl]
          simp only [hpFn, if_neg Bool.false_ne_true, goHasPrefix] at hpre
          have hpre2 : c.pfx <+: (label :: srest) :=
            List.isPrefixOf_iff_prefix.1 hpre
          obtain ⟨tail, htail⟩ := hpre2
          have hdrop : (label :: srest).drop c.pfx.length = tail := by
            rw [← htail, List.drop_left]
          have hcd : c.depth ≤ fuel := by
            have := getEdge_depth ((getEdge_eq_findEdgeL hs label).trans hf)
            rw [depth_eq] at hd
            omega
          rw [hdrop, ih c (p ++ n.pfx) tail hcd hwc]
          rw [← htail, List.append_assoc]
        | false =>
          rw [if_neg Bool.false_ne_true]
          refine (lookupC_eq_none fun kv hm => ?_).symm
          obtain ⟨ext, hk⟩ := keyShapeB c (p ++ n.pfx) hwc kv hm
          rw [hk]
          intro h
          rw [List.append_assoc] at h
          have h2 := List.append_cancel_left h
          have hp2 : c.pfx <+: (label :: srest) := ⟨ext, h2⟩
          simp only [hpFn, if_neg Bool.false_ne_true, goHasPrefix] at hpre
          rw [List.isPrefixOf_iff_prefix.2 hp2] at hpre
          exact Bool.noConfusion hpre

theorem headD_drop (xs : List Nat) (i : Nat) (d : Nat) :
    (xs.drop i).headD d = xs.getD i d := by
  induction xs generalizing i with
  | nil => simp [List.drop_nil]
  | cons x t ih =>
    cases i with
    | zero => rfl
    | succ j => simp only [List.drop_succ_cons, List.getD_cons_succ]; exact ih j

theorem drop_ne_nil {xs : List Nat} {i : Nat} (h : i < xs.length) :
    xs.drop i ≠ [] := by
  intro hc
  have := congrArg List.length hc
  simp only [List.length_drop, List.length_nil] at this
  omega

theorem key_shape_cases (k q : List Nat) :
    k = q ∨ (∃ y rest, k = q ++ y :: rest) ∨ ∀ ext, k ≠ q ++ ext := by
  by_cases hq : q <+: k
  · obtain ⟨e, he⟩ := hq
    cases e with
    | nil => exact Or.inl (by rw [← he, List.append_nil])
    | cons y rest => exact Or.inr (Or.inl ⟨y, rest, he.symm⟩)
  · refine Or.inr (Or.inr fun ext heq => hq ⟨ext, heq.symm⟩)

theorem lookupC_content_none {V : Type} {p k : List Nat} {n : GoNode V}
    (hw : WFb p n) (hk : ∀ ext, k ≠ (p ++ n.pfx) ++ ext) :
    lookupC k n.content = none := by
  refine lookupC_eq_none fun kv hm => ?_
  obtain ⟨ext, hke⟩ := keyShapeB n p hw kv hm
  rw [hke]
  exact (hk ext).symm

theorem lookupC_node_nil {V : Type} {p : List Nat} {n : GoNode V}
    (hw : WFb p n) :
    lookupC (p ++ n.pfx) n.content =
      (match n.leaf with
       | some lf => some lf.val
       | none => none) := by
  obtain ⟨hleaf, hs, hwe⟩ := (WFb_def p n).1 hw
  rw [content_eq_leaf_edges]
  cases hlf : n.leaf with
  | some l0 =>
    have hk := hleaf l0 hlf
    simp only [lookupC, hk, if_true]
  | none =>
    simp only [List.nil_append]
    exact lookupE_none_shorter hwe

theorem lookupC_node_cons {V : Type} {p : List Nat} {n : GoNode V}
    (hw : WFb p n) (y : Nat) (rest : List Nat) :
    lookupC ((p ++ n.pfx) ++ y :: rest) n.content =
      lookupC ((p ++ n.pfx) ++ y :: rest) n.edges.contentE := by
  obtain ⟨hleaf, hs, hwe⟩ := (WFb_def p n).1 hw
  rw [content_eq_leaf_edges]
  refine lookupC_append_right _ (lookupC_eq_none fun kv hm => ?_)
  cases hlf : n.leaf with
  | some l0 =>
    rw [hlf] at hm
    simp only [List.mem_singleton] at hm
    subst hm
    rw [hleaf l0 hlf]
    intro h
    have := congrArg List.length h
    simp only [List.length_append, List.length_cons] at this
    omega
  | none => rw [hlf] at hm; exact absurd hm (List.not_mem_nil kv)

theorem lookupC_node_decomp {V : Type} {p : List Nat} {n : GoNode V}
    (hw : WFb p n) (y : Nat) (rest : List Nat) :
    lookupC ((p ++ n.pfx) ++ y :: rest) n.content =
      (match findEdgeL n.edges y with
       | some c => lookupC ((p ++ n.pfx) ++ y :: rest) c.content
       | none => none) := by
  obtain ⟨hleaf, hs, hwe⟩ := (WFb_def p n).1 hw
  rw [lookupC_node_cons hw y rest]
  exact lookupE_decomp (p ++ n.pfx) y rest n.edges hs hwe

/-- Transfers an edges-level lookup frame to the whole node: when two
well-formed nodes share leaf and prefix and their edge walks agree except
at one extending key `tgt`, their content lookups agree except at `tgt`. -/
theorem frame_of_edges {V : Type} {p : List Nat} {n n' : GoNode V}
    {tgt : List Nat} {res : Option V}
    (hw : WFb p n) (hw' : WFb p n') (hlf : n'.leaf = n.leaf)
    (hpfx : n'.pfx = n.pfx)
    (htgt : ∃ y rest, tgt = (p ++ n.pfx) ++ y :: rest)
    (hE : ∀ y rest, lookupC ((p ++ n.pfx) ++ y :: rest) n'.edges.contentE =
        if (p ++ n.pfx) ++ y :: rest = tgt then res
        else lookupC ((p ++ n.pfx) ++ y :: rest) n.edges.contentE) :
    ∀ k, lookupC k n'.content =
      (if k = tgt then res else lookupC k n.content) := by
  intro k
  obtain ⟨ty, trest, htt⟩ := htgt
  rcases key_shape_cases k (p ++ n.pfx) with hk | ⟨y, rest, hk⟩ | hk
  · have hne : k ≠ tgt := by
      rw [hk, htt]
      intro h
      have := congrArg List.length h
      simp only [List.length_append, List.length_cons] at this
      omega
    rw [if_neg hne, hk]
    have h1 := lookupC_node_nil hw
    have h2 := lookupC_node_nil hw'
    rw [hpfx] at h2
    rw [h1, h2, hlf]
  · subst hk
    have h2 := lookupC_node_cons hw' y rest
    rw [hpfx] at h2
    rw [h2, hE y rest]
    by_cases ht : (p ++ n.pfx) ++ y :: rest = tgt
    · rw [if_pos ht, if_pos ht]
    · rw [if_neg ht, if_neg ht, lookupC_node_cons hw y rest]
  · have hne : k ≠ tgt := by
      rw [htt]
      exact hk (ty :: trest)
    rw [if_neg hne]
    rw [lookupC_content_none hw hk]
    refine lookupC_content_none hw' ?_
    rw [hpfx]
    exact hk

theorem append_cons_ne_self (q : List Nat) (y : Nat) (rest : List Nat) :
    q ++ y :: rest ≠ q := by
  intro h
  have := congrArg List.length h
  simp only [List.length_append, List.length_cons] at this
  omega

theorem append_cons_inj {q a b : List Nat} {y z : Nat}
    (h : q ++ y :: a = q ++ z :: b) : y = z ∧ a = b := by
  have h2 := List.append_cancel_left h
  simp only [List.cons.injEq] at h2
  exact h2

theorem lookupE_decomp_some {V : Type} {q : List Nat} {es : GoEdges V}
    {label : Nat} {c : GoNode V} (hs : edgesSorted es) (hw : WFe q es)
    (hf : findEdgeL es label = some c) (rest : List Nat) :
    lookupC (q ++ label :: rest) es.contentE =
      lookupC (q ++ label :: rest) c.content := by
  rw [lookupE_decomp q label rest es hs hw, hf]

theorem lookupE_decomp_none {V : Type} {q : List Nat} {es : GoEdges V}
    {label : Nat} (hs : edgesSorted es) (hw : WFe q es)
    (hf : findEdgeL es label = none) (rest : List Nat) :
    lookupC (q ++ label :: rest) es.contentE = none := by
  rw [lookupE_decomp q label rest es hs hw, hf]

theorem lookupC_node_some {V : Type} {p : List Nat} {n : GoNode V}
    {y : Nat} {c : GoNode V} (hw : WFb p n)
    (hf : findEdgeL n.edges y = some c) (rest : List Nat) :
    lookupC ((p ++ n.pfx) ++ y :: rest) n.content =
      lookupC ((p ++ n.pfx) ++ y :: rest) c.content := by
  rw [lookupC_node_decomp hw y rest, hf]

theorem lookupC_node_none {V : Type} {p : List Nat} {n : GoNode V}
    {y : Nat} (hw : WFb p n) (hf : findEdgeL n.edges y = none)
    (rest : List Nat) :
    lookupC ((p ++ n.pfx) ++ y :: rest) n.content = none := by
  rw [lookupC_node_decomp hw y rest, hf]

theorem addEdge_nil {V : Type} (x : Nat) (c : GoNode V) :
    addEdge GoEdges.nil x c = GoEdges.cons x c GoEdges.nil := by
  have h : edgesSorted (GoEdges.nil : GoEdges V) := trivial
  rw [addEdge_eq_insE h]
  rfl

theorem addEdge_single {V : Type} (l : Nat) (c0 : GoNode V) (x : Nat)
    (c : GoNode V) :
    addEdge (GoEdges.cons l c0 GoEdges.nil) x c =
      insE (GoEdges.cons l c0 GoEdges.nil) x c := by
  have h : edgesSorted (GoEdges.cons l c0 (GoEdges.nil : GoEdges V)) :=
    ⟨trivial, trivial⟩
  exact addEdge_eq_insE h x c

/-- `Tree.Insert` in byte mode on a well-formed node: the result is
well-formed with the same prefix, the returned old value is the association
lookup of the key, and the walk's lookup view changes at the inserted key
only. -/
theorem insertRec_frame {V : Type} (tl : Nat → Nat) :
    ∀ (fuel : Nat) (n : GoNode V) (p search : List Nat) (v : V)
      (old : Option V) (n' : GoNode V),
      n.depth ≤ fuel → WFb p n →
      insertRec false tl fuel n (p ++ n.pfx ++ search) search v =
        .ok (old, n') →
      WFb p n' ∧ n'.pfx = n.pfx ∧
        old = lookupC (p ++ n.pfx ++ search) n.content ∧
        ∀ k, lookupC k n'.content =
          (if k = p ++ n.pfx ++ search then some v
           else lookupC k n.content) := by
  intro fuel
  induction fuel with
  | zero =>
    intro n p search v old n' hd hw h
    exact GoResult.noConfusion h
  | succ fuel ih =>
    intro n p search v old n' hd hw h
    obtain ⟨hleaf, hs, hwe⟩ := (WFb_def p n).1 hw
    match search with
    | [] =>
      simp only [insertRec] at h
      split at h
      · next lf hlf =>
        simp only [GoResult.ok.injEq, Prod.mk.injEq] at h
        obtain ⟨ho, hn⟩ := h
        subst ho
        subst hn
        have hkey := hleaf lf hlf
        refine ⟨?_, rfl, ?_, ?_⟩
        · refine ⟨?_, hs, hwe⟩
          intro l hl
          obtain rfl := Option.some_inj.1 hl
          exact hkey
        · rw [List.append_nil, lookupC_node_nil hw, hlf]
        · intro k
          by_cases hk : k = p ++ n.pfx ++ []
          · rw [if_pos hk]
            rw [List.append_nil] at hk
            subst hk
            rw [content_mk]
            simp [lookupC, hkey]
          · rw [if_neg hk]
            rw [List.append_nil] at hk
            rw [content_mk, content_eq_leaf_edges n, hlf]
            simp only [List.singleton_append, lookupC]
            rw [if_neg (by rw [hkey]; exact fun hh => hk hh.symm),
              if_neg (by rw [hkey]; exact fun hh => hk hh.symm)]
      · next hlf =>
        simp only [GoResult.ok.injEq, Prod.mk.injEq] at h
        obtain ⟨ho, hn⟩ := h
        subst ho
        subst hn
        refine ⟨?_, rfl, ?_, ?_⟩
        · refine ⟨?_, hs, hwe⟩
          intro l hl
          obtain rfl := Option.some_inj.1 hl
          rw [List.append_nil]
        · rw [List.append_nil, lookupC_node_nil hw, hlf]
        · intro k
          rw [content_mk, content_eq_leaf_edges n, hlf]
          simp only [List.singleton_append, List.nil_append, lookupC]
          by_cases hk : k = p ++ n.pfx ++ []
          · rw [if_pos hk, if_pos (by rw [hk])]
          · rw [if_neg hk, if_neg (fun hh => hk hh.symm)]
            rfl
    | label :: srest =>
      simp only [insertRec] at h
      split at h
      · next hg =>
        rw [getEdge_eq_findEdgeL hs] at hg
        simp only [GoResult.ok.injEq, Prod.mk.injEq] at h
        obtain ⟨ho, hn⟩ := h
        subst ho
        subst hn
        have hwnew : WFb (p ++ n.pfx)
            (GoNode.mk (some ⟨p ++ n.pfx ++ label :: srest, v⟩)
              (label :: srest) GoEdges.nil) := by
          refine ⟨?_, trivial, trivial⟩
          intro l hl
          obtain rfl := Option.some_inj.1 hl
          rfl
        have hsI := insE_sorted hs hg
          (GoNode.mk (some ⟨p ++ n.pfx ++ label :: srest, v⟩)
            (label :: srest) GoEdges.nil)
        have hweI := insE_WFe (x := label) hwe hwnew
          (List.cons_ne_nil label srest) rfl
        have hins := addEdge_eq_insE hs label
          (GoNode.mk (some ⟨p ++ n.pfx ++ label :: srest, v⟩)
            (label :: srest) GoEdges.nil)
        have hs' : edgesSorted (addEdge n.edges label
            (GoNode.mk (some ⟨p ++ n.pfx ++ label :: srest, v⟩)
              (label :: srest) GoEdges.nil)) := by
          rw [hins]; exact hsI
        have hwe' : WFe (p ++ n.pfx) (addEdge n.edges label
            (GoNode.mk (some ⟨p ++ n.pfx ++ label :: srest, v⟩)
              (label :: srest) GoEdges.nil)) := by
          rw [hins]; exact hweI
        refine ⟨⟨hleaf, hs', hwe'⟩, rfl, ?_, ?_⟩
        · rw [lookupC_node_none hw hg]
        · refine frame_of_edges hw ⟨hleaf, hs', hwe'⟩ rfl rfl
            ⟨label, srest, rfl⟩ ?_
          intro y rest2
          rw [GoNode.edges_mk, hins]
          by_cases hy : y = label
          · subst hy
            rw [lookupE_decomp_some hsI hweI
              (findEdgeL_insE_self n.edges y _) rest2]
            rw [lookupE_decomp_none hs hwe hg rest2]
            rw [content_mk]
            simp only [List.singleton_append, lookupC, GoEdges.contentE]
            by_cases hkt : (p ++ n.pfx) ++ y :: rest2 =
                p ++ n.pfx ++ y :: srest
            · rw [if_pos hkt, if_pos hkt.symm]
            · rw [if_neg hkt, if_neg (fun hh => hkt hh.symm)]
          · have hfo := findEdgeL_insE_other n.edges label
              (GoNode.mk (some ⟨p ++ n.pfx ++ label :: srest, v⟩)
                (label :: srest) GoEdges.nil) hy
            rw [if_neg (fun hh => hy (append_cons_inj hh).1)]
            cases hf2 : findEdgeL n.edges y with
            | none =>
              rw [lookupE_decomp_none hsI hweI (hfo.trans hf2) rest2,
                lookupE_decomp_none hs hwe hf2 rest2]
            | some c2 =>
              rw [lookupE_decomp_some hsI hweI (hfo.trans hf2) rest2,
                lookupE_decomp_some hs hwe hf2 rest2]
      · next c hg =>
        rw [getEdge_eq_findEdgeL hs] at hg
        obtain ⟨hwc, hcne, hchd⟩ := WFe_findEdgeL n.edges (p ++ n.pfx) hwe hg
        have hcd : c.depth ≤ fuel := by
          have := getEdge_depth ((getEdge_eq_findEdgeL hs label).trans hg)
          rw [depth_eq] at hd
          omega
        simp only [lcpFn, if_neg Bool.false_ne_true] at h
        split at h
        · next hcp =>
          split at h
          · next hle =>
            split at h
            · exact GoResult.noConfusion h
            · next old1 c' hrec =>
              have htk := longestPrefixB_take (label :: srest) c.pfx
              rw [hcp, List.take_length] at htk
              have hsplit : c.pfx ++
                  ((label :: srest).drop (longestPrefixB (label :: srest) c.pfx))
                    = label :: srest := by
                rw [hcp]
                nth_rewrite 2 [← take_append_drop_self (label :: srest) c.pfx.length]
                rw [htk]
              have hseq : p ++ n.pfx ++ label :: srest =
                  (p ++ n.pfx) ++ c.pfx ++
                    ((label :: srest).drop
                      (longestPrefixB (label :: srest) c.pfx)) := by
                rw [List.append_assoc (p ++ n.pfx), hsplit]
              rw [hseq] at hrec
              obtain ⟨hwc', hpfx', hold', hframe'⟩ :=
                ih c (p ++ n.pfx) _ v old1 c' hcd hwc hrec
              simp only [GoResult.ok.injEq, Prod.mk.injEq] at h
              obtain ⟨ho, hn⟩ := h
              subst ho
              subst hn
              rw [replaceEdgeNode_eq hs hg]
              have hs2 : edgesSorted (replE n.edges label c') :=
                replE_sorted hs label c'
              have hwe2 : WFe (p ++ n.pfx) (replE n.edges label c') :=
                replE_WFe (x := label) hwe hwc'
                  (by rw [hpfx']; exact hcne) (by rw [hpfx']; exact hchd)
              refine ⟨⟨hleaf, hs2, hwe2⟩, rfl, ?_, ?_⟩
              · rw [lookupC_node_some hw hg srest, hold', hseq]
              · refine frame_of_edges hw ⟨hleaf, hs2, hwe2⟩ rfl rfl
                  ⟨label, srest, rfl⟩ ?_
                intro y rest2
                rw [GoNode.edges_mk]
                by_cases hy : y = label
                · subst hy
                  rw [lookupE_decomp_some hs2 hwe2
                    (findEdgeL_replE_self hg c') rest2]
                  rw [lookupE_decomp_some hs hwe hg rest2]
                  rw [hframe' ((p ++ n.pfx) ++ y :: rest2), ← hseq]
                · have hfo := findEdgeL_replE_other n.edges label c' hy
                  rw [if_neg (fun hh => hy (append_cons_inj hh).1)]
                  cases hf2 : findEdgeL n.edges y with
                  | none =>
                    rw [lookupE_decomp_none hs2 hwe2 (hfo.trans hf2) rest2,
                      lookupE_decomp_none hs hwe hf2 rest2]
                  | some c2 =>
                    rw [lookupE_decomp_some hs2 hwe2 (hfo.trans hf2) rest2,
                      lookupE_decomp_some hs hwe hf2 rest2]
          · exact GoResult.noConfusion h
        · next hcp =>
          split at h
          · next hle =>
            split at h
            · next hlt =>
              split at h
              · next es1 heq =>
                obtain ⟨ptail, hpt⟩ := pfx_head_cons hcne hchd
                have hcp1 : 1 ≤ longestPrefixB (label :: srest) c.pfx := by
                  rw [hpt]
                  simp [longestPrefixB]
                have htk := longestPrefixB_take (label :: srest) c.pfx
                have htkc : (label :: srest).take
                    (longestPrefixB (label :: srest) c.pfx) =
                    label :: srest.take
                      (longestPrefixB (label :: srest) c.pfx - 1) := by
                  obtain ⟨m, hm⟩ : ∃ m,
                      longestPrefixB (label :: srest) c.pfx = m + 1 :=
                    ⟨longestPrefixB (label :: srest) c.pfx - 1, by omega⟩
                  rw [hm, List.take_succ_cons]
                  simp
                have hcmodne : c.pfx.drop
                    (longestPrefixB (label :: srest) c.pfx) ≠ [] :=
                  drop_ne_nil hlt
                have hcmodhd : (c.pfx.drop
                    (longestPrefixB (label :: srest) c.pfx)).headD 0 =
                    c.pfx.getD (longestPrefixB (label :: srest) c.pfx) 0 :=
                  headD_drop _ _ _
                obtain ⟨hcleaf, hcs, hcwe⟩ :=
                  (WFb_def (p ++ n.pfx) c).1 hwc
                have hqq : p ++ n.pfx ++
                    (label :: srest).take
                      (longestPrefixB (label :: srest) c.pfx) ++
                    c.pfx.drop (longestPrefixB (label :: srest) c.pfx) =
                    p ++ n.pfx ++ c.pfx := by
                  rw [htk, List.append_assoc (p ++ n.pfx),
                    take_append_drop_self]
                have hwcMod : WFb
                    (p ++ n.pfx ++ (label :: srest).take
                      (longestPrefixB (label :: srest) c.pfx))
                    (GoNode.mk c.leaf
                      (c.pfx.drop (longestPrefixB (label :: srest) c.pfx))
                      c.edges) := by
                  refine ⟨?_, hcs, ?_⟩
                  · intro l hl
                    rw [hcleaf l hl, ← hqq]
                  · show WFe (p ++ n.pfx ++ _ ++ _) c.edges
                    rw [hqq]
                    exact hcwe
                have hlookc_gen : ∀ ext : List Nat,
                    c.pfx ++ ext ≠ label :: srest := by
                  intro ext hcontra
                  by_cases hre0 : (label :: srest).drop
                      (longestPrefixB (label :: srest) c.pfx) = []
                  · have h1 := congrArg List.length hcontra
                    have h2 := congrArg List.length hre0
                    simp only [List.length_append, List.length_drop,
                      List.length_nil] at h1 h2
                    omega
                  · have hlen2 : longestPrefixB (label :: srest) c.pfx <
                        (label :: srest).length := by
                      by_contra hcon
                      exact hre0 (by
                        rw [List.drop_eq_nil_iff]
                        omega)
                    have hmis := longestPrefixB_mismatch (label :: srest)
                      c.pfx hlen2 hlt
                    have h1 := congrArg
                      (fun l => l.getD
                        (longestPrefixB (label :: srest) c.pfx) 0) hcontra
                    simp only at h1
                    rw [List.getD_append _ _ _ _ hlt] at h1
                    exact hmis h1.symm
                have hlookc : lookupC (p ++ n.pfx ++ label :: srest)
                    c.content = none := by
                  refine lookupC_eq_none fun kv hm => ?_
                  obtain ⟨ext, hke⟩ := keyShapeB c (p ++ n.pfx) hwc kv hm
                  rw [hke]
                  intro hcontra
                  rw [List.append_assoc] at hcontra
                  exact hlookc_gen ext (List.append_cancel_left hcontra)
                have hch0 : addEdge GoEdges.nil
                    (c.pfx.getD (longestPrefixB (label :: srest) c.pfx) 0)
                    (GoNode.mk c.leaf
                      (c.pfx.drop (longestPrefixB (label :: srest) c.pfx))
                      c.edges) =
                    GoEdges.cons
                      (c.pfx.getD (longestPrefixB (label :: srest) c.pfx) 0)
                      (GoNode.mk c.leaf
                        (c.pfx.drop (longestPrefixB (label :: srest) c.pfx))
                        c.edges) GoEdges.nil := addEdge_nil _ _
                have hCHne : ((label :: srest).take
                    (longestPrefixB (label :: srest) c.pfx)) ≠ [] := by
                  rw [htkc]
                  exact List.cons_ne_nil label _
                have hCHhd : ((label :: srest).take
                    (longestPrefixB (label :: srest) c.pfx)).headD 0 =
                    label := by
                  rw [htkc]
                  rfl
                by_cases hre : ((label :: srest).drop
                    (longestPrefixB (label :: srest) c.pfx)).isEmpty = true
                · rw [if_pos hre] at heq
                  rw [updateEdge_present hs hg _] at heq
                  obtain rfl := Option.some_inj.1 heq
                  simp only [GoResult.ok.injEq, Prod.mk.injEq] at h
                  obtain ⟨ho, hn⟩ := h
                  subst ho
                  subst hn
                  have hresnil : (label :: srest).drop
                      (longestPrefixB (label :: srest) c.pfx) = [] :=
                    List.isEmpty_iff.1 hre
                  have hstk : label :: srest = (label :: srest).take
                      (longestPrefixB (label :: srest) c.pfx) := by
                    conv_lhs => rw [← take_append_drop_self (label :: srest)
                      (longestPrefixB (label :: srest) c.pfx)]
                    rw [hresnil, List.append_nil]
                  have hwCH : WFb (p ++ n.pfx)
                      (GoNode.mk (some ⟨p ++ n.pfx ++ label :: srest, v⟩)
                        ((label :: srest).take
                          (longestPrefixB (label :: srest) c.pfx))
                        (addEdge GoEdges.nil
                          (c.pfx.getD
                            (longestPrefixB (label :: srest) c.pfx) 0)
                          (GoNode.mk c.leaf
                            (c.pfx.drop
                              (longestPrefixB (label :: srest) c.pfx))
                            c.edges))) := by
                    rw [hch0]
                    refine ⟨?_, ⟨trivial, trivial⟩, ?_⟩
                    · intro l hl
                      obtain rfl := Option.some_inj.1 hl
                      show p ++ n.pfx ++ label :: srest = _
                      conv_lhs => rw [hstk]
                    · exact ⟨hcmodne, hcmodhd, hwcMod, trivial⟩
                  have hs2 := replE_sorted hs label
                    (GoNode.mk (some ⟨p ++ n.pfx ++ label :: srest, v⟩)
                      ((label :: srest).take
                        (longestPrefixB (label :: srest) c.pfx))
                      (addEdge GoEdges.nil
                        (c.pfx.getD
                          (longestPrefixB (label :: srest) c.pfx) 0)
                        (GoNode.mk c.leaf
                          (c.pfx.drop
                            (longestPrefixB (label :: srest) c.pfx))
                          c.edges)))
                  have hwe2 := replE_WFe (x := label) hwe hwCH hCHne hCHhd
                  refine ⟨⟨hleaf, hs2, hwe2⟩, rfl, ?_, ?_⟩
                  · rw [lookupC_node_some hw hg srest]
                    exact hlookc.symm
                  · refine frame_of_edges hw ⟨hleaf, hs2, hwe2⟩ rfl rfl
                      ⟨label, srest, rfl⟩ ?_
                    intro y rest2
                    rw [GoNode.edges_mk]
                    by_cases hy : y = label
                    · subst hy
                      rw [lookupE_decomp_some hs2 hwe2
                        (findEdgeL_replE_self hg _) rest2]
                      rw [lookupE_decomp_some hs hwe hg rest2]
                      have hcontent :
                          (GoNode.mk (some ⟨p ++ n.pfx ++ y :: srest, v⟩)
                            ((y :: srest).take
                              (longestPrefixB (y :: srest) c.pfx))
                            (addEdge GoEdges.nil
                              (c.pfx.getD
                                (longestPrefixB (y :: srest) c.pfx) 0)
                              (GoNode.mk c.leaf
                                (c.pfx.drop
                                  (longestPrefixB (y :: srest) c.pfx))
                                c.edges))).content =
                          (p ++ n.pfx ++ y :: srest, v) ::
                            (c.content ++ []) := by
                        rw [content_mk, hch0]
                        show (p ++ n.pfx ++ y :: srest, v) ::
                          ((GoNode.mk c.leaf
                            (c.pfx.drop
                              (longestPrefixB (y :: srest) c.pfx))
                            c.edges).content ++ GoEdges.nil.contentE) = _
                        rw [content_pfx_irrel c]
                        rfl
                      rw [hcontent, List.append_nil]
                      by_cases hkt : (p ++ n.pfx) ++ y :: rest2 =
                          p ++ n.pfx ++ y :: srest
                      · rw [if_pos hkt]
                        simp only [lookupC]
                        rw [if_pos hkt.symm]
                      · rw [if_neg hkt]
                        simp only [lookupC]
                        rw [if_neg (fun hh => hkt hh.symm)]
                    · rw [if_neg (fun hh => hy (append_cons_inj hh).1)]
                      cases hf2 : findEdgeL n.edges y with
                      | none =>
                        rw [lookupE_decomp_none hs2 hwe2
                          ((findEdgeL_replE_other n.edges label _ hy).trans
                            hf2) rest2,
                          lookupE_decomp_none hs hwe hf2 rest2]
                      | some c2 =>
                        rw [lookupE_decomp_some hs2 hwe2
                          ((findEdgeL_replE_other n.edges label _ hy).trans
                            hf2) rest2,
                          lookupE_decomp_some hs hwe hf2 rest2]
                · rw [if_neg hre] at heq
                  rw [updateEdge_present hs hg _] at heq
                  obtain rfl := Option.some_inj.1 heq
                  simp only [GoResult.ok.injEq, Prod.mk.injEq] at h
                  obtain ⟨ho, hn⟩ := h
                  subst ho
                  subst hn
                  have hrne : (label :: srest).drop
                      (longestPrefixB (label :: srest) c.pfx) ≠ [] := by
                    intro hc
                    rw [hc] at hre
                    exact hre rfl
                  have hlen2 : longestPrefixB (label :: srest) c.pfx <
                      (label :: srest).length := by
                    by_contra hcon
                    exact hrne (by rw [List.drop_eq_nil_iff]; omega)
                  have hmis := longestPrefixB_mismatch (label :: srest)
                    c.pfx hlen2 hlt
                  have hy0 : ((label :: srest).drop
                      (longestPrefixB (label :: srest) c.pfx)).headD 0 ≠
                      c.pfx.getD (longestPrefixB (label :: srest) c.pfx) 0 := by
                    rw [headD_drop]
                    exact hmis
                  have hstk2 : (p ++ n.pfx ++ (label :: srest).take
                        (longestPrefixB (label :: srest) c.pfx)) ++
                      (label :: srest).drop
                        (longestPrefixB (label :: srest) c.pfx) =
                      p ++ n.pfx ++ label :: srest := by
                    rw [List.append_assoc (p ++ n.pfx),
                      take_append_drop_self]
                  have hwNL : WFb (p ++ n.pfx ++ (label :: srest).take
                      (longestPrefixB (label :: srest) c.pfx))
                      (GoNode.mk (some ⟨p ++ n.pfx ++ label :: srest, v⟩)
                        ((label :: srest).drop
                          (longestPrefixB (label :: srest) c.pfx))
                        GoEdges.nil) := by
                    refine ⟨?_, trivial, trivial⟩
                    intro l hl
                    obtain rfl := Option.some_inj.1 hl
                    show p ++ n.pfx ++ label :: srest = _
                    rw [hstk2]
                  have hins2 := addEdge_single
                    (c.pfx.getD (longestPrefixB (label :: srest) c.pfx) 0)
                    (GoNode.mk c.leaf
                      (c.pfx.drop (longestPrefixB (label :: srest) c.pfx))
                      c.edges)
                    (((label :: srest).drop
                      (longestPrefixB (label :: srest) c.pfx)).headD 0)
                    (GoNode.mk (some ⟨p ++ n.pfx ++ label :: srest, v⟩)
                      ((label :: srest).drop
                        (longestPrefixB (label :: srest) c.pfx))
                      GoEdges.nil)
                  have hfnil : findEdgeL
                      (GoEdges.cons
                        (c.pfx.getD (longestPrefixB (label :: srest) c.pfx) 0)
                        (GoNode.mk c.leaf
                          (c.pfx.drop
                            (longestPrefixB (label :: srest) c.pfx))
                          c.edges) GoEdges.nil)
                      (((label :: srest).drop
                        (longestPrefixB (label :: srest) c.pfx)).headD 0)
                      = none := by
                    show (if _ = _ then _ else _) = _
                    rw [if_neg hy0]
                    rfl
                  have hwCH : WFb (p ++ n.pfx)
                      (GoNode.mk none
                        ((label :: srest).take
                          (longestPrefixB (label :: srest) c.pfx))
                        (addEdge
                          (addEdge GoEdges.nil
                            (c.pfx.getD
                              (longestPrefixB (label :: srest) c.pfx) 0)
                            (GoNode.mk c.leaf
                              (c.pfx.drop
                                (longestPrefixB (label :: srest) c.pfx))
                              c.edges))
                          (((label :: srest).drop
                            (longestPrefixB (label :: srest) c.pfx)).headD 0)
                          (GoNode.mk
                            (some ⟨p ++ n.pfx ++ label :: srest, v⟩)
                            ((label :: srest).drop
                              (longestPrefixB (label :: srest) c.pfx))
                            GoEdges.nil))) := by
                    rw [hch0, hins2]
                    have hsC : edgesSorted (GoEdges.cons
                        (c.pfx.getD (longestPrefixB (label :: srest) c.pfx) 0)
                        (GoNode.mk c.leaf
                          (c.pfx.drop
                            (longestPrefixB (label :: srest) c.pfx))
                          c.edges) (GoEdges.nil : GoEdges V)) :=
                      ⟨trivial, trivial⟩
                    have hweC : WFe
                        (p ++ n.pfx ++ (label :: srest).take
                          (longestPrefixB (label :: srest) c.pfx))
                        (GoEdges.cons
                          (c.pfx.getD
                            (longestPrefixB (label :: srest) c.pfx) 0)
                          (GoNode.mk c.leaf
                            (c.pfx.drop
                              (longestPrefixB (label :: srest) c.pfx))
                            c.edges) (GoEdges.nil : GoEdges V)) :=
                      ⟨hcmodne, hcmodhd, hwcMod, trivial⟩
                    refine ⟨fun l hl => Option.noConfusion hl, ?_, ?_⟩
                    · exact insE_sorted hsC hfnil _
                    · exact insE_WFe
                        (x := ((label :: srest).drop
                          (longestPrefixB (label :: srest) c.pfx)).headD 0)
                        hweC hwNL hrne rfl
                  have hs2 := replE_sorted hs label
                    (GoNode.mk none
                      ((label :: srest).take
                        (longestPrefixB (label :: srest) c.pfx))
                      (addEdge
                        (addEdge GoEdges.nil
                          (c.pfx.getD
                            (longestPrefixB (label :: srest) c.pfx) 0)
                          (GoNode.mk c.leaf
                            (c.pfx.drop
                              (longestPrefixB (label :: srest) c.pfx))
                            c.edges))
                        (((label :: srest).drop
                          (longestPrefixB (label :: srest) c.pfx)).headD 0)
                        (GoNode.mk
                          (some ⟨p ++ n.pfx ++ label :: srest, v⟩)
                          ((label :: srest).drop
                            (longestPrefixB (label :: srest) c.pfx))
                          GoEdges.nil)))
                  have hwe2 := replE_WFe (x := label) hwe hwCH hCHne hCHhd
                  refine ⟨⟨hleaf, hs2, hwe2⟩, rfl, ?_, ?_⟩
                  · rw [lookupC_node_some hw hg srest]
                    exact hlookc.symm
                  · refine frame_of_edges hw ⟨hleaf, hs2, hwe2⟩ rfl rfl
                      ⟨label, srest, rfl⟩ ?_
                    intro y rest2
                    rw [GoNode.edges_mk]
                    by_cases hy : y = label
                    · subst hy
                      rw [lookupE_decomp_some hs2 hwe2
                        (findEdgeL_replE_self hg _) rest2]
                      rw [lookupE_decomp_some hs hwe hg rest2]
                      by_cases hord : (((y :: srest).drop
                          (longestPrefixB (y :: srest) c.pfx)).headD 0) ≤
                          c.pfx.getD (longestPrefixB (y :: srest) c.pfx) 0
                      · have hcons2 : insE
                            (GoEdges.cons
                              (c.pfx.getD
                                (longestPrefixB (y :: srest) c.pfx) 0)
                              (GoNode.mk c.leaf
                                (c.pfx.drop
                                  (longestPrefixB (y :: srest) c.pfx))
                                c.edges) GoEdges.nil)
                            (((y :: srest).drop
                              (longestPrefixB (y :: srest) c.pfx)).headD 0)
                            (GoNode.mk (some ⟨p ++ n.pfx ++ y :: srest, v⟩)
                              ((y :: srest).drop
                                (longestPrefixB (y :: srest) c.pfx))
                              GoEdges.nil) =
                            GoEdges.cons
                              (((y :: srest).drop
                                (longestPrefixB (y :: srest) c.pfx)).headD 0)
                              (GoNode.mk
                                (some ⟨p ++ n.pfx ++ y :: srest, v⟩)
                                ((y :: srest).drop
                                  (longestPrefixB (y :: srest) c.pfx))
                                GoEdges.nil)
                              (GoEdges.cons
                                (c.pfx.getD
                                  (longestPrefixB (y :: srest) c.pfx) 0)
                                (GoNode.mk c.leaf
                                  (c.pfx.drop
                                    (longestPrefixB (y :: srest) c.pfx))
                                  c.edges) GoEdges.nil) := by
                          simp only [insE, if_pos hord]
                        have hcontent :
                            (GoNode.mk none
                              ((y :: srest).take
                                (longestPrefixB (y :: srest) c.pfx))
                              (addEdge
                                (addEdge GoEdges.nil
                                  (c.pfx.getD
                                    (longestPrefixB (y :: srest) c.pfx) 0)
                                  (GoNode.mk c.leaf
                                    (c.pfx.drop
                                      (longestPrefixB (y :: srest) c.pfx))
                                    c.edges))
                                (((y :: srest).drop
                                  (longestPrefixB (y :: srest) c.pfx)).headD 0)
                                (GoNode.mk
                                  (some ⟨p ++ n.pfx ++ y :: srest, v⟩)
                                  ((y :: srest).drop
                                    (longestPrefixB (y :: srest) c.pfx))
                                  GoEdges.nil))).content =
                            (p ++ n.pfx ++ y :: srest, v) ::
                              (c.content ++ []) := by
                          rw [content_mk, hch0, hins2, hcons2]
                          show (p ++ n.pfx ++ y :: srest, v) ::
                            (([] : List (List Nat × V)) ++
                              ((GoNode.mk c.leaf
                                (c.pfx.drop
                                  (longestPrefixB (y :: srest) c.pfx))
                                c.edges).content ++ GoEdges.nil.contentE)) = _
                          rw [content_pfx_irrel c]
                          rfl
                        rw [hcontent, List.append_nil]
                        by_cases hkt : (p ++ n.pfx) ++ y :: rest2 =
                            p ++ n.pfx ++ y :: srest
                        · rw [if_pos hkt]
                          simp only [lookupC]
                          rw [if_pos hkt.symm]
                        · rw [if_neg hkt]
                          simp only [lookupC]
                          rw [if_neg (fun hh => hkt hh.symm)]
                      · have hcons2 : insE
                            (GoEdges.cons
                              (c.pfx.getD
                                (longestPrefixB (y :: srest) c.pfx) 0)
                              (GoNode.mk c.leaf
                                (c.pfx.drop
                                  (longestPrefixB (y :: srest) c.pfx))
                                c.edges) GoEdges.nil)
                            (((y :: srest).drop
                              (longestPrefixB (y :: srest) c.pfx)).headD 0)
                            (GoNode.mk (some ⟨p ++ n.pfx ++ y :: srest, v⟩)
                              ((y :: srest).drop
                                (longestPrefixB (y :: srest) c.pfx))
                              GoEdges.nil) =
                            GoEdges.cons
                              (c.pfx.getD
                                (longestPrefixB (y :: srest) c.pfx) 0)
                              (GoNode.mk c.leaf
                                (c.pfx.drop
                                  (longestPrefixB (y :: srest) c.pfx))
                                c.edges)
                              (GoEdges.cons
                                (((y :: srest).drop
                                  (longestPrefixB (y :: srest) c.pfx)).headD 0)
                                (GoNode.mk
                                  (some ⟨p ++ n.pfx ++ y :: srest, v⟩)
                                  ((y :: srest).drop
                                    (longestPrefixB (y :: srest) c.pfx))
                                  GoEdges.nil) GoEdges.nil) := by
                          simp only [insE, if_neg hord]
                        have hcontent :
                            (GoNode.mk none
                              ((y :: srest).take
                                (longestPrefixB (y :: srest) c.pfx))
                              (addEdge
                                (addEdge GoEdges.nil
                                  (c.pfx.getD
                                    (longestPrefixB (y :: srest) c.pfx) 0)
                                  (GoNode.mk c.leaf
                                    (c.pfx.drop
                                      (longestPrefixB (y :: srest) c.pfx))
                                    c.edges))
                                (((y :: srest).drop
                                  (longestPrefixB (y :: srest) c.pfx)).headD 0)
                                (GoNode.mk
                                  (some ⟨p ++ n.pfx ++ y :: srest, v⟩)
                                  ((y :: srest).drop
                                    (longestPrefixB (y :: srest) c.pfx))
                                  GoEdges.nil))).content =
                            c.content ++ [(p ++ n.pfx ++ y :: srest, v)] := by
                          rw [content_mk, hch0, hins2, hcons2]
                          show (([] : List (List Nat × V)) ++
                            ((GoNode.mk c.leaf
                              (c.pfx.drop
                                (longestPrefixB (y :: srest) c.pfx))
                              c.edges).content ++
                              ((p ++ n.pfx ++ y :: srest, v) ::
                                GoEdges.nil.contentE))) = _
                          rw [content_pfx_irrel c]
                          rfl
                        rw [hcontent]
                        by_cases hkt : (p ++ n.pfx) ++ y :: rest2 =
                            p ++ n.pfx ++ y :: srest
                        · rw [if_pos hkt, hkt]
                          rw [lookupC_append_right _ hlookc]
                          simp [lookupC]
                        · rw [if_neg hkt]
                          cases hcc : lookupC ((p ++ n.pfx) ++ y :: rest2)
                              c.content with
                          | some w =>
                            exact lookupC_append_left _ hcc
                          | none =>
                            rw [lookupC_append_right _ hcc]
                            refine lookupC_eq_none fun kv hm => ?_
                            simp only [List.mem_singleton] at hm
                            subst hm
                            exact fun hh => hkt hh.symm
                    · rw [if_neg (fun hh => hy (append_cons_inj hh).1)]
                      cases hf2 : findEdgeL n.edges y with
                      | none =>
                        rw [lookupE_decomp_none hs2 hwe2
                          ((findEdgeL_replE_other n.edges label _ hy).trans
                            hf2) rest2,
                          lookupE_decomp_none hs hwe hf2 rest2]
                      | some c2 =>
                        rw [lookupE_decomp_some hs2 hwe2
                          ((findEdgeL_replE_other n.edges label _ hy).trans
                            hf2) rest2,
                          lookupE_decomp_some hs hwe hf2 rest2]
              · exact GoResult.noConfusion h
            · exact GoResult.noConfusion h
          · exact GoResult.noConfusion h

theorem headD_append {p : List Nat} (e : List Nat) (hp : p ≠ []) (d : Nat) :
    (p ++ e).headD d = p.headD d := by
  cases p with
  | nil => exact absurd rfl hp
  | cons a t => rfl

theorem append_ne_nil {p : List Nat} (e : List Nat) (hp : p ≠ []) :
    p ++ e ≠ [] := by
  cases p with
  | nil => exact absurd rfl hp
  | cons a t => exact List.cons_ne_nil a (t ++ e)

/-- The node `mergeChild` builds from a leafless single-edge node is
well-formed at the same path. -/
theorem WFb_merge {V : Type} {p pfx0 : List Nat} {l0 : Nat} {c0 : GoNode V}
    (hwe : WFe (p ++ pfx0) (GoEdges.cons l0 c0 GoEdges.nil)) :
    WFb p (GoNode.mk c0.leaf (pfx0 ++ c0.pfx) c0.edges) := by
  obtain ⟨hne, hhd, hwc, _⟩ := hwe
  obtain ⟨hcleaf, hcs, hcwe⟩ := (WFb_def _ c0).1 hwc
  refine ⟨?_, hcs, ?_⟩
  · intro l hl
    rw [hcleaf l hl, ← List.append_assoc]
  · show WFe (p ++ (pfx0 ++ c0.pfx)) c0.edges
    rw [← List.append_assoc]
    exact hcwe

/-- Looking a key up in a leafless single-edge node is looking it up in the
child. -/
theorem lookupC_single_edge {V : Type} (k pfx0 : List Nat) (l0 : Nat)
    (c0 : GoNode V) :
    lookupC k (GoNode.mk (none : Option (GoLeaf V)) pfx0
      (GoEdges.cons l0 c0 GoEdges.nil)).content = lookupC k c0.content := by
  show lookupC k ([] ++ (c0.content ++ GoEdges.nil.contentE)) = _
  rw [List.nil_append]
  cases hcc : lookupC k c0.content with
  | some w => exact lookupC_append_left _ hcc
  | none =>
    rw [lookupC_append_right _ hcc]
    rfl

/-- `Tree.Delete` in byte mode on a well-formed node: a `none` result means
the key is absent from the walk; a found result returns the stored value,
keeps the node well-formed (the prefix can only grow, and only below the
root), and erases exactly the deleted key from the lookup view. -/
theorem deleteRec_frame {V : Type} (tl : Nat → Nat) :
    ∀ (fuel : Nat) (isRoot : Bool) (n : GoNode V) (p s : List Nat)
      (res : Option (V × GoNode V × Option Bool)),
      n.depth ≤ fuel → WFb p n →
      deleteRec false tl fuel isRoot n s = .ok res →
      (res = none → lookupC (p ++ n.pfx ++ s) n.content = none) ∧
      (∀ v1 n' info, res = some (v1, n', info) →
        WFb p n' ∧ (∃ ext, n'.pfx = n.pfx ++ ext) ∧
        (isRoot = true → n'.pfx = n.pfx) ∧
        lookupC (p ++ n.pfx ++ s) n.content = some v1 ∧
        ∀ k, lookupC k n'.content =
          (if k = p ++ n.pfx ++ s then none else lookupC k n.content)) := by
  intro fuel
  induction fuel with
  | zero =>
    intro isRoot n p s res hd hw h
    exact GoResult.noConfusion h
  | succ fuel ih =>
    intro isRoot n p s res hd hw h
    obtain ⟨hleaf, hs, hwe⟩ := (WFb_def p n).1 hw
    match s with
    | [] =>
      simp only [deleteRec] at h
      split at h
      · next hlf =>
        obtain rfl := (GoResult.ok.inj h)
        refine ⟨fun _ => ?_, fun v1 n' info heq => Option.noConfusion heq⟩
        rw [List.append_nil, lookupC_node_nil hw, hlf]
      · next lf hlf =>
        have hlook : lookupC (p ++ n.pfx ++ []) n.content = some lf.val := by
          rw [List.append_nil, lookupC_node_nil hw, hlf]
        split at h
        · next hguard =>
          simp only [Bool.and_eq_true, beq_iff_eq, GoNode.edges_mk,
            GoNode.leaf_mk, Bool.not_eq_eq_eq_not, Bool.not_true] at hguard
          obtain ⟨hroot, hlen1⟩ := hguard
          obtain ⟨l0, c0, hes⟩ := edges_length_one hlen1
          split at h
          · next n2 heq =>
            rw [hes, mergeChildGo_of_cons] at heq
            obtain rfl := Option.some_inj.1 heq
            obtain rfl := (GoResult.ok.inj h)
            refine ⟨fun hc => Option.noConfusion hc, ?_⟩
            intro v1 n' info heq2
            simp only [Option.some_inj, Prod.mk.injEq] at heq2
            obtain ⟨rfl, rfl, rfl⟩ := heq2
            rw [hes] at hwe
            refine ⟨WFb_merge hwe, ⟨c0.pfx, rfl⟩, ?_, hlook, ?_⟩
            · intro hroot2
              rw [hroot2] at hroot
              exact absurd hroot (by simp)
            · intro k
              show lookupC k (GoNode.mk c0.leaf (n.pfx ++ c0.pfx)
                c0.edges).content = _
              rw [content_pfx_irrel c0]
              rw [List.append_nil]
              by_cases hk : k = p ++ n.pfx
              · rw [if_pos hk]
                subst hk
                obtain ⟨hne0, hhd0, hwc0, _⟩ := hwe
                refine lookupC_content_none hwc0 fun ext => ?_
                intro hcontra
                have := congrArg List.length hcontra
                simp only [List.length_append] at this
                have hl0 := List.length_pos_of_ne_nil hne0
                omega
              · rw [if_neg hk]
                rw [content_eq_leaf_edges n, hlf, hes]
                have hkey := hleaf lf hlf
                simp only [List.singleton_append, lookupC]
                rw [if_neg (by rw [hkey]; exact fun hh => hk hh.symm)]
                show lookupC k c0.content =
                  lookupC k (c0.content ++ GoEdges.nil.contentE)
                cases hcc : lookupC k c0.content with
                | some w => rw [lookupC_append_left _ hcc]
                | none =>
                  rw [lookupC_append_right _ hcc]
                  rfl
          · exact GoResult.noConfusion h
        · next hguard =>
          obtain rfl := (GoResult.ok.inj h)
          refine ⟨fun hc => Option.noConfusion hc, ?_⟩
          intro v1 n' info heq2
          simp only [Option.some_inj, Prod.mk.injEq] at heq2
          obtain ⟨rfl, rfl, rfl⟩ := heq2
          refine ⟨⟨fun l hl => Option.noConfusion hl, hs, hwe⟩,
            ⟨[], (List.append_nil n.pfx).symm⟩, fun _ => rfl, hlook, ?_⟩
          intro k
          rw [List.append_nil]
          show lookupC k ([] ++ n.edges.contentE) = _
          rw [List.nil_append]
          by_cases hk : k = p ++ n.pfx
          · rw [if_pos hk]
            subst hk
            exact lookupE_none_shorter hwe
          · rw [if_neg hk]
            rw [content_eq_leaf_edges n, hlf]
            have hkey := hleaf lf hlf
            simp only [List.singleton_append, lookupC]
            rw [if_neg (by rw [hkey]; exact fun hh => hk hh.symm)]
            rfl
    | label :: srest =>
      simp only [deleteRec] at h
      split at h
      · next hg =>
        rw [getEdge_eq_findEdgeL hs] at hg
        obtain rfl := (GoResult.ok.inj h)
        refine ⟨fun _ => ?_, fun v1 n' info heq => Option.noConfusion heq⟩
        rw [lookupC_node_none hw hg srest]
      · next c hg =>
        rw [getEdge_eq_findEdgeL hs] at hg
        obtain ⟨hwc, hcne, hchd⟩ := WFe_findEdgeL n.edges (p ++ n.pfx) hwe hg
        have hcd : c.depth ≤ fuel := by
          have := getEdge_depth ((getEdge_eq_findEdgeL hs label).trans hg)
          rw [depth_eq] at hd
          omega
        split at h
        · next hp =>
          simp only [hpFn, if_neg Bool.false_ne_true, goHasPrefix] at hp
          have hpre2 : c.pfx <+: (label :: srest) :=
            List.isPrefixOf_iff_prefix.1 hp
          obtain ⟨tail, htail⟩ := hpre2
          have hdrop : (label :: srest).drop c.pfx.length = tail := by
            rw [← htail, List.drop_left]
          have hseq : p ++ n.pfx ++ label :: srest =
              (p ++ n.pfx) ++ c.pfx ++ tail := by
            rw [List.append_assoc (p ++ n.pfx), htail]
          split at h
          · exact GoResult.noConfusion h
          · next heqrec =>
            rw [hdrop] at heqrec
            obtain ⟨ihnone, _⟩ :=
              ih false c (p ++ n.pfx) tail none hcd hwc heqrec
            obtain rfl := (GoResult.ok.inj h)
            refine ⟨fun _ => ?_, fun v1 n' info heq => Option.noConfusion heq⟩
            rw [lookupC_node_some hw hg srest, hseq]
            exact ihnone rfl
          · next v1 c' rm heqrec =>
            rw [hdrop] at heqrec
            obtain ⟨_, ihsome⟩ :=
              ih false c (p ++ n.pfx) tail _ hcd hwc heqrec
            obtain ⟨hwc', ⟨ext', hext'⟩, _, ihold, ihframe⟩ :=
              ihsome v1 c' (some rm) rfl
            have hc'ne : c'.pfx ≠ [] := by
              rw [hext']
              exact append_ne_nil ext' hcne
            have hc'hd : c'.pfx.headD 0 = label := by
              rw [hext', headD_append ext' hcne]
              exact hchd
            have hlookv : lookupC (p ++ n.pfx ++ label :: srest) n.content =
                some v1 := by
              rw [lookupC_node_some hw hg srest, hseq]
              exact ihold
            have hrmnil : rm = true → c'.content = [] := by
              intro hrm
              subst hrm
              exact (deleteRec_numLeaves false tl fuel false c tail v1 c'
                (some true) heqrec).2 rfl
            have hframeE : ∀ y rest2,
                lookupC ((p ++ n.pfx) ++ y :: rest2)
                  (if rm then delEdge n.edges label
                   else replaceEdgeNode n.edges label c').contentE =
                (if (p ++ n.pfx) ++ y :: rest2 = p ++ n.pfx ++ label :: srest
                 then none
                 else lookupC ((p ++ n.pfx) ++ y :: rest2)
                   n.edges.contentE) := by
              intro y rest2
              cases hrm : rm with
              | true =>
                rw [if_pos rfl, delEdge_eq_delE hs]
                have hcnil := hrmnil hrm
                by_cases hy : y = label
                · subst hy
                  rw [lookupE_decomp_none (delE_sorted hs y)
                    (delE_WFe hwe y) (findEdgeL_delE_self hs y) rest2]
                  by_cases hkt : (p ++ n.pfx) ++ y :: rest2 =
                      p ++ n.pfx ++ y :: srest
                  · rw [if_pos hkt]
                  · rw [if_neg hkt]
                    rw [lookupE_decomp_some hs hwe hg rest2]
                    have hfr := ihframe ((p ++ n.pfx) ++ y :: rest2)
                    rw [hcnil] at hfr
                    simp only [lookupC] at hfr
                    rw [if_neg (by rw [← hseq]; exact hkt)] at hfr
                    exact hfr
                · rw [if_neg (fun hh => hy (append_cons_inj hh).1)]
                  cases hf2 : findEdgeL n.edges y with
                  | none =>
                    rw [lookupE_decomp_none (delE_sorted hs label)
                      (delE_WFe hwe label)
                      ((findEdgeL_delE_other n.edges label hy).trans hf2)
                      rest2,
                      lookupE_decomp_none hs hwe hf2 rest2]
                  | some c2 =>
                    rw [lookupE_decomp_some (delE_sorted hs label)
                      (delE_WFe hwe label)
                      ((findEdgeL_delE_other n.edges label hy).trans hf2)
                      rest2,
                      lookupE_decomp_some hs hwe hf2 rest2]
              | false =>
                rw [if_neg Bool.false_ne_true, replaceEdgeNode_eq hs hg]
                have hs2 := replE_sorted hs label c'
                have hwe2 := replE_WFe (x := label) hwe hwc' hc'ne hc'hd
                by_cases hy : y = label
                · subst hy
                  rw [lookupE_decomp_some hs2 hwe2
                    (findEdgeL_replE_self hg c') rest2]
                  rw [lookupE_decomp_some hs hwe hg rest2]
                  have hfr := ihframe ((p ++ n.pfx) ++ y :: rest2)
                  rw [← hseq] at hfr
                  exact hfr
                · rw [if_neg (fun hh => hy (append_cons_inj hh).1)]
                  cases hf2 : findEdgeL n.edges y with
                  | none =>
                    rw [lookupE_decomp_none hs2 hwe2
                      ((findEdgeL_replE_other n.edges label c' hy).trans hf2)
                      rest2,
                      lookupE_decomp_none hs hwe hf2 rest2]
                  | some c2 =>
                    rw [lookupE_decomp_some hs2 hwe2
                      ((findEdgeL_replE_other n.edges label c' hy).trans hf2)
                      rest2,
                      lookupE_decomp_some hs hwe hf2 rest2]
            have hsE : edgesSorted
                (if rm then delEdge n.edges label
                 else replaceEdgeNode n.edges label c') := by
              cases hrm : rm with
              | true =>
                rw [if_pos rfl, delEdge_eq_delE hs]
                exact delE_sorted hs label
              | false =>
                rw [if_neg Bool.false_ne_true, replaceEdgeNode_eq hs hg]
                exact replE_sorted hs label c'
            have hwE : WFe (p ++ n.pfx)
                (if rm then delEdge n.edges label
                 else replaceEdgeNode n.edges label c') := by
              cases hrm : rm with
              | true =>
                rw [if_pos rfl, delEdge_eq_delE hs]
                exact delE_WFe hwe label
              | false =>
                rw [if_neg Bool.false_ne_true, replaceEdgeNode_eq hs hg]
                exact replE_WFe (x := label) hwe hwc' hc'ne hc'hd
            have hframeN : ∀ k,
                lookupC k (GoNode.mk n.leaf n.pfx
                  (if rm then delEdge n.edges label
                   else replaceEdgeNode n.edges label c')).content =
                (if k = p ++ n.pfx ++ label :: srest then none
                 else lookupC k n.content) :=
              frame_of_edges hw ⟨hleaf, hsE, hwE⟩ rfl rfl
                ⟨label, srest, rfl⟩ hframeE
            generalize hES : (if rm then delEdge n.edges label
              else replaceEdgeNode n.edges label c') = es1 at h
            rw [hES] at hsE hwE hframeN
            split at h
            · next hguard =>
              simp only [Bool.and_eq_true, beq_iff_eq, GoNode.edges_mk,
                GoNode.leaf_mk, Bool.not_eq_eq_eq_not, Bool.not_true,
                Option.isNone_iff_eq_none] at hguard
              obtain ⟨⟨hroot, hlen1⟩, hleafnone⟩ := hguard
              obtain ⟨l2, c2, hes2⟩ := edges_length_one hlen1
              split at h
              · next n2 heq =>
                rw [hes2, mergeChildGo_of_cons] at heq
                obtain rfl := Option.some_inj.1 heq
                obtain rfl := (GoResult.ok.inj h)
                refine ⟨fun hc => Option.noConfusion hc, ?_⟩
                intro v2 n' info heq2
                simp only [Option.some_inj, Prod.mk.injEq] at heq2
                obtain ⟨rfl, rfl, rfl⟩ := heq2
                have hwE2 : WFe (p ++ n.pfx)
                    (GoEdges.cons l2 c2 GoEdges.nil) := hes2 ▸ hwE
                refine ⟨WFb_merge hwE2, ⟨c2.pfx, rfl⟩, ?_, hlookv, ?_⟩
                · intro hroot2
                  rw [hroot2] at hroot
                  exact absurd hroot (by simp)
                · intro k
                  show lookupC k (GoNode.mk c2.leaf (n.pfx ++ c2.pfx)
                    c2.edges).content = _
                  rw [content_pfx_irrel c2]
                  have h1 := hframeN k
                  rw [content_eq_leaf_edges (GoNode.mk n.leaf n.pfx es1),
                    GoNode.leaf_mk, GoNode.edges_mk, hleafnone, hes2] at h1
                  rw [← h1]
                  show lookupC k c2.content =
                    lookupC k ([] ++ (c2.content ++ GoEdges.nil.contentE))
                  rw [List.nil_append]
                  cases hcc : lookupC k c2.content with
                  | some w => rw [lookupC_append_left _ hcc]
                  | none =>
                    rw [lookupC_append_right _ hcc]
                    rfl
              · exact GoResult.noConfusion h
            · obtain rfl := (GoResult.ok.inj h)
              refine ⟨fun hc => Option.noConfusion hc, ?_⟩
              intro v2 n' info heq2
              simp only [Option.some_inj, Prod.mk.injEq] at heq2
              obtain ⟨rfl, rfl, rfl⟩ := heq2
              exact ⟨⟨hleaf, hsE, hwE⟩, ⟨[], (List.append_nil n.pfx).symm⟩,
                fun _ => rfl, hlookv, hframeN⟩
          · next v1 c' heqrec =>
            rw [hdrop] at heqrec
            obtain ⟨_, ihsome⟩ :=
              ih false c (p ++ n.pfx) tail _ hcd hwc heqrec
            obtain ⟨hwc', ⟨ext', hext'⟩, _, ihold, ihframe⟩ :=
              ihsome v1 c' none rfl
            have hc'ne : c'.pfx ≠ [] := by
              rw [hext']
              exact append_ne_nil ext' hcne
            have hc'hd : c'.pfx.headD 0 = label := by
              rw [hext', headD_append ext' hcne]
              exact hchd
            have hlookv : lookupC (p ++ n.pfx ++ label :: srest) n.content =
                some v1 := by
              rw [lookupC_node_some hw hg srest, hseq]
              exact ihold
            rw [replaceEdgeNode_eq hs hg] at h
            have hs2 := replE_sorted hs label c'
            have hwe2 := replE_WFe (x := label) hwe hwc' hc'ne hc'hd
            obtain rfl := (GoResult.ok.inj h)
            refine ⟨fun hc => Option.noConfusion hc, ?_⟩
            intro v2 n' info heq2
            simp only [Option.some_inj, Prod.mk.injEq] at heq2
            obtain ⟨rfl, rfl, rfl⟩ := heq2
            refine ⟨⟨hleaf, hs2, hwe2⟩, ⟨[], (List.append_nil n.pfx).symm⟩,
              fun _ => rfl, hlookv, ?_⟩
            refine frame_of_edges hw ⟨hleaf, hs2, hwe2⟩ rfl rfl
              ⟨label, srest, rfl⟩ ?_
            intro y rest2
            rw [GoNode.edges_mk]
            by_cases hy : y = label
            · subst hy
              rw [lookupE_decomp_some hs2 hwe2
                (findEdgeL_replE_self hg c') rest2]
              rw [lookupE_decomp_some hs hwe hg rest2]
              have hfr := ihframe ((p ++ n.pfx) ++ y :: rest2)
              rw [← hseq] at hfr
              exact hfr
            · rw [if_neg (fun hh => hy (append_cons_inj hh).1)]
              cases hf2 : findEdgeL n.edges y with
              | none =>
                rw [lookupE_decomp_none hs2 hwe2
                  ((findEdgeL_replE_other n.edges label c' hy).trans hf2)
                  rest2,
                  lookupE_decomp_none hs hwe hf2 rest2]
              | some c2 =>
                rw [lookupE_decomp_some hs2 hwe2
                  ((findEdgeL_replE_other n.edges label c' hy).trans hf2)
                  rest2,
                  lookupE_decomp_some hs hwe hf2 rest2]
        · next hp =>
          obtain rfl := (GoResult.ok.inj h)
          refine ⟨fun _ => ?_, fun v1 n' info heq => Option.noConfusion heq⟩
          rw [lookupC_node_some hw hg srest]
          refine lookupC_eq_none fun kv hm => ?_
          obtain ⟨ext, hke⟩ := keyShapeB c (p ++ n.pfx) hwc kv hm
          rw [hke]
          intro hcontra
          rw [List.append_assoc] at hcontra
          have h2 := List.append_cancel_left hcontra
          have hp2 : c.pfx <+: (label :: srest) := ⟨ext, h2⟩
          simp only [hpFn, if_neg Bool.false_ne_true, goHasPrefix] at hp
          exact hp (List.isPrefixOf_iff_prefix.2 hp2)

/-- C1: in byte-exact mode, on any well-formed tree, `Insert(k, v)` returns
normally and a following `Get(k)` on the updated tree returns `(v, true)`.
(In fold mode the claim fails: see the counterexample, where `Insert`
itself panics.) -/
theorem C1_set_get {V : Type} (tl : Nat → Nat) (t : GoTree V) (k : List Nat)
    (v : V) (hf : t.fold = false) (hw : WFt t) :
    ∃ old t', t.Insert tl k v = .ok (old, t') ∧ t'.Get tl k = some v := by
  obtain ⟨hwb, hpfx⟩ := hw
  obtain ⟨res, hres⟩ :=
    insertRec_ok tl t.root.depth t.root k k v (le_refl _)
  obtain ⟨old, r⟩ := res
  have hres2 : insertRec false tl t.root.depth t.root
      ([] ++ t.root.pfx ++ k) k v = .ok (old, r) := by
    rw [hpfx]
    exact hres
  obtain ⟨hwr, hrpfx, hold, hframe⟩ :=
    insertRec_frame tl t.root.depth t.root [] k v old r (le_refl _)
      hwb hres2
  refine ⟨old, ⟨r, if old.isSome then t.size else t.size + 1, t.fold⟩,
    ?_, ?_⟩
  · simp only [GoTree.Insert, hf, hres]
  · show getRec (t.fold) tl r.depth r k = some v
    rw [hf]
    rw [getRec_eq_lookupC tl r.depth r [] k (le_refl _) hwr]
    have hr2 : [] ++ r.pfx ++ k = k := by
      rw [hrpfx, hpfx]
      rfl
    rw [hr2, hframe k]
    rw [if_pos (by rw [hpfx]; rfl)]

/-- C10: in byte-exact mode, on any well-formed tree, `Delete(k)` returns
normally and leaves `Get(k2)` unchanged for every other key `k2`: the
`delEdge` removal and the `mergeChild` compactions preserve every stored
key except `k`. -/
theorem C10_delete_other {V : Type} (tl : Nat → Nat) (t : GoTree V)
    (k k2 : List Nat) (hf : t.fold = false) (hw : WFt t) (hne : k2 ≠ k) :
    ∃ res, t.Delete tl k = .ok res ∧ res.2.Get tl k2 = t.Get tl k2 := by
  obtain ⟨hwb, hpfx⟩ := hw
  obtain ⟨res0, hres⟩ :=
    deleteRec_ok t.fold tl t.root.depth true t.root k (le_refl _)
  rw [hf] at hres
  rcases res0 with _ | ⟨v1, r, info⟩
  · refine ⟨(none, t), ?_, rfl⟩
    simp only [GoTree.Delete, hf, hres]
  · obtain ⟨_, hsome⟩ :=
      deleteRec_frame tl t.root.depth true t.root [] k _ (le_refl _) hwb
        hres
    obtain ⟨hwr, _, hrpfx, _, hframe⟩ := hsome v1 r info rfl
    have hrpfx2 : r.pfx = [] := by rw [hrpfx rfl, hpfx]
    refine ⟨(some v1, ⟨r, t.size - 1, t.fold⟩), ?_, ?_⟩
    · simp only [GoTree.Delete, hf, hres]
    · show getRec (t.fold) tl r.depth r k2 = getRec t.fold tl _ t.root k2
      rw [hf]
      rw [getRec_eq_lookupC tl r.depth r [] k2 (le_refl _) hwr]
      rw [getRec_eq_lookupC tl t.root.depth t.root [] k2 (le_refl _) hwb]
      have hr2 : [] ++ r.pfx ++ k2 = k2 := by
        rw [hrpfx2]
        rfl
      have hr3 : [] ++ t.root.pfx ++ k2 = k2 := by
        rw [hpfx]
        rfl
      rw [hr2, hr3, hframe k2]
      rw [if_neg (by rw [hpfx]; exact hne)]

/-- C6: the `size` field equals the number of leaves the walk visits, and
each mutating operation moves it by the exact number of leaves it added or
removed: `Insert` adds one exactly when it stores a new key (in byte mode
on well-formed trees, exactly when `Get` did not find the key — the
returned old value is the previous `Get`), `Delete` subtracts one exactly
on success, and `DeletePrefix` subtracts exactly the count it returns. -/
theorem C6_len_leaves {V : Type} (tl : Nat → Nat) (t : GoTree V)
    (k p2 : List Nat) (v : V)
    (hinv : t.Len = (t.root.numLeaves : Int)) :
    ((emptyTree V false).Len = ((emptyTree V false).root.numLeaves : Int)) ∧
    (∀ old t', t.Insert tl k v = .ok (old, t') →
      t'.Len = (t'.root.numLeaves : Int) ∧
      t'.Len = t.Len + (if old.isSome then 0 else 1) ∧
      (t.fold = false → WFt t → old = t.Get tl k)) ∧
    (∀ res t', t.Delete tl k = .ok (res, t') →
      t'.Len = (t'.root.numLeaves : Int) ∧
      t'.Len = t.Len - (if res.isSome then 1 else 0)) ∧
    (∀ cnt t', t.DeletePrefix tl p2 = .ok (cnt, t') →
      t'.Len = (t'.root.numLeaves : Int) ∧ t'.Len = t.Len - cnt) := by
  refine ⟨rfl, ?_, ?_, ?_⟩
  · intro old t' h
    simp only [GoTree.Insert] at h
    split at h
    · exact GoResult.noConfusion h
    · next old1 r hrec =>
      simp only [GoResult.ok.injEq, Prod.mk.injEq] at h
      obtain ⟨rfl, rfl⟩ := h
      have hcnt := insertRec_numLeaves t.fold tl t.root.depth t.root k k v
        old1 r hrec
      refine ⟨?_, ?_, ?_⟩
      · show (if old1.isSome = true then t.size else t.size + 1) =
          ((r.content.length : Nat) : Int)
        simp only [GoTree.Len, GoNode.numLeaves] at hinv
        by_cases hio : old1.isSome = true
        · rw [if_pos hio] at hcnt ⊢
          omega
        · rw [if_neg hio] at hcnt ⊢
          omega
      · show (if old1.isSome = true then t.size else t.size + 1) =
          t.size + (if old1.isSome = true then 0 else 1)
        by_cases hio : old1.isSome = true
        · rw [if_pos hio, if_pos hio]
          omega
        · rw [if_neg hio, if_neg hio]
      · intro hf hw
        obtain ⟨hwb, hpfx⟩ := hw
        rw [hf] at hrec
        have hres2 : insertRec false tl t.root.depth t.root
            ([] ++ t.root.pfx ++ k) k v = .ok (old1, r) := by
          rw [hpfx]
          exact hrec
        obtain ⟨_, _, hold, _⟩ :=
          insertRec_frame tl t.root.depth t.root [] k v old1 r (le_refl _)
            hwb hres2
        show old1 = getRec t.fold tl t.root.depth t.root k
        rw [hf, getRec_eq_lookupC tl t.root.depth t.root [] k (le_refl _)
          hwb]
        exact hold
  · intro res t' h
    simp only [GoTree.Delete] at h
    split at h
    · exact GoResult.noConfusion h
    · next heq =>
      simp only [GoResult.ok.injEq, Prod.mk.injEq] at h
      obtain ⟨rfl, rfl⟩ := h
      exact ⟨hinv, by simp⟩
    · next v1 r info heq =>
      simp only [GoResult.ok.injEq, Prod.mk.injEq] at h
      obtain ⟨rfl, rfl⟩ := h
      have hcnt := deleteRec_numLeaves t.fold tl t.root.depth true t.root k
        v1 r info heq
      simp only [GoTree.Len, GoNode.numLeaves] at hinv ⊢
      refine ⟨?_, by simp⟩
      show t.size - 1 = ((r.content.length : Nat) : Int)
      omega
  · intro cnt t' h
    simp only [GoTree.DeletePrefix] at h
    split at h
    · exact GoResult.noConfusion h
    · next cnt1 r cl heq =>
      simp only [GoResult.ok.injEq, Prod.mk.injEq] at h
      obtain ⟨rfl, rfl⟩ := h
      have hcnt := deletePrefixRec_numLeaves t.fold tl t.root.depth true
        t.root p2 cnt1 r cl heq
      simp only [GoTree.Len, GoNode.numLeaves] at hinv ⊢
      refine ⟨?_, ?_⟩
      · show t.size - (cnt1 : Int) = ((r.content.length : Nat) : Int)
        omega
      · trivial

theorem lexLtb_append (q : List Nat) (a b : List Nat) :
    lexLtb (q ++ a) (q ++ b) = lexLtb a b := by
  induction q with
  | nil => rfl
  | cons x t ih =>
    show lexLtb (x :: (t ++ a)) (x :: (t ++ b)) = _
    simp only [lexLtb, Nat.lt_irrefl, if_true, if_false]
    exact ih

theorem lexLtb_prefix (q : List Nat) (y : Nat) (rest : List Nat) :
    lexLtb q (q ++ y :: rest) = true := by
  induction q with
  | nil => rfl
  | cons x t ih =>
    show lexLtb (x :: t) (x :: (t ++ y :: rest)) = _
    simp only [lexLtb, Nat.lt_irrefl, if_true, if_false]
    exact ih

theorem lexLtb_head {a b : Nat} (h : a < b) (as bs : List Nat) :
    lexLtb (a :: as) (b :: bs) = true := by
  simp only [lexLtb]
  rw [if_pos h]

/-- The walk of a well-formed node lists its keys in strictly increasing
lexicographic byte order. -/
theorem content_sorted {V : Type} :
    ∀ (n : GoNode V) (p : List Nat), WFb p n →
      n.content.Pairwise (fun a b => lexLtb a.1 b.1 = true) := by
  intro n
  induction n using GoNode.inductM
    (Q := fun es => ∀ q : List Nat, WFe q es → edgesSorted es →
      es.contentE.Pairwise
        (fun a b : List Nat × V => lexLtb a.1 b.1 = true)) with
  | hmk lf p0 es hQ =>
    intro p hw
    obtain ⟨hleaf, hs, hwe⟩ := hw
    rw [content_mk]
    refine List.pairwise_append.2 ⟨?_, hQ (p ++ p0) hwe hs, ?_⟩
    · cases lf with
      | some l0 => simp
      | none => simp
    · intro a ha b hb
      cases hlf : lf with
      | some l0 =>
        rw [hlf] at ha
        simp only [List.mem_singleton] at ha
        subst ha
        obtain ⟨l, ext, _, hb2⟩ := keyShapeE es (p ++ p0) hwe b hb
        show lexLtb l0.key b.1 = true
        rw [hleaf l0 hlf, hb2]
        exact lexLtb_prefix _ _ _
      | none =>
        rw [hlf] at ha
        exact absurd ha (List.not_mem_nil a)
  | hnil =>
    rename_i q hw hs
    exact List.Pairwise.nil
  | hcons l c r hP hQ =>
    rename_i q hw hs
    obtain ⟨hne, hhd, hwc, hwr⟩ := hw
    obtain ⟨ha, hs2⟩ := hs
    refine List.pairwise_append.2 ⟨hP q hwc, hQ q hwr hs2, ?_⟩
    intro a hma b hmb
    obtain ⟨ext, ha2⟩ := keyShapeB c q hwc a hma
    obtain ⟨l2, ext2, hmem2, hb2⟩ := keyShapeE r q hwr b hmb
    obtain ⟨t, hp⟩ := pfx_head_cons hne hhd
    show lexLtb a.1 b.1 = true
    rw [ha2, hb2, hp, List.append_assoc, List.cons_append, lexLtb_append]
    exact lexLtb_head (labelsAbove_lt ha l2 hmem2) _ _

/-- A node that is neither dangling itself nor has dangling descendants
has a non-empty walk. -/
def contentNeNil {V : Type} : ∀ (n : GoNode V),
    (n.leaf.isNone && (n.edges.length == 0)) = false →
    n.hasDangling = false → n.content ≠ []
  | .mk (some lf) p0 es => fun _ _ => by
    rw [content_mk]
    exact List.cons_ne_nil _ _
  | .mk none p0 .nil => fun hself _ => by
    simp only [GoNode.leaf_mk, GoNode.edges_mk, Option.isNone_none,
      Bool.true_and, GoEdges.length, beq_self_eq_true] at hself
    exact Bool.noConfusion hself
  | .mk none p0 (.cons l c r) => fun _ hnd => by
    have hnd2 : ((c.leaf.isNone && (c.edges.length == 0)) ||
        c.hasDangling || r.hasDanglingE) = false := hnd
    simp only [Bool.or_eq_false_iff] at hnd2
    obtain ⟨⟨hcself, hcd⟩, _⟩ := hnd2
    have hc := contentNeNil c hcself hcd
    rw [content_mk]
    show ([] : List (List Nat × V)) ++ (c.content ++ r.contentE) ≠ []
    rw [List.nil_append]
    intro hcontra
    exact hc (List.append_eq_nil.1 hcontra).1

theorem minimumRec_eq_head {V : Type} : ∀ (n : GoNode V),
    n.hasDangling = false →
    (minimumRec n).map (fun lf => (lf.key, lf.val)) = n.content.head?
  | .mk (some lf) p0 es => fun _ => rfl
  | .mk none p0 .nil => fun _ => rfl
  | .mk none p0 (.cons l c r) => fun hnd => by
    have hnd2 : ((c.leaf.isNone && (c.edges.length == 0)) ||
        c.hasDangling || r.hasDanglingE) = false := hnd
    simp only [Bool.or_eq_false_iff] at hnd2
    obtain ⟨⟨hcself, hcd⟩, _⟩ := hnd2
    obtain ⟨x, xs, hcc⟩ :=
      List.exists_cons_of_ne_nil (contentNeNil c hcself hcd)
    show (minimumRec c).map (fun lf => (lf.key, lf.val)) =
      (([] : List (List Nat × V)) ++ (c.content ++ r.contentE)).head?
    rw [List.nil_append, minimumRec_eq_head c hcd, hcc]
    rfl

theorem lastNode?_eq_none {V : Type} :
    ∀ {es : GoEdges V}, es.lastNode? = none → es = .nil := by
  intro es
  induction es using GoEdges.induct with
  | hnil => intro _; rfl
  | hcons l c r ih =>
    intro h
    cases r with
    | nil => exact Option.noConfusion h
    | cons l2 c2 r2 =>
      have : GoEdges.cons l2 c2 r2 = GoEdges.nil := ih h
      exact GoEdges.noConfusion this

/-- The walk of a dangling-free edge list ends in the walk of the last
edge's child, which is non-empty. -/
theorem lastE {V : Type} :
    ∀ (es : GoEdges V), es.hasDanglingE = false →
      ∀ c, es.lastNode? = some c →
        es.contentE ≠ [] ∧
        es.contentE.getLast? = c.content.getLast? ∧
        c.content ≠ [] ∧ c.hasDangling = false := by
  intro es
  induction es using GoEdges.induct with
  | hnil => intro _ c h; exact Option.noConfusion h
  | hcons l c0 r ih =>
    intro hnd c h
    have hnd2 : ((c0.leaf.isNone && (c0.edges.length == 0)) ||
        c0.hasDangling || r.hasDanglingE) = false := hnd
    simp only [Bool.or_eq_false_iff] at hnd2
    obtain ⟨⟨hcself, hcd⟩, hrd⟩ := hnd2
    cases r with
    | nil =>
      obtain rfl : c0 = c :=
        Option.some_inj.1 (show some c0 = some c from h)
      have hcne := contentNeNil c0 hcself hcd
      refine ⟨?_, ?_, hcne, hcd⟩
      · show c0.content ++ GoEdges.nil.contentE ≠ []
        intro hcontra
        exact hcne (List.append_eq_nil.1 hcontra).1
      · show (c0.content ++ GoEdges.nil.contentE).getLast? = _
        show (c0.content ++ []).getLast? = _
        rw [List.append_nil]
    | cons l2 c2 r2 =>
      have h2 : (GoEdges.cons l2 c2 r2).lastNode? = some c := h
      obtain ⟨hne2, hlast2, hcne2, hcd2⟩ := ih hrd c h2
      refine ⟨?_, ?_, hcne2, hcd2⟩
      · show c0.content ++ (GoEdges.cons l2 c2 r2).contentE ≠ []
        intro hcontra
        exact hne2 (List.append_eq_nil.1 hcontra).2
      · show (c0.content ++ (GoEdges.cons l2 c2 r2).contentE).getLast? = _
        rw [List.getLast?_append_of_ne_nil _ hne2]
        exact hlast2

theorem maximumRec_eq_getLast {V : Type} :
    ∀ (fuel : Nat) (n : GoNode V), n.depth ≤ fuel →
      n.hasDangling = false →
      (maximumRec fuel n).map (fun lf => (lf.key, lf.val)) =
        n.content.getLast? := by
  intro fuel
  induction fuel with
  | zero =>
    intro n hd _
    rw [depth_eq] at hd
    omega
  | succ fuel ih =>
    intro n hd hnd
    show (match n.edges.lastNode? with
          | some c => maximumRec fuel c
          | none => n.leaf).map (fun lf : GoLeaf V => (lf.key, lf.val)) = _
    cases hln : n.edges.lastNode? with
    | none =>
      have hes := lastNode?_eq_none hln
      rw [content_eq_leaf_edges n, hes]
      cases hlf : n.leaf with
      | some l0 => rfl
      | none => rfl
    | some c =>
      have hndE : n.edges.hasDanglingE = false := by
        cases n
        exact hnd
      obtain ⟨hne, hlast, hcne, hcd⟩ := lastE n.edges hndE c hln
      have hcdep : c.depth ≤ fuel := by
        have := lastNode?_depth hln
        rw [depth_eq] at hd
        omega
      rw [ih c hcdep hcd]
      rw [content_eq_leaf_edges n]
      rw [List.getLast?_append_of_ne_nil _ hne]
      exact hlast.symm

/-- C7: on a well-formed tree with no dangling nodes, `Minimum` returns the
first and `Maximum` the last entry of the walk, the walk is strictly
sorted in lexicographic byte order (so those are the smallest and largest
stored keys, in both modes — the edge order is always raw bytes), and on
an empty tree both return `found = false`. -/
theorem C7_min_max {V : Type} (t : GoTree V) (hw : WFt t)
    (hnd : t.root.hasDangling = false) :
    t.Minimum = t.root.content.head? ∧
    t.Maximum = t.root.content.getLast? ∧
    t.root.content.Pairwise (fun a b => lexLtb a.1 b.1 = true) ∧
    (t.root.content = [] → t.Minimum = none ∧ t.Maximum = none) := by
  have h1 : t.Minimum = t.root.content.head? :=
    minimumRec_eq_head t.root hnd
  have h2 : t.Maximum = t.root.content.getLast? :=
    maximumRec_eq_getLast t.root.depth t.root (le_refl _) hnd
  refine ⟨h1, h2, content_sorted t.root [] hw.1, fun he => ?_⟩
  rw [h1, h2, he]
  exact ⟨rfl, rfl⟩

theorem prefix_cancel {q a b : List Nat} (h : q ++ a <+: q ++ b) :
    a <+: b := by
  obtain ⟨t, ht⟩ := h
  rw [List.append_assoc] at ht
  exact ⟨t, List.append_cancel_left ht⟩

theorem prefix_len_le {a b : List Nat} (h : a <+: b) :
    a.length ≤ b.length := by
  obtain ⟨t, ht⟩ := h
  rw [← ht, List.length_append]
  omega

theorem prefix_extend (q t : List Nat) : q <+: q ++ t := ⟨t, rfl⟩

theorem cons_prefix_head {y : Nat} {ext s : List Nat}
    (h : (y :: ext) <+: s) : ∃ s2, s = y :: s2 := by
  obtain ⟨t, ht⟩ := h
  exact ⟨ext ++ t, by rw [← ht]; rfl⟩

theorem lookupC_mem {V : Type} {k : List Nat} {xs : List (List Nat × V)}
    {v : V} (h : lookupC k xs = some v) : (k, v) ∈ xs := by
  induction xs with
  | nil => exact Option.noConfusion h
  | cons kv r ih =>
    simp only [lookupC] at h
    split at h
    · next hk =>
      obtain rfl := Option.some_inj.1 h
      have : kv = (k, kv.2) := by
        rw [← hk]
      rw [← this]
      exact List.mem_cons_self kv r
    · exact List.mem_cons_of_mem kv (ih h)

theorem findEdgeL_mem {V : Type} {es : GoEdges V} {x : Nat} {c : GoNode V}
    (h : findEdgeL es x = some c) : x ∈ es.labels := by
  induction es using GoEdges.induct with
  | hnil => exact Option.noConfusion h
  | hcons l c0 r ih =>
    simp only [findEdgeL] at h
    split at h
    · next hx => exact hx ▸ List.mem_cons_self l r.labels
    · exact List.mem_cons_of_mem l (ih h)

theorem labels_findEdgeL {V : Type} {es : GoEdges V} {x : Nat}
    (h : x ∈ es.labels) : ∃ c, findEdgeL es x = some c := by
  induction es using GoEdges.induct with
  | hnil => exact absurd h (List.not_mem_nil x)
  | hcons l c0 r ih =>
    simp only [findEdgeL]
    by_cases hx : x = l
    · rw [if_pos hx]
      exact ⟨c0, rfl⟩
    · rw [if_neg hx]
      rcases List.mem_cons.1 h with h2 | h2
      · exact absurd h2 hx
      · exact ih h2

/-- A walk entry whose key extends the path by `label :: …` lives in the
child hanging off the edge labelled `label`. -/
theorem cand_in_label_edge {V : Type} {q : List Nat} :
    ∀ {es : GoEdges V}, WFe q es → edgesSorted es →
      ∀ {label : Nat} {srest : List Nat} (kv : List Nat × V),
        kv ∈ es.contentE → kv.1 <+: q ++ label :: srest →
        ∃ c, findEdgeL es label = some c ∧ kv ∈ c.content := by
  intro es
  induction es using GoEdges.induct with
  | hnil =>
    intro _ _ label srest kv hm _
    exact absurd hm (List.not_mem_nil kv)
  | hcons l c0 r ih =>
    intro hwe hsrt label srest kv hm hpre
    obtain ⟨hne, hhd, hwc, hwr⟩ := hwe
    obtain ⟨ha, hs2⟩ := hsrt
    rcases List.mem_append.1 hm with hm2 | hm2
    · obtain ⟨ext, hke⟩ := keyShapeB c0 q hwc kv hm2
      obtain ⟨t, hp⟩ := pfx_head_cons hne hhd
      rw [hke, hp, List.append_assoc, List.cons_append] at hpre
      have hpre2 := prefix_cancel hpre
      obtain ⟨s2, hs2eq⟩ := cons_prefix_head hpre2
      have hll : l = label := (List.cons.inj hs2eq).1.symm
      subst hll
      refine ⟨c0, ?_, hm2⟩
      simp [findEdgeL]
    · obtain ⟨c, hf, hmc⟩ := ih hwr hs2 kv hm2 hpre
      have hmem := findEdgeL_mem hf
      have hlt := labelsAbove_lt ha label hmem
      refine ⟨c, ?_, hmc⟩
      simp only [findEdgeL]
      rw [if_neg (by omega)]
      exact hf

/-- `Tree.LongestPrefix`'s loop on a well-formed node: a `none` result means
no walk entry's key (and no accumulator entry) is a prefix of the query;
a `some` result is either a walk entry whose key is a prefix of the query
and is at least as long as every other such entry, or the accumulator when
the walk has no matching entry. -/
theorem longestPrefixRec_spec {V : Type} (tl : Nat → Nat) :
    ∀ (fuel : Nat) (n : GoNode V) (p s : List Nat)
      (last : Option (GoLeaf V)),
      n.depth ≤ fuel → WFb p n →
      (∀ lf0, last = some lf0 → lf0.key <+: (p ++ n.pfx)) →
      ((longestPrefixRec false tl fuel n s last = none →
          last = none ∧
          ∀ kv ∈ n.content, ¬(kv.1 <+: (p ++ n.pfx ++ s))) ∧
       (∀ lf, longestPrefixRec false tl fuel n s last = some lf →
          ((lookupC lf.key n.content = some lf.val ∧
              lf.key <+: (p ++ n.pfx ++ s)) ∨
            (last = some lf ∧
              ∀ kv ∈ n.content, ¬(kv.1 <+: (p ++ n.pfx ++ s)))) ∧
          ∀ kv ∈ n.content, kv.1 <+: (p ++ n.pfx ++ s) →
            kv.1.length ≤ lf.key.length)) := by
  intro fuel
  induction fuel with
  | zero =>
    intro n p s last hd hw hlast
    rw [depth_eq] at hd
    omega
  | succ fuel ih =>
    intro n p s last hd hw hlast
    obtain ⟨hleaf, hs, hwe⟩ := (WFb_def p n).1 hw
    match s with
    | [] =>
      cases hlf : n.leaf with
      | some lf =>
        have hr : longestPrefixRec false tl (fuel + 1) n [] last =
            some lf := by
          simp only [longestPrefixRec, hlf]
        have hkey := hleaf lf hlf
        constructor
        · intro h0
          rw [hr] at h0
          exact Option.noConfusion h0
        · intro lf2 hlf2
          rw [hr] at hlf2
          obtain rfl := Option.some_inj.1 hlf2
          refine ⟨Or.inl ⟨?_, ?_⟩, ?_⟩
          · rw [content_eq_leaf_edges n, hlf]
            simp [lookupC]
          · rw [hkey]
            exact ⟨[], rfl⟩
          · intro kv hm hpre
            rw [List.append_nil] at hpre
            obtain ⟨ext, hke⟩ := keyShapeB n p hw kv hm
            have h1 := prefix_len_le hpre
            rw [hke, hkey]
            rw [hke] at h1
            simp only [List.length_append] at h1 ⊢
            omega
      | none =>
        have hr : longestPrefixRec false tl (fuel + 1) n [] last = last := by
          simp only [longestPrefixRec, hlf]
        have hnc : ∀ kv ∈ n.content, ¬(kv.1 <+: (p ++ n.pfx ++ [])) := by
          intro kv hm hpre
          rw [List.append_nil] at hpre
          rw [content_eq_leaf_edges n, hlf, List.nil_append] at hm
          obtain ⟨l, ext, _, hke⟩ := keyShapeE n.edges (p ++ n.pfx) hwe kv hm
          have h1 := prefix_len_le hpre
          rw [hke] at h1
          simp only [List.length_append, List.length_cons] at h1
          omega
        constructor
        · intro h0
          rw [hr] at h0
          exact ⟨h0, hnc⟩
        · intro lf2 hlf2
          rw [hr] at hlf2
          refine ⟨Or.inr ⟨hlf2, hnc⟩, ?_⟩
          intro kv hm hpre
          exact absurd hpre (hnc kv hm)
    | label :: srest =>
      have hQex : p ++ n.pfx <+: p ++ n.pfx ++ label :: srest :=
        ⟨label :: srest, rfl⟩
      cases hgE : getEdge n.edges label with
      | none =>
        have hg : findEdgeL n.edges label = none := by
          rw [← getEdge_eq_findEdgeL hs]
          exact hgE
        have hncE : ∀ kv ∈ n.edges.contentE,
            ¬(kv.1 <+: (p ++ n.pfx ++ label :: srest)) := by
          intro kv hm hpre
          obtain ⟨c, hf, _⟩ := cand_in_label_edge hwe hs kv hm hpre
          rw [hg] at hf
          exact Option.noConfusion hf
        cases hlf : n.leaf with
        | some lf =>
          have hr : longestPrefixRec false tl (fuel + 1) n
              (label :: srest) last = some lf := by
            simp only [longestPrefixRec, hlf, hgE]
          have hkey := hleaf lf hlf
          constructor
          · intro h0
            rw [hr] at h0
            exact Option.noConfusion h0
          · intro lf2 hlf2
            rw [hr] at hlf2
            obtain rfl := Option.some_inj.1 hlf2
            refine ⟨Or.inl ⟨?_, ?_⟩, ?_⟩
            · rw [content_eq_leaf_edges n, hlf]
              simp [lookupC]
            · rw [hkey]
              exact hQex
            · intro kv hm hpre
              rw [content_eq_leaf_edges n, hlf] at hm
              rcases List.mem_append.1 hm with hm2 | hm2
              · simp only [List.mem_singleton] at hm2
                subst hm2
                rw [hkey]
              · exact absurd hpre (hncE kv hm2)
        | none =>
          have hr : longestPrefixRec false tl (fuel + 1) n
              (label :: srest) last = last := by
            simp only [longestPrefixRec, hlf, hgE]
          have hnc : ∀ kv ∈ n.content,
              ¬(kv.1 <+: (p ++ n.pfx ++ label :: srest)) := by
            intro kv hm
            rw [content_eq_leaf_edges n, hlf, List.nil_append] at hm
            exact hncE kv hm
          constructor
          · intro h0
            rw [hr] at h0
            exact ⟨h0, hnc⟩
          · intro lf2 hlf2
            rw [hr] at hlf2
            refine ⟨Or.inr ⟨hlf2, hnc⟩, ?_⟩
            intro kv hm hpre
            exact absurd hpre (hnc kv hm)
      | some c =>
        have hg : findEdgeL n.edges label = some c := by
          rw [← getEdge_eq_findEdgeL hs]
          exact hgE
        obtain ⟨hwc, hcne, hchd⟩ :=
          WFe_findEdgeL n.edges (p ++ n.pfx) hwe hg
        cases hp : hpFn false tl (label :: srest) c.pfx with
        | false =>
          have hnpre : ¬(c.pfx <+: (label :: srest)) := by
            intro hcontra
            simp only [hpFn, if_neg Bool.false_ne_true, goHasPrefix] at hp
            rw [List.isPrefixOf_iff_prefix.2 hcontra] at hp
            exact Bool.noConfusion hp
          have hncE : ∀ kv ∈ n.edges.contentE,
              ¬(kv.1 <+: (p ++ n.pfx ++ label :: srest)) := by
            intro kv hm hpre
            obtain ⟨c2, hf, hmc⟩ := cand_in_label_edge hwe hs kv hm hpre
            rw [hg] at hf
            obtain rfl := Option.some_inj.1 hf
            obtain ⟨ext, hke⟩ := keyShapeB c (p ++ n.pfx) hwc kv hmc
            rw [hke, List.append_assoc] at hpre
            have h2 := prefix_cancel hpre
            exact hnpre ((prefix_extend c.pfx ext).trans h2)
          cases hlf : n.leaf with
          | some lf =>
            have hr : longestPrefixRec false tl (fuel + 1) n
                (label :: srest) last = some lf := by
              simp only [longestPrefixRec, hlf, hgE, hp]
              rfl
            have hkey := hleaf lf hlf
            constructor
            · intro h0
              rw [hr] at h0
              exact Option.noConfusion h0
            · intro lf2 hlf2
              rw [hr] at hlf2
              obtain rfl := Option.some_inj.1 hlf2
              refine ⟨Or.inl ⟨?_, ?_⟩, ?_⟩
              · rw [content_eq_leaf_edges n, hlf]
                simp [lookupC]
              · rw [hkey]
                exact hQex
              · intro kv hm hpre
                rw [content_eq_leaf_edges n, hlf] at hm
                rcases List.mem_append.1 hm with hm2 | hm2
                · simp only [List.mem_singleton] at hm2
                  subst hm2
                  rw [hkey]
                · exact absurd hpre (hncE kv hm2)
          | none =>
            have hr : longestPrefixRec false tl (fuel + 1) n
                (label :: srest) last = last := by
              simp only [longestPrefixRec, hlf, hgE, hp]
              rfl
            have hnc : ∀ kv ∈ n.content,
                ¬(kv.1 <+: (p ++ n.pfx ++ label :: srest)) := by
              intro kv hm
              rw [content_eq_leaf_edges n, hlf, List.nil_append] at hm
              exact hncE kv hm
            constructor
            · intro h0
              rw [hr] at h0
              exact ⟨h0, hnc⟩
            · intro lf2 hlf2
              rw [hr] at hlf2
              refine ⟨Or.inr ⟨hlf2, hnc⟩, ?_⟩
              intro kv hm hpre
              exact absurd hpre (hnc kv hm)
        | true =>
          have hpre2 : c.pfx <+: (label :: srest) := by
            simp only [hpFn, if_neg Bool.false_ne_true, goHasPrefix] at hp
            exact List.isPrefixOf_iff_prefix.1 hp
          obtain ⟨tail, htail⟩ := hpre2
          have hdrop : (label :: srest).drop c.pfx.length = tail := by
            rw [← htail, List.drop_left]
          have hseq : p ++ n.pfx ++ label :: srest =
              (p ++ n.pfx) ++ c.pfx ++ tail := by
            rw [List.append_assoc (p ++ n.pfx), htail]
          have hcd : c.depth ≤ fuel := by
            have := getEdge_depth hgE
            rw [depth_eq] at hd
            omega
          have hlast1 : ∀ lf0,
              (match n.leaf with
               | some lf => some lf
               | none => last) = some lf0 →
              lf0.key <+: ((p ++ n.pfx) ++ c.pfx) := by
            intro lf0 h0
            cases hlf : n.leaf with
            | some lf =>
              rw [hlf] at h0
              obtain rfl := Option.some_inj.1 h0
              rw [hleaf lf hlf]
              exact prefix_extend _ _
            | none =>
              rw [hlf] at h0
              exact (hlast lf0 h0).trans (prefix_extend _ _)
          obtain ⟨ihnone, ihsome⟩ :=
            ih c (p ++ n.pfx) tail
              (match n.leaf with
               | some lf => some lf
               | none => last) hcd hwc hlast1
          have hr : longestPrefixRec false tl (fuel + 1) n
              (label :: srest) last =
              longestPrefixRec false tl fuel c tail
                (match n.leaf with
                 | some lf => some lf
                 | none => last) := by
            simp only [longestPrefixRec, hgE, hp, if_true]
            rw [hdrop]
          have hcandlift : ∀ kv : List Nat × V, kv ∈ n.content →
              kv.1 <+: (p ++ n.pfx ++ label :: srest) →
              (∃ lf0, n.leaf = some lf0 ∧ kv = (lf0.key, lf0.val)) ∨
                kv ∈ c.content := by
            intro kv hm hpre
            rw [content_eq_leaf_edges n] at hm
            rcases List.mem_append.1 hm with hm2 | hm2
            · cases hlf : n.leaf with
              | some lf0 =>
                rw [hlf] at hm2
                simp only [List.mem_singleton] at hm2
                exact Or.inl ⟨lf0, rfl, hm2⟩
              | none =>
                rw [hlf] at hm2
                exact absurd hm2 (List.not_mem_nil kv)
            · obtain ⟨c2, hf, hmc⟩ := cand_in_label_edge hwe hs kv hm2 hpre
              rw [hg] at hf
              obtain rfl := Option.some_inj.1 hf
              exact Or.inr hmc
          constructor
          · intro h0
            rw [hr] at h0
            obtain ⟨hL1, hncC⟩ := ihnone h0
            have hlfnone : n.leaf = none := by
              cases hlf : n.leaf with
              | some lf => rw [hlf] at hL1; exact Option.noConfusion hL1
              | none => rfl
            rw [hlfnone] at hL1
            refine ⟨hL1, ?_⟩
            intro kv hm hpre
            rcases hcandlift kv hm hpre with ⟨lf0, hlf0, _⟩ | hmc
            · rw [hlfnone] at hlf0
              exact Option.noConfusion hlf0
            · rw [hseq] at hpre
              exact hncC kv hmc hpre
          · intro lf hlf2
            rw [hr] at hlf2
            obtain ⟨hdisj, hmax⟩ := ihsome lf hlf2
            have hmaxN : ∀ kv ∈ n.content,
                kv.1 <+: (p ++ n.pfx ++ label :: srest) →
                kv.1.length ≤ lf.key.length := by
              intro kv hm hpre
              rcases hcandlift kv hm hpre with ⟨lf0, hlf0, hkv⟩ | hmc
              · subst hkv
                show lf0.key.length ≤ lf.key.length
                rcases hdisj with ⟨hlook, _⟩ | ⟨hL1, _⟩
                · have hmem := lookupC_mem hlook
                  obtain ⟨ext, hke⟩ := keyShapeB c (p ++ n.pfx) hwc _ hmem
                  simp only at hke
                  rw [hke, hleaf lf0 hlf0]
                  obtain ⟨t, hpt⟩ := pfx_head_cons hcne hchd
                  rw [hpt]
                  simp only [List.length_append, List.length_cons]
                  omega
                · rw [hlf0] at hL1
                  obtain rfl := Option.some_inj.1 hL1
                  rw [hleaf lf0 hlf0]
              · rw [hseq] at hpre
                exact hmax kv hmc hpre
            refine ⟨?_, hmaxN⟩
            rcases hdisj with ⟨hlook, hpre⟩ | ⟨hL1, hncC⟩
            · refine Or.inl ⟨?_, ?_⟩
              · have hmem := lookupC_mem hlook
                obtain ⟨ext, hke⟩ := keyShapeB c (p ++ n.pfx) hwc _ hmem
                simp only at hke
                obtain ⟨t, hpt⟩ := pfx_head_cons hcne hchd
                have hkshape : lf.key =
                    (p ++ n.pfx) ++ label :: (t ++ ext) := by
                  rw [hke, hpt, List.append_assoc, List.cons_append]
                rw [hkshape, lookupC_node_some hw hg (t ++ ext),
                  ← hkshape]
                exact hlook
              · rw [← hseq] at hpre
                exact hpre
            · cases hlf : n.leaf with
              | some lf0 =>
                rw [hlf] at hL1
                obtain rfl := Option.some_inj.1 hL1
                refine Or.inl ⟨?_, ?_⟩
                · rw [content_eq_leaf_edges n, hlf]
                  simp [lookupC]
                · rw [hleaf lf0 hlf]
                  exact hQex
              | none =>
                rw [hlf] at hL1
                refine Or.inr ⟨hL1, ?_⟩
                intro kv hm hpre
                rcases hcandlift kv hm hpre with ⟨lf1, hlf1, _⟩ | hmc
                · rw [hlf] at hlf1
                  exact Option.noConfusion hlf1
                · rw [hseq] at hpre
                  exact hncC kv hmc hpre

/-- C8: in byte-exact mode, on any well-formed tree, `LongestPrefix(q)`
returns a stored key that is a literal prefix of `q`, with its value, and
no stored key that is a prefix of `q` is longer; it returns
`found = false` exactly when no stored key is a prefix of `q`. -/
theorem C8_longest_prefix {V : Type} (tl : Nat → Nat) (t : GoTree V)
    (q : List Nat) (hf : t.fold = false) (hw : WFt t) :
    (t.LongestPrefix tl q = none →
      ∀ kv ∈ t.root.content, kv.1.isPrefixOf q = false) ∧
    (∀ k v, t.LongestPrefix tl q = some (k, v) →
      lookupC k t.root.content = some v ∧ k.isPrefixOf q = true ∧
      ∀ kv ∈ t.root.content, kv.1.isPrefixOf q = true →
        kv.1.length ≤ k.length) := by
  obtain ⟨hwb, hpfx⟩ := hw
  have hqq : [] ++ t.root.pfx ++ q = q := by
    rw [hpfx]
    rfl
  obtain ⟨hnone, hsome⟩ :=
    longestPrefixRec_spec tl t.root.depth t.root [] q none (le_refl _) hwb
      (fun lf0 h0 => Option.noConfusion h0)
  rw [hqq] at hnone hsome
  constructor
  · intro h0 kv hm
    have h0b : longestPrefixRec t.fold tl t.root.depth t.root q none =
        none := by
      cases hrec : longestPrefixRec t.fold tl t.root.depth t.root q none with
      | none => rfl
      | some lf =>
        have : t.LongestPrefix tl q = some (lf.key, lf.val) := by
          show (longestPrefixRec t.fold tl t.root.depth t.root q none).map
            _ = _
          rw [hrec]
          rfl
        rw [h0] at this
        exact Option.noConfusion this
    rw [hf] at h0b
    have hnc := (hnone h0b).2 kv hm
    cases hb : kv.1.isPrefixOf q with
    | false => rfl
    | true => exact absurd (List.isPrefixOf_iff_prefix.1 hb) hnc
  · intro k v h2
    cases hrec : longestPrefixRec t.fold tl t.root.depth t.root q none with
    | none =>
      have : t.LongestPrefix tl q = none := by
        show (longestPrefixRec t.fold tl t.root.depth t.root q none).map
          _ = _
        rw [hrec]
        rfl
      rw [h2] at this
      exact Option.noConfusion this
    | some lf =>
      have h3 : t.LongestPrefix tl q = some (lf.key, lf.val) := by
        show (longestPrefixRec t.fold tl t.root.depth t.root q none).map
          _ = _
        rw [hrec]
        rfl
      rw [h2] at h3
      obtain ⟨hk, hv⟩ : k = lf.key ∧ v = lf.val := by
        have h4 := Option.some_inj.1 h3
        simp only [Prod.mk.injEq] at h4
        exact ⟨h4.1, h4.2⟩
      subst hk
      subst hv
      rw [hf] at hrec
      obtain ⟨hdisj, hmax⟩ := hsome lf hrec
      rcases hdisj with ⟨hlook, hpre⟩ | ⟨hL, _⟩
      · refine ⟨hlook, List.isPrefixOf_iff_prefix.2 hpre, ?_⟩
        intro kv hm hb
        exact hmax kv hm (List.isPrefixOf_iff_prefix.1 hb)
      · exact Option.noConfusion hL

theorem decodeRune_size_le : ∀ s : List Nat, (decodeRune s).2 ≤ s.length := by
  intro s
  match s with
  | [] => simp [decodeRune]
  | s0 :: rest =>
    simp only [decodeRune]
    repeat' split
    all_goals simp_all [List.length_cons]
    all_goals omega

theorem longestPrefFoldLoopH_le (tl : Nat → Nat) (k1 k2 : List Nat) :
    ∀ (fuel i : Nat), i ≤ k1.length →
      longestPrefFoldLoopH tl k1 k2 fuel i ≤ k1.length := by
  intro fuel
  induction fuel with
  | zero => intro i hi; exact hi
  | succ fuel ih =>
    intro i hi
    simp only [longestPrefFoldLoopH]
    by_cases hlt : i < k1.length
    · rw [if_pos hlt]
      have hsz := decodeRune_size_le (k1.drop i)
      rw [List.length_drop] at hsz
      by_cases h80 : (decodeRune (k1.drop i)).1 < 0x80
      · rw [if_pos h80]
        by_cases hae : asciiEq (decodeRune (k1.drop i)).1 (k2.getD i 0) =
            true
        · rw [if_pos hae]
          exact ih _ (by omega)
        · rw [if_neg hae]
          omega
      · rw [if_neg h80]
        by_cases hre : runeEq tl (decodeRune (k1.drop i)).1
            (decodeRune (k2.drop i)).1 = true
        · rw [if_pos hre]
          exact ih _ (by omega)
        · rw [if_neg hre]
          omega
    · rw [if_neg hlt]

/-- The two helpers.go range loops walk `pre` in lockstep: when
`HasPrefixFold`'s loop accepts, `LongestPrefixFold`'s loop runs to
completion and returns `len(pre)`. -/
theorem foldLoops_align (tl : Nat → Nat) (s pre : List Nat) :
    ∀ (fuel i : Nat), hasPrefFoldLoopH tl s pre fuel i = true →
      longestPrefFoldLoopH tl pre s fuel i = pre.length := by
  intro fuel
  induction fuel with
  | zero => intro i h; exact Bool.noConfusion h
  | succ fuel ih =>
    intro i h
    simp only [hasPrefFoldLoopH] at h
    simp only [longestPrefFoldLoopH]
    by_cases hi : i < pre.length
    · rw [if_pos hi] at h
      rw [if_pos hi]
      by_cases h80 : (decodeRune (pre.drop i)).1 < 0x80
      · rw [if_pos h80] at h ⊢
        by_cases hae : asciiEq (decodeRune (pre.drop i)).1 (s.getD i 0) =
            true
        · rw [if_pos hae] at h ⊢
          exact ih _ h
        · rw [if_neg hae] at h
          exact Bool.noConfusion h
      · rw [if_neg h80] at h ⊢
        by_cases hre : runeEq tl (decodeRune (pre.drop i)).1
            (decodeRune (s.drop i)).1 = true
        · rw [if_pos hre] at h ⊢
          exact ih _ h
        · rw [if_neg hre] at h
          exact Bool.noConfusion h
    · rw [if_neg hi]

/-- C5 (amended to the helpers.go implementation): `LongestPrefixFold`
never exceeds the length of either input, and when `a` is a case-fold
prefix of `b` — in the code's own sense, `HasPrefixFold(b, a)` — it
returns `len(a)`.  (radix.go's private `longestPrefixFold` instead returns
`i + 1` when the shorter string is exhausted: see the counterexample.) -/
theorem C5_fold_lcp (tl : Nat → Nat) (a b : List Nat) :
    LongestPrefixFoldH tl a b ≤ min a.length b.length ∧
    (HasPrefixFoldH tl b a = true →
      LongestPrefixFoldH tl a b = a.length) := by
  constructor
  · simp only [LongestPrefixFoldH]
    by_cases hab : a.length > b.length
    · rw [if_pos hab, if_pos hab]
      have := longestPrefFoldLoopH_le tl b a (b.length + 1) 0
        (Nat.zero_le _)
      omega
    · rw [if_neg hab, if_neg hab]
      have := longestPrefFoldLoopH_le tl a b (a.length + 1) 0
        (Nat.zero_le _)
      omega
  · intro hh
    simp only [HasPrefixFoldH] at hh
    by_cases hlen : b.length < a.length
    · rw [if_pos hlen] at hh
      exact Bool.noConfusion hh
    · rw [if_neg hlen] at hh
      simp only [LongestPrefixFoldH]
      rw [if_neg (by omega), if_neg (by omega)]
      exact foldLoops_align tl b a (a.length + 1) 0 hh

/-- C4 (corrected): only `updateEdge` treats a missing label as fatal
(radix.go 96, `panic("replacing missing edge")`, modelled by `none`);
`delEdge` on a missing label silently returns the edge list unchanged —
its guard `idx < len(n.edges) && n.edges[idx].label == label` just skips
the removal. -/
theorem C4_missing_edge {V : Type} (es : GoEdges V) (x : Nat)
    (c : GoNode V) (hs : edgesSorted es) (habs : findEdgeL es x = none) :
    updateEdge es x c = none ∧ delEdge es x = es := by
  refine ⟨updateEdge_absent hs habs c, ?_⟩
  rw [delEdge_eq_delE hs, delE_id_of_none habs]

theorem WFt_empty (V : Type) (fold : Bool) : WFt (emptyTree V fold) :=
  ⟨⟨fun l h => Option.noConfusion h, trivial, trivial⟩, rfl⟩

theorem WFt_aByteTree : WFt aByteTree :=
  ⟨⟨fun l h => Option.noConfusion h, ⟨trivial, trivial⟩,
    ⟨List.cons_ne_nil 97 [], rfl,
      ⟨fun l hl => by obtain rfl := Option.some_inj.1 hl; rfl,
        trivial, trivial⟩, trivial⟩⟩, rfl⟩

/-- Concrete byte-mode run of `C1_set_get` on the empty tree. -/
theorem C1_witness :
    ∃ old t', (emptyTree Nat false).Insert toLowerA [97] 5 =
        .ok (old, t') ∧ t'.Get toLowerA [97] = some 5 :=
  C1_set_get toLowerA (emptyTree Nat false) [97] 5 rfl
    (WFt_empty Nat false)

/-- Concrete run of `C4_missing_edge` on a single sorted edge. -/
theorem C4_witness :
    updateEdge (GoEdges.cons 98
      (GoNode.mk (some ⟨[98], (1 : Nat)⟩) [98] GoEdges.nil) GoEdges.nil) 97
      (GoNode.mk (some ⟨[97], (2 : Nat)⟩) [97] GoEdges.nil) = none ∧
    delEdge (GoEdges.cons 98
      (GoNode.mk (some ⟨[98], (1 : Nat)⟩) [98] GoEdges.nil) GoEdges.nil) 97 =
      GoEdges.cons 98 (GoNode.mk (some ⟨[98], (1 : Nat)⟩) [98] GoEdges.nil)
        GoEdges.nil :=
  C4_missing_edge _ 97 _ ⟨trivial, trivial⟩ rfl

/-- Concrete run of `C6_len_leaves` on the empty tree. -/
theorem C6_witness :
    ((emptyTree Nat false).Len =
      ((emptyTree Nat false).root.numLeaves : Int)) ∧
    (∀ old t', (emptyTree Nat false).Insert toLowerA [97] 7 =
        .ok (old, t') →
      t'.Len = (t'.root.numLeaves : Int) ∧
      t'.Len = (emptyTree Nat false).Len +
        (if old.isSome then 0 else 1) ∧
      ((emptyTree Nat false).fold = false → WFt (emptyTree Nat false) →
        old = (emptyTree Nat false).Get toLowerA [97])) ∧
    (∀ res t', (emptyTree Nat false).Delete toLowerA [97] =
        .ok (res, t') →
      t'.Len = (t'.root.numLeaves : Int) ∧
      t'.Len = (emptyTree Nat false).Len -
        (if res.isSome then 1 else 0)) ∧
    (∀ cnt t', (emptyTree Nat false).DeletePrefix toLowerA [98] =
        .ok (cnt, t') →
      t'.Len = (t'.root.numLeaves : Int) ∧
      t'.Len = (emptyTree Nat false).Len - cnt) :=
  C6_len_leaves toLowerA (emptyTree Nat false) [97] [98] 7 rfl

/-- Concrete run of `C7_min_max` on the tree holding `"a" ↦ 1`. -/
theorem C7_witness :
    aByteTree.Minimum = aByteTree.root.content.head? ∧
    aByteTree.Maximum = aByteTree.root.content.getLast? ∧
    aByteTree.root.content.Pairwise (fun a b => lexLtb a.1 b.1 = true) ∧
    (aByteTree.root.content = [] →
      aByteTree.Minimum = none ∧ aByteTree.Maximum = none) :=
  C7_min_max aByteTree WFt_aByteTree rfl

/-- Concrete run of `C8_longest_prefix` on the tree holding `"a" ↦ 1`,
queried with `"ab"`. -/
theorem C8_witness :
    (aByteTree.LongestPrefix toLowerA [97, 98] = none →
      ∀ kv ∈ aByteTree.root.content, kv.1.isPrefixOf [97, 98] = false) ∧
    (∀ k v, aByteTree.LongestPrefix toLowerA [97, 98] = some (k, v) →
      lookupC k aByteTree.root.content = some v ∧
      k.isPrefixOf [97, 98] = true ∧
      ∀ kv ∈ aByteTree.root.content, kv.1.isPrefixOf [97, 98] = true →
        kv.1.length ≤ k.length) :=
  C8_longest_prefix toLowerA aByteTree [97, 98] rfl WFt_aByteTree

/-- Concrete run of `C10_delete_other`: deleting `"a"` leaves `Get("b")`
unchanged. -/
theorem C10_witness :
    ∃ res, aByteTree.Delete toLowerA [97] = .ok res ∧
      res.2.Get toLowerA [98] = aByteTree.Get toLowerA [98] :=
  C10_delete_other toLowerA aByteTree [97] [98] rfl WFt_aByteTree
    (by decide)
